import Mathlib

/-!
Verification of the fsx index subsystem against its specification.

The Go source is shallowly embedded: Go strings and byte slices become
`List Nat` (one element per byte), machine integers become `Nat`/`Int`,
maps become association lists in insertion order, and code that can
panic or return an error is modelled with `Option`.  External
collaborators named out of scope by the specification (the zstd
compressor, the BLAKE3 hash, the uniseg display-width function and the
Go time formatter) are treated as opaque parameters.
-/

namespace Fsx

/-- Byte strings: a Go `string` or `[]byte`, one `Nat` per byte. -/
abbrev Str := List Nat

/-! ## Flag set (source: Flag type, constants, String, parseFlag, write) -/

/-- Bit value of `flagDup`. -/
def flagDup : Nat := 1

/-- Bit value of `flagJunk`. -/
def flagJunk : Nat := 2

/-- Bit value (and mask) of `flagKeep`. -/
def flagKeep : Nat := 3

/-- Bit value of `flagGone`. -/
def flagGone : Nat := 4

/-- Bit value of `flagSame` (runtime only). -/
def flagSame : Nat := 16

/-- Mask of the persistent flag bits. -/
def flagPersist : Nat := 15

/-- Byte codes of the persisted flag letters D, J, K, X. -/
def flagDupS : Nat := 68

/-- Byte code of the letter J. -/
def flagJunkS : Nat := 74

/-- Byte code of the letter K. -/
def flagKeepS : Nat := 75

/-- Byte code of the letter X. -/
def flagGoneS : Nat := 88

/-- Source `Flag.IsGone`: whether the file no longer exists. -/
def flagIsGone (a : Nat) : Bool := a &&& flagGone != 0

/-- Source `Flag.Keep`: whether the file must be preserved. -/
def flagIsKeep (a : Nat) : Bool := a &&& flagKeep == flagKeep

/-- Source `Flag.IsSafe`: no persistent bits, or only Keep. -/
def flagIsSafe (a : Nat) : Bool :=
  a &&& flagPersist == 0 || a &&& flagPersist == flagKeep

/-- Source `Flag.write`: whether a file with this flag is written to the
index (not gone, or carrying a persistent mark). -/
def flagWrite (a : Nat) : Bool := a &&& flagGone == 0 || a &&& flagKeep != 0

/-- Source `Flag.String`: the persisted text form of a flag.  The switch
is on `a & flagPersist` with one case per persisted combination and an
empty default. -/
def flagString (a : Nat) : Str :=
  if a &&& flagPersist = flagDup then [flagDupS]
  else if a &&& flagPersist = flagJunk then [flagJunkS]
  else if a &&& flagPersist = flagKeep then [flagKeepS]
  else if a &&& flagPersist = flagDup ||| flagGone then [flagDupS, flagGoneS]
  else if a &&& flagPersist = flagJunk ||| flagGone then [flagJunkS, flagGoneS]
  else if a &&& flagPersist = flagKeep ||| flagGone then [flagKeepS, flagGoneS]
  else []

/-- Source `parseFlag`: decode the text form of a flag.  The Go function
returns `(a Flag, ok bool)`; `none` models `ok = false`. -/
def parseFlag (b : Str) : Option Nat :=
  if b = [] then some 0 else
  let ok0 : Bool := b.length == 1
  let p : Nat × Bool :=
    if b.getLastD 0 == flagGoneS then (flagGone, b.length == 2) else (0, ok0)
  let c := b.headD 0
  let q : Nat × Bool :=
    if c == flagDupS then (p.1 ||| flagDup, p.2)
    else if c == flagJunkS then (p.1 ||| flagJunk, p.2)
    else if c == flagKeepS then (p.1 ||| flagKeep, p.2)
    else (p.1, false)
  if q.2 then some q.1 else none

/-- The seven byte strings that are valid persisted flag encodings. -/
def persistedFlagStrings : List Str :=
  [[], [flagDupS], [flagJunkS], [flagKeepS],
   [flagDupS, flagGoneS], [flagJunkS, flagGoneS], [flagKeepS, flagGoneS]]

theorem parseFlag_nil : parseFlag [] = some 0 := by decide

theorem parseFlag_three_plus (c d e : Nat) (r : Str) :
    parseFlag (c :: d :: e :: r) = none := by
  have h1 : ((c :: d :: e :: r).length == 1) = false := by
    simp only [List.length_cons, beq_eq_false_iff_ne, ne_eq]
    omega
  have h2 : ((c :: d :: e :: r).length == 2) = false := by
    simp only [List.length_cons, beq_eq_false_iff_ne, ne_eq]
    omega
  simp only [parseFlag, h1, h2, reduceCtorEq, if_false]
  split <;> (try split) <;> (try split) <;> (try split) <;> simp_all

theorem parseFlag_one (c : Nat) :
    parseFlag [c] =
      if c = flagDupS then some flagDup
      else if c = flagJunkS then some flagJunk
      else if c = flagKeepS then some flagKeep
      else none := by
  by_cases h1 : c = flagDupS
  · subst h1; decide
  by_cases h2 : c = flagJunkS
  · subst h2; decide
  by_cases h3 : c = flagKeepS
  · subst h3; decide
  by_cases h4 : c = flagGoneS
  · subst h4; decide
  simp only [parseFlag, h1, h2, h3, if_false, reduceCtorEq]
  have hx : ([c].getLastD 0 == flagGoneS) = false := by
    simpa [flagGoneS] using h4
  simp [hx, h1, h2, h3]

theorem parseFlag_two (c d : Nat) :
    parseFlag [c, d] =
      if d = flagGoneS then
        if c = flagDupS then some (flagDup ||| flagGone)
        else if c = flagJunkS then some (flagJunk ||| flagGone)
        else if c = flagKeepS then some (flagKeep ||| flagGone)
        else none
      else none := by
  have hlast : [c, d].getLastD 0 = d := rfl
  have hhead : [c, d].headD 0 = c := rfl
  by_cases hd : d = flagGoneS
  · by_cases h1 : c = flagDupS
    · subst hd h1; decide
    by_cases h2 : c = flagJunkS
    · subst hd h2; decide
    by_cases h3 : c = flagKeepS
    · subst hd h3; decide
    simp only [parseFlag, hlast, hhead, hd, h1, h2, h3]
    simp_all [flagDupS, flagJunkS, flagKeepS]
  · simp only [parseFlag, hlast, hhead]
    have hx : (d == flagGoneS) = false := by simpa [flagGoneS] using hd
    have hlen : ([c, d].length == 1) = false := rfl
    simp only [hx, hlen, if_false, reduceCtorEq, Bool.false_eq_true]
    split <;> (try split) <;> (try split) <;> simp_all

/-- Claim C8: `parseFlag` accepts exactly the persisted flag encodings:
the empty string (None), "D", "J", "K", and each of those followed by
"X" for the gone bit; every other input, including "X" alone, is
rejected, for every input string. -/
theorem c8_parseFlag_exact :
    (∀ b : Str, (parseFlag b).isSome = true ↔ b ∈ persistedFlagStrings) ∧
    parseFlag [] = some 0 ∧
    parseFlag [flagDupS] = some flagDup ∧
    parseFlag [flagJunkS] = some flagJunk ∧
    parseFlag [flagKeepS] = some flagKeep ∧
    parseFlag [flagDupS, flagGoneS] = some (flagDup ||| flagGone) ∧
    parseFlag [flagJunkS, flagGoneS] = some (flagJunk ||| flagGone) ∧
    parseFlag [flagKeepS, flagGoneS] = some (flagKeep ||| flagGone) ∧
    parseFlag [flagGoneS] = none := by
  refine ⟨?_, by decide, by decide, by decide, by decide, by decide,
    by decide, by decide, by decide⟩
  intro b
  match b with
  | [] => simp [parseFlag_nil, persistedFlagStrings]
  | [c] =>
    rw [parseFlag_one]
    by_cases h1 : c = flagDupS
    · simp_all [persistedFlagStrings, flagDupS, flagJunkS, flagKeepS, flagGoneS]
    by_cases h2 : c = flagJunkS
    · simp_all [persistedFlagStrings, flagDupS, flagJunkS, flagKeepS, flagGoneS]
    by_cases h3 : c = flagKeepS
    · simp_all [persistedFlagStrings, flagDupS, flagJunkS, flagKeepS, flagGoneS]
    simp_all [persistedFlagStrings, flagDupS, flagJunkS, flagKeepS, flagGoneS]
  | [c, d] =>
    rw [parseFlag_two]
    by_cases hd : d = flagGoneS
    · by_cases h1 : c = flagDupS
      · simp_all [persistedFlagStrings, flagDupS, flagJunkS, flagKeepS,
          flagGoneS]
      by_cases h2 : c = flagJunkS
      · simp_all [persistedFlagStrings, flagDupS, flagJunkS, flagKeepS,
          flagGoneS]
      by_cases h3 : c = flagKeepS
      · simp_all [persistedFlagStrings, flagDupS, flagJunkS, flagKeepS,
          flagGoneS]
      simp_all [persistedFlagStrings, flagDupS, flagJunkS, flagKeepS, flagGoneS]
    · simp_all [persistedFlagStrings, flagDupS, flagJunkS, flagKeepS, flagGoneS]
  | c :: d :: e :: r =>
    rw [parseFlag_three_plus]
    simp [persistedFlagStrings]

/-- Claim C10: every flag made of persistent bits that is actually
persisted (a mark in None, Dup, Junk, Keep, optionally with Gone,
excluding Gone with no mark, which is exactly the set on which
`Flag.write` is true) survives the string round trip:
`parseFlag (flagString a) = some a`.  A Gone flag with no mark encodes
as the empty string and parses back to None. -/
theorem c10_flag_string_roundtrip :
    (∀ mark : Nat, ∀ gone : Bool, mark ≤ flagKeep →
      flagWrite (mark ||| (if gone then flagGone else 0)) = true →
      parseFlag (flagString (mark ||| (if gone then flagGone else 0))) =
        some (mark ||| (if gone then flagGone else 0))) ∧
    flagString flagGone = [] ∧ parseFlag [] = some 0 := by
  refine ⟨?_, by decide, by decide⟩
  intro mark gone hm
  simp only [flagKeep] at hm
  interval_cases mark <;> cases gone <;> decide

/-- Witness for C10 at a concrete flag (Dup together with Gone). -/
theorem c10_flag_string_roundtrip_witness :
    parseFlag (flagString (flagDup ||| flagGone)) =
      some (flagDup ||| flagGone) := by
  have h := c10_flag_string_roundtrip.1 flagDup true (by decide) (by decide)
  simpa using h

/-! ## Path algebra (source: path.go, lowercase `path` string type)

Byte values used below: `/` is 47, `.` is 46, tab is 9, newline is 10,
carriage return is 13, colon is 58. -/

/-- The root directory path `"."`. -/
def rootP : Str := [46]

/-- Source `path.isDir`: root, or a trailing slash. -/
def isDirP (p : Str) : Bool := 0 < p.length && (p = rootP || p.getLastD 0 = 47)

/-- Source `path.isFile`: nonempty, not root, no trailing slash. -/
def isFileP (p : Str) : Bool :=
  0 < p.length && p ≠ rootP && p.getLastD 0 ≠ 47

/-- Source `path.contains`: `other` is under the directory tree `p`
(true also when the two are the same directory, or `p` is the root). -/
def containsP (p other : Str) : Bool :=
  p = rootP ||
    (0 < p.length && p.length ≤ other.length &&
      other.take p.length = p && p.getLastD 0 = 47)

/-- Model of `strings.LastIndexByte`: index of the last occurrence of
byte `b` in `s`, or -1 when absent. -/
def lastIndexByte (s : Str) (b : Nat) : Int :=
  if s.reverse.contains b then
    (s.length : Int) - 1 - (s.reverse.indexOf b : Int)
  else -1

/-- Source `path.dir`: parent directory.  `none` models the panic on an
empty path. -/
def dirOfP (p : Str) : Option Str :=
  if p = [] then none
  else
    let i := lastIndexByte (p.take (p.length - 1)) 47
    if 0 < i then some (p.take (i.toNat + 1)) else some rootP

/-- Source `path.base`: last element of the path.  `none` models the
panic on an empty path. -/
def baseOfP (p : Str) : Option Str :=
  if p = [] then none
  else if 0 < lastIndexByte
      (if p.getLastD 0 = 47 then p.take (p.length - 1) else p) 47 then
    some ((if p.getLastD 0 = 47 then p.take (p.length - 1) else p).drop
      ((lastIndexByte
        (if p.getLastD 0 = 47 then p.take (p.length - 1) else p) 47).toNat +
        1))
  else some (if p.getLastD 0 = 47 then p.take (p.length - 1) else p)

/-- One step of source `path.commonRoot`: strip matching leading
`name/` components from both paths, returning the number of bytes of
`p` that remain. -/
def commonRootRem (a b : Str) : Nat :=
  if a.indexOf 47 < a.length ∧ a.indexOf 47 + 1 ≤ b.length ∧
      a.take (a.indexOf 47 + 1) = b.take (a.indexOf 47 + 1) then
    commonRootRem (a.drop (a.indexOf 47 + 1)) (b.drop (a.indexOf 47 + 1))
  else a.length
termination_by a.length
decreasing_by
  have h1 : (List.indexOf 47 a) < a.length := by
    rename_i h
    exact h.1
  have h2 : a.length - (List.indexOf 47 a + 1) < a.length := by omega
  simpa using h2

/-- Source `path.commonRoot`: the directory that is a parent of both
paths.  `none` models the panic when both paths share no prefix and one
of them is empty. -/
def commonRootP (p other : Str) : Option Str :=
  if p.take (p.length - commonRootRem p other) ≠ [] then
    some (p.take (p.length - commonRootRem p other))
  else if p ≠ [] ∧ other ≠ [] then some rootP
  else none

/-- Source `path.dist`: number of directory steps between two paths
after removing the common root. -/
def distP (p other : Str) : Option Nat :=
  match commonRootP p other with
  | none => none
  | some r =>
    if r ≠ rootP then
      some ((p.drop r.length).count 47 + (other.drop r.length).count 47)
    else some (p.count 47 + other.count 47)

/-- Result encoding of the three-way comparisons: Go returns -1, 0, +1. -/
def lessIf (b : Bool) : Int := if b then -1 else 1

/-- The byte loop of source `path.cmp` together with its two
prefix-suffix epilogues.  `prev` is the byte consumed immediately
before the current position (the last byte of the common prefix);
`none` models the panic "directory without separator suffix". -/
def cmpCore (prev : Option Nat) : Str → Str → Option Int
  | [], [] => some 0
  | [], y :: ys =>
    if y = 47 then none
    else some (lessIf (prev = some 47 || !(y :: ys).contains 47))
  | x :: xs, [] =>
    if x = 47 then none
    else some (lessIf (!(prev = some 47 || !(x :: xs).contains 47)))
  | x :: xs, y :: ys =>
    if x = y then cmpCore (some x) xs ys
    else if x = 47 then some (-1)
    else if y = 47 then some 1
    else
      let aDir := xs.contains 47
      let bDir := ys.contains 47
      if aDir ≠ bDir then some (lessIf aDir) else some (lessIf (x < y))

/-- Source `path.cmp`: three-way path comparison.  `none` models the
two panics (empty path, and a name used as both file and directory). -/
def cmpP (p other : Str) : Option Int :=
  if p.length ≤ 1 ∨ other.length ≤ 1 then
    if p = [] ∨ other = [] then none
    else if p = rootP ∨ other = rootP then
      if p = other then some 0 else some (lessIf (p = rootP))
    else cmpCore none p other
  else cmpCore none p other

/-! ### Segment view of paths, used to prove that `cmpP` is a total
order.  A non-root path is a nonempty list of named steps; each step is
a directory (followed by `/`) except that the final step of a file path
is bare. -/

/-- A path segment: name bytes plus whether the step is a directory. -/
abbrev Seg := Str × Bool

/-- Rebuild the byte string of a segment list. -/
def segsToStr (l : List Seg) : Str :=
  l.foldr (fun s acc => s.1 ++ (if s.2 then 47 :: acc else acc)) []

/-- Parse a non-root path into segments.  Rejects empty names (leading
slash, double slash) and the empty path. -/
def strToSegs (p : Str) : Option (List Seg) :=
  if p.takeWhile (fun b => b ≠ 47) = [] then none
  else
    match hr : p.drop (p.takeWhile (fun b => b ≠ 47)).length with
    | [] => some [(p.takeWhile (fun b => b ≠ 47), false)]
    | 47 :: rest2 =>
      if rest2 = [] then some [(p.takeWhile (fun b => b ≠ 47), true)]
      else (fun l => (p.takeWhile (fun b => b ≠ 47), true) :: l) <$>
        strToSegs rest2
    | _ :: _ => none
termination_by p.length
decreasing_by
  have hlen : (p.drop (p.takeWhile (fun b => b ≠ 47)).length).length
      = p.length - (p.takeWhile (fun b => b ≠ 47)).length := by
    simp
  rw [hr] at hlen
  simp at hlen
  omega

/-- Well-formed segment tails used inside the comparison proofs: no
slash inside a name, every step but the last is a directory, and every
name after the first is nonempty. -/
def WfSegs (l : List Seg) : Prop :=
  (∀ s ∈ l, ¬(47 ∈ s.1)) ∧ (∀ s ∈ l.dropLast, s.2 = true) ∧
    (∀ s ∈ l.tail, s.1 ≠ [])

/-- Byte-wise lexicographic name comparison (mismatch compares bytes, a
proper prefix sorts first). -/
def nameCmp : Str → Str → Int
  | [], [] => 0
  | [], _ :: _ => -1
  | _ :: _, [] => 1
  | x :: xs, y :: ys => if x = y then nameCmp xs ys else lessIf (x < y)

/-- Comparison of two segments with different names: the directory kind
wins, names break ties within a kind. -/
def segCmpK (s t : Seg) : Int :=
  if s.2 = t.2 then nameCmp s.1 t.1 else lessIf s.2

/-- Lexicographic comparison of segment lists; `none` is the file
versus directory conflict (equal names of different kinds). -/
def lexCmp : List Seg → List Seg → Option Int
  | [], [] => some 0
  | [], _ :: _ => some (-1)
  | _ :: _, [] => some 1
  | s :: ss, t :: ts =>
    if s = t then lexCmp ss ts
    else if s.1 = t.1 then none
    else some (segCmpK s t)

/-! ### Basic properties of the comparison primitives -/

theorem lessIf_neg (b : Bool) : lessIf (!b) = -lessIf b := by
  cases b <;> decide

theorem nameCmp_range : ∀ a b : Str, nameCmp a b = -1 ∨ nameCmp a b = 0 ∨
    nameCmp a b = 1 := by
  intro a
  induction a with
  | nil => intro b; cases b <;> simp [nameCmp]
  | cons x xs ih =>
    intro b
    cases b with
    | nil => simp [nameCmp]
    | cons y ys =>
      by_cases h : x = y
      · simpa [nameCmp, h] using ih ys
      · simp only [nameCmp, h, if_false, lessIf]
        split <;> simp

theorem nameCmp_self : ∀ a : Str, nameCmp a a = 0 := by
  intro a
  induction a with
  | nil => rfl
  | cons x xs ih => simpa [nameCmp] using ih

theorem nameCmp_eq_zero : ∀ a b : Str, nameCmp a b = 0 → a = b := by
  intro a
  induction a with
  | nil => intro b; cases b <;> simp [nameCmp]
  | cons x xs ih =>
    intro b
    cases b with
    | nil => simp [nameCmp]
    | cons y ys =>
      by_cases h : x = y
      · intro h0
        have := ih ys (by simpa [nameCmp, h] using h0)
        simp [h, this]
      · simp only [nameCmp, h, if_false, lessIf]
        split <;> simp

theorem nameCmp_antisymm : ∀ a b : Str, nameCmp b a = -nameCmp a b := by
  intro a
  induction a with
  | nil => intro b; cases b <;> simp [nameCmp]
  | cons x xs ih =>
    intro b
    cases b with
    | nil => simp [nameCmp]
    | cons y ys =>
      by_cases h : x = y
      · simpa [nameCmp, h] using ih ys
      · have hne : ¬y = x := fun hc => h hc.symm
        simp only [nameCmp, h, hne, if_false, lessIf]
        rcases Nat.lt_trichotomy x y with hlt | heq | hgt
        · simp [hlt, Nat.not_lt_of_lt hlt]
        · exact absurd heq h
        · simp [hgt, Nat.not_lt_of_lt hgt]

theorem nameCmp_trans : ∀ a b c : Str, nameCmp a b = -1 → nameCmp b c = -1 →
    nameCmp a c = -1 := by
  intro a
  induction a with
  | nil =>
    intro b c hab hbc
    cases c with
    | nil =>
      cases b with
      | nil => simpa [nameCmp] using hab
      | cons y ys => simpa [nameCmp] using hbc
    | cons z zs => simp [nameCmp]
  | cons x xs ih =>
    intro b c hab hbc
    cases b with
    | nil => simp [nameCmp] at hab
    | cons y ys =>
      cases c with
      | nil => simp [nameCmp] at hbc
      | cons z zs =>
        by_cases hxy : x = y
        · subst hxy
          by_cases hyz : x = z
          · subst hyz
            simp only [nameCmp, if_pos rfl] at hab hbc ⊢
            exact ih ys zs hab hbc
          · simp only [nameCmp, if_pos rfl] at hab
            simpa [nameCmp, hyz] using hbc
        · by_cases hyz : y = z
          · subst hyz
            simpa [nameCmp, hxy] using hab
          · simp only [nameCmp, hxy, hyz, if_false, lessIf] at hab hbc
            have hx : x < y := by
              by_contra hc
              simp [hc] at hab
            have hy : y < z := by
              by_contra hc
              simp [hc] at hbc
            have hxz : x ≠ z := by omega
            simp [nameCmp, hxz, lessIf, Nat.lt_trans hx hy]

theorem segCmpK_self_name (s : Seg) : segCmpK s s = 0 := by
  simp [segCmpK, nameCmp_self]

theorem segCmpK_range (s t : Seg) :
    segCmpK s t = -1 ∨ segCmpK s t = 0 ∨ segCmpK s t = 1 := by
  unfold segCmpK
  split
  · exact nameCmp_range s.1 t.1
  · unfold lessIf; split <;> simp

theorem segCmpK_ne_zero (s t : Seg) (h : s.1 ≠ t.1) : segCmpK s t ≠ 0 := by
  unfold segCmpK
  split
  · intro h0
    exact h (nameCmp_eq_zero _ _ h0)
  · unfold lessIf; split <;> simp

theorem segCmpK_antisymm (s t : Seg) : segCmpK t s = -segCmpK s t := by
  rcases s with ⟨ns, ks⟩
  rcases t with ⟨nt, kt⟩
  cases ks <;> cases kt
  · simpa [segCmpK] using nameCmp_antisymm ns nt
  · simp [segCmpK, lessIf]
  · simp [segCmpK, lessIf]
  · simpa [segCmpK] using nameCmp_antisymm ns nt

theorem segCmpK_trans (s t u : Seg) (hst : s.1 ≠ t.1) (htu : t.1 ≠ u.1)
    (h1 : segCmpK s t = -1) (h2 : segCmpK t u = -1) : segCmpK s u = -1 := by
  rcases s with ⟨ns, ks⟩
  rcases t with ⟨nt, kt⟩
  rcases u with ⟨nu, ku⟩
  cases ks <;> cases kt <;> cases ku <;>
    simp_all [segCmpK, lessIf] <;>
    exact nameCmp_trans _ _ _ h1 h2

/-! ### Properties of the lexicographic segment comparison -/

theorem lexCmp_self : ∀ l : List Seg, lexCmp l l = some 0 := by
  intro l
  induction l with
  | nil => rfl
  | cons s ss ih => simpa [lexCmp] using ih

theorem lexCmp_range : ∀ a b : List Seg, ∀ c, lexCmp a b = some c →
    c = -1 ∨ c = 0 ∨ c = 1 := by
  intro a
  induction a with
  | nil =>
    intro b c h
    cases b <;> simp [lexCmp] at h <;> omega
  | cons s ss ih =>
    intro b c h
    cases b with
    | nil => simp [lexCmp] at h; omega
    | cons t ts =>
      by_cases hst : s = t
      · exact ih ts c (by simpa [lexCmp, hst] using h)
      · by_cases hn : s.1 = t.1
        · simp [lexCmp, hst, hn] at h
        · simp only [lexCmp, hst, hn, if_false, Option.some.injEq] at h
          subst h
          exact segCmpK_range s t

theorem lexCmp_eq_zero : ∀ a b : List Seg, lexCmp a b = some 0 → a = b := by
  intro a
  induction a with
  | nil =>
    intro b h
    cases b with
    | nil => rfl
    | cons t ts => simp [lexCmp] at h
  | cons s ss ih =>
    intro b h
    cases b with
    | nil => simp [lexCmp] at h
    | cons t ts =>
      by_cases hst : s = t
      · subst hst
        have := ih ts (by simpa [lexCmp] using h)
        simp [this]
      · by_cases hn : s.1 = t.1
        · simp [lexCmp, hst, hn] at h
        · simp only [lexCmp, hst, hn, if_false, Option.some.injEq] at h
          exact absurd h (segCmpK_ne_zero s t hn)

theorem lexCmp_antisymm : ∀ a b : List Seg,
    lexCmp b a = (lexCmp a b).map (fun c => -c) := by
  intro a
  induction a with
  | nil => intro b; cases b <;> simp [lexCmp]
  | cons s ss ih =>
    intro b
    cases b with
    | nil => simp [lexCmp]
    | cons t ts =>
      by_cases hst : s = t
      · subst hst
        simpa [lexCmp] using ih ts
      · have hts : ¬t = s := fun hc => hst hc.symm
        by_cases hn : s.1 = t.1
        · simp only [lexCmp, if_neg hst, if_neg hts, if_pos hn, if_pos hn.symm]
          rfl
        · have hn2 : ¬t.1 = s.1 := fun hc => hn hc.symm
          simp only [lexCmp, if_neg hst, if_neg hts, if_neg hn, if_neg hn2,
            Option.map_some]
          rw [segCmpK_antisymm]
          rfl

theorem lexCmp_trans : ∀ a b c : List Seg,
    lexCmp a b = some (-1) → lexCmp b c = some (-1) →
    (lexCmp a c).isSome = true → lexCmp a c = some (-1) := by
  intro a
  induction a with
  | nil =>
    intro b c hab hbc hac
    cases b with
    | nil => simp [lexCmp] at hab
    | cons t ts =>
      cases c with
      | nil => simp [lexCmp] at hbc
      | cons u us => simp [lexCmp]
  | cons s ss ih =>
    intro b c hab hbc hac
    cases b with
    | nil => simp [lexCmp] at hab
    | cons t ts =>
      cases c with
      | nil => simp [lexCmp] at hbc
      | cons u us =>
        by_cases hst : s = t
        · subst hst
          simp only [lexCmp, if_pos rfl] at hab
          by_cases hsu : s = u
          · subst hsu
            simp only [lexCmp, if_pos rfl] at hbc hac ⊢
            exact ih ts us hab hbc hac
          · by_cases hn : s.1 = u.1
            · simp [lexCmp, hsu, hn] at hbc
            · simp only [lexCmp, if_neg hsu, hn, if_false] at hbc ⊢
              exact hbc
        · by_cases htu : t = u
          · rcases htu with rfl
            by_cases hn1 : s.1 = t.1
            · simp [lexCmp, hst, hn1] at hab
            · simp only [lexCmp, if_neg hst, hn1, if_false] at hab ⊢
              exact hab
          · by_cases hn1 : s.1 = t.1
            · simp [lexCmp, hst, hn1] at hab
            · by_cases hn2 : t.1 = u.1
              · simp [lexCmp, htu, hn2] at hbc
              · simp only [lexCmp, if_neg hst, hn1, if_false,
                  Option.some.injEq] at hab
                simp only [lexCmp, if_neg htu, hn2, if_false,
                  Option.some.injEq] at hbc
                have h3 : segCmpK s u = -1 :=
                  segCmpK_trans s t u hn1 hn2 hab hbc
                by_cases hsu : s = u
                · exfalso
                  rw [hsu, segCmpK_self_name] at h3
                  exact absurd h3 (by decide)
                · by_cases hnu : s.1 = u.1
                  · exfalso
                    revert hac
                    simp [lexCmp, hsu, hnu]
                  · simp [lexCmp, hsu, hnu, h3]

/-! ### Soundness of the segment parser -/

theorem segsToStr_cons (n : Str) (k : Bool) (r : List Seg) :
    segsToStr ((n, k) :: r) =
      n ++ (if k then 47 :: segsToStr r else segsToStr r) := rfl

theorem drop_takeWhile_length (q : Nat → Bool) :
    ∀ l : Str, l.drop (l.takeWhile q).length = l.dropWhile q := by
  intro l
  induction l with
  | nil => rfl
  | cons x xs ih =>
    by_cases h : q x
    · simpa [List.takeWhile_cons, List.dropWhile_cons, h] using ih
    · simp [List.takeWhile_cons, List.dropWhile_cons, h]

theorem takeWhile_append_drop_self (q : Nat → Bool) (l : Str) :
    l.takeWhile q ++ l.drop (l.takeWhile q).length = l := by
  rw [drop_takeWhile_length]
  exact List.takeWhile_append_dropWhile q l

theorem strToSegs_props : ∀ (n : Nat) (p : Str) (l : List Seg),
    p.length ≤ n → strToSegs p = some l →
    segsToStr l = p ∧ l ≠ [] ∧ (∀ s ∈ l, ¬47 ∈ s.1 ∧ s.1 ≠ []) ∧
      (∀ s ∈ l.dropLast, s.2 = true) := by
  intro n
  induction n with
  | zero =>
    intro p l hlen h
    have hp : p = [] := List.length_eq_zero.mp (Nat.le_zero.mp hlen)
    subst hp
    rw [strToSegs] at h
    simp at h
  | succ n ih =>
    intro p l hlen h
    rw [strToSegs] at h
    by_cases hname : p.takeWhile (fun b => b ≠ 47) = []
    · rw [if_pos hname] at h
      exact absurd h (by simp)
    · rw [if_neg hname] at h
      have hsplit := takeWhile_append_drop_self (fun b => b ≠ 47) p
      have hnosl : ¬47 ∈ p.takeWhile (fun b => b ≠ 47) := by
        intro hmem
        have := List.mem_takeWhile_imp hmem
        simp at this
      split at h
      · -- file path: no separator after the name
        rename_i heq
        rw [heq] at hsplit
        simp only [Option.some.injEq] at h
        subst h
        refine ⟨?_, by simp, ?_, by simp⟩
        · simpa [segsToStr] using hsplit
        · intro s hs
          simp only [List.mem_singleton] at hs
          subst hs
          exact ⟨hnosl, hname⟩
      · -- a separator follows the name
        rename_i rest2 heq
        rw [heq] at hsplit
        by_cases hr2 : rest2 = []
        · rw [if_pos hr2] at h
          simp only [Option.some.injEq] at h
          subst h
          rw [hr2] at hsplit
          refine ⟨?_, by simp, ?_, by simp⟩
          · simpa [segsToStr] using hsplit
          · intro s hs
            simp only [List.mem_singleton] at hs
            subst hs
            exact ⟨hnosl, hname⟩
        · rw [if_neg hr2] at h
          simp only [Option.map_eq_some] at h
          rcases h with ⟨l2, hl2, hl⟩
          subst hl
          have hlen2 : rest2.length ≤ n := by
            have h1 : p.length = (p.takeWhile (fun b => b ≠ 47)).length +
                (47 :: rest2).length := by
              conv_lhs => rw [← hsplit]
              rw [List.length_append]
            have h2 : 1 ≤ (p.takeWhile (fun b => b ≠ 47)).length := by
              rcases hq : p.takeWhile (fun b => b ≠ 47) with _ | _
              · exact absurd hq hname
              · rw [hq]
                simp
            simp only [List.length_cons] at h1
            omega
          obtain ⟨hstr2, hne2, hwf2, hkinds2⟩ := ih rest2 l2 hlen2 hl2
          refine ⟨?_, by simp, ?_, ?_⟩
          · rw [segsToStr_cons, if_pos rfl, hstr2]
            exact hsplit
          · intro s hs
            rcases List.mem_cons.mp hs with hs | hs
            · subst hs; exact ⟨hnosl, hname⟩
            · exact hwf2 s hs
          · intro s hs
            have hld : ((p.takeWhile (fun b => b ≠ 47), true) :: l2).dropLast
                = (p.takeWhile (fun b => b ≠ 47), true) :: l2.dropLast := by
              rcases l2 with _ | _
              · exact absurd rfl hne2
              · rfl
            rw [hld] at hs
            rcases List.mem_cons.mp hs with hs | hs
            · subst hs; rfl
            · exact hkinds2 s hs
      · -- a byte other than the separator: impossible after takeWhile
        rename_i c rest heq hcons
        exact absurd h (by simp)

theorem wf_false_rest (n : Str) (r : List Seg)
    (h : ∀ s ∈ ((n, false) :: r).dropLast, s.2 = true) : r = [] := by
  rcases r with _ | ⟨t, ts⟩
  · rfl
  · have hm : (n, false) ∈ ((n, false) :: t :: ts).dropLast := by
      rw [List.dropLast_cons₂]
      exact List.mem_cons_self _ _
    exact absurd (h _ hm) (by simp)

theorem lexCmp_cons_byte (x : Nat) (a b : Str) (k1 k2 : Bool)
    (r1 r2 : List Seg) :
    lexCmp ((x :: a, k1) :: r1) ((x :: b, k2) :: r2) =
      lexCmp ((a, k1) :: r1) ((b, k2) :: r2) := by
  by_cases h1 : (a, k1) = (b, k2)
  · have hab : a = b := congrArg Prod.fst h1
    have hk : k1 = k2 := congrArg Prod.snd h1
    subst hab; subst hk
    simp [lexCmp]
  · have h1x : ¬((x :: a, k1) = (x :: b, k2)) := by
      intro hc
      apply h1
      have hn : x :: a = x :: b := congrArg Prod.fst hc
      have hk : k1 = k2 := congrArg Prod.snd hc
      simp only [List.cons.injEq] at hn
      rw [hn.2, hk]
    by_cases h2 : a = b
    · subst h2
      simp [lexCmp, h1, h1x]
    · have h2x : ¬(x :: a = x :: b) := by
        intro hc
        simp only [List.cons.injEq] at hc
        exact h2 hc.2
      have hseg : segCmpK (x :: a, k1) (x :: b, k2) = segCmpK (a, k1) (b, k2) := by
        unfold segCmpK
        by_cases hk : k1 = k2
        · simp [hk, nameCmp]
        · simp [hk]
      simp [lexCmp, h1, h1x, h2, h2x, hseg]

/-- The byte string that follows a segment name: a slash and the rest
for a directory step, nothing for a final file name. -/
def tailS (k : Bool) (r : List Seg) : Str :=
  if k then 47 :: segsToStr r else segsToStr r

theorem segsToStr_eq_tailS (n : Str) (k : Bool) (r : List Seg) :
    segsToStr ((n, k) :: r) = n ++ tailS k r := by
  rw [segsToStr_cons, tailS]

theorem contains_tailS (n : Str) (k : Bool) (r : List Seg)
    (h47 : ¬47 ∈ n) (hf : k = false → r = []) :
    (n ++ tailS k r).contains 47 = k := by
  cases k
  · rw [hf rfl]
    simp only [tailS, if_false]
    show List.elem 47 (n ++ segsToStr []) = false
    rw [List.elem_eq_mem]
    simp only [segsToStr, List.foldr_nil, List.append_nil]
    simpa using h47
  · simp only [tailS, if_true]
    show List.elem 47 (n ++ 47 :: segsToStr r) = true
    rw [List.elem_eq_mem]
    simp

theorem cmpSeg : ∀ (m : Nat) (n1 : Str) (k1 : Bool) (r1 : List Seg)
    (n2 : Str) (k2 : Bool) (r2 : List Seg) (prev : Option Nat),
    (n1 ++ tailS k1 r1).length + (n2 ++ tailS k2 r2).length ≤ m →
    ¬47 ∈ n1 → ¬47 ∈ n2 →
    (k1 = false → r1 = []) → (k2 = false → r2 = []) →
    (∀ s ∈ r1, ¬47 ∈ s.1 ∧ s.1 ≠ []) → (∀ s ∈ r1.dropLast, s.2 = true) →
    (∀ s ∈ r2, ¬47 ∈ s.1 ∧ s.1 ≠ []) → (∀ s ∈ r2.dropLast, s.2 = true) →
    ((n1 = [] ∨ n2 = []) → prev ≠ some 47) →
    cmpCore prev (n1 ++ tailS k1 r1) (n2 ++ tailS k2 r2) =
      lexCmp ((n1, k1) :: r1) ((n2, k2) :: r2) := by
  intro m
  induction m using Nat.strong_induction_on with
  | _ m ih =>
  intro n1 k1 r1 n2 k2 r2 prev hm h47a h47b hf1 hf2 hw1 hw2 hv1 hv2 hprev
  rcases n1 with _ | ⟨x, xs⟩
  · rcases n2 with _ | ⟨y, ys⟩
    · -- both names exhausted
      have hna : prev ≠ some 47 := hprev (Or.inl rfl)
      cases k1
      · cases k2
        · -- file versus file: equal heads, both lists end
          rw [hf1 rfl, hf2 rfl]
          simp [tailS, segsToStr, cmpCore, lexCmp]
        · -- file versus directory: conflict panic
          rw [hf1 rfl]
          simp [tailS, segsToStr, cmpCore, lexCmp]
      · cases k2
        · -- directory versus file: conflict panic
          rw [hf2 rfl]
          simp [tailS, segsToStr, cmpCore, lexCmp]
        · -- directory versus directory with the same name
          show cmpCore prev ([] ++ (47 :: segsToStr r1))
              ([] ++ (47 :: segsToStr r2)) = _
          simp only [List.nil_append]
          have hstep : cmpCore prev (47 :: segsToStr r1) (47 :: segsToStr r2)
              = cmpCore (some 47) (segsToStr r1) (segsToStr r2) := by
            simp [cmpCore]
          rw [hstep]
          have hout : lexCmp (([], true) :: r1) (([], true) :: r2)
              = lexCmp r1 r2 := by simp [lexCmp]
          rw [hout]
          rcases r1 with _ | ⟨⟨a1, b1⟩, r1t⟩
          · rcases r2 with _ | ⟨⟨a2, b2⟩, r2t⟩
            · rfl
            · have ha2 : a2 ≠ [] := (hv1 _ (List.mem_cons_self _ _)).2
              have ha247 : ¬47 ∈ a2 := (hv1 _ (List.mem_cons_self _ _)).1
              rcases a2 with _ | ⟨z, zs⟩
              · exact absurd rfl ha2
              · have hz : z ≠ 47 := fun hc => ha247 (by simp [hc])
                rw [segsToStr_eq_tailS]
                show cmpCore (some 47) [] (z :: (zs ++ tailS b2 r2t)) = _
                simp [cmpCore, hz, lexCmp, lessIf]
          · rcases r2 with _ | ⟨⟨a2, b2⟩, r2t⟩
            · have ha1 : a1 ≠ [] := (hw1 _ (List.mem_cons_self _ _)).2
              have ha147 : ¬47 ∈ a1 := (hw1 _ (List.mem_cons_self _ _)).1
              rcases a1 with _ | ⟨z, zs⟩
              · exact absurd rfl ha1
              · have hz : z ≠ 47 := fun hc => ha147 (by simp [hc])
                rw [segsToStr_eq_tailS]
                show cmpCore (some 47) (z :: (zs ++ tailS b1 r1t)) [] = _
                simp [cmpCore, hz, lexCmp, lessIf]
            · -- both rests continue: recurse on the next segments
              rw [segsToStr_eq_tailS, segsToStr_eq_tailS]
              have hm2 : (a1 ++ tailS b1 r1t).length +
                  (a2 ++ tailS b2 r2t).length < m := by
                simp only [tailS, if_true, List.nil_append, segsToStr_eq_tailS,
                  List.length_cons] at hm ⊢
                omega
              refine ih _ hm2 a1 b1 r1t a2 b2 r2t (some 47) le_rfl
                (hw1 _ (List.mem_cons_self _ _)).1
                (hv1 _ (List.mem_cons_self _ _)).1
                ?_ ?_ ?_ ?_ ?_ ?_ ?_
              · intro hb1
                subst hb1
                exact wf_false_rest _ _ hw2
              · intro hb2
                subst hb2
                exact wf_false_rest _ _ hv2
              · exact fun s hs => hw1 s (List.mem_cons_of_mem _ hs)
              · intro s hs
                apply hw2
                rcases r1t with _ | _
                · simp at hs
                · rw [List.dropLast_cons₂]
                  exact List.mem_cons_of_mem _ hs
              · exact fun s hs => hv1 s (List.mem_cons_of_mem _ hs)
              · intro s hs
                apply hv2
                rcases r2t with _ | _
                · simp at hs
                · rw [List.dropLast_cons₂]
                  exact List.mem_cons_of_mem _ hs
              · intro hempty
                exfalso
                rcases hempty with he | he
                · exact (hw1 _ (List.mem_cons_self _ _)).2 he
                · exact (hv1 _ (List.mem_cons_self _ _)).2 he
    · -- first name exhausted, second name continues
      have hna : prev ≠ some 47 := hprev (Or.inl rfl)
      have hy : y ≠ 47 := fun hc => h47b (by simp [hc])
      have hcont : (y :: (ys ++ tailS k2 r2)).contains 47 = k2 := by
        have := contains_tailS (y :: ys) k2 r2 h47b hf2
        simpa [List.cons_append] using this
      cases k1
      · rw [hf1 rfl]
        show cmpCore prev [] (y :: (ys ++ tailS k2 r2)) = _
        have hpd : (decide (prev = some 47)) = false := by
          simpa using hna
        cases k2
        · simp only [cmpCore, hy, if_false, hpd, Bool.false_or]
          rw [hcont]
          simp [lexCmp, segCmpK, nameCmp, lessIf]
        · simp only [cmpCore, hy, if_false, hpd, Bool.false_or]
          rw [hcont]
          have hpair : ¬(([] : Str), false) = (y :: ys, true) := by simp
          have hname : ¬([] : Str) = y :: ys := by simp
          simp [lexCmp, hpair, hname, segCmpK, lessIf]
      · show cmpCore prev ([] ++ (47 :: segsToStr r1)) (y :: (ys ++ tailS k2 r2)) = _
        simp only [List.nil_append]
        have hy2 : ¬(47 : Nat) = y := fun hc => hy hc.symm
        have hpair : ¬(([] : Str), true) = (y :: ys, k2) := by simp
        have hname : ¬([] : Str) = y :: ys := by simp
        cases k2 <;>
          simp [cmpCore, hy2, lexCmp, hpair, hname, segCmpK, nameCmp, lessIf]
  · rcases n2 with _ | ⟨y, ys⟩
    · -- second name exhausted, first name continues
      have hna : prev ≠ some 47 := hprev (Or.inr rfl)
      have hx : x ≠ 47 := fun hc => h47a (by simp [hc])
      have hcont : (x :: (xs ++ tailS k1 r1)).contains 47 = k1 := by
        have := contains_tailS (x :: xs) k1 r1 h47a hf1
        simpa [List.cons_append] using this
      cases k2
      · rw [hf2 rfl]
        show cmpCore prev (x :: (xs ++ tailS k1 r1)) [] = _
        have hpd : (decide (prev = some 47)) = false := by
          simpa using hna
        cases k1
        · simp only [cmpCore, hx, if_false, hpd, Bool.false_or]
          rw [hcont]
          have hpair : ¬(x :: xs, false) = (([] : Str), false) := by simp
          have hname : ¬(x :: xs) = ([] : Str) := by simp
          simp [lexCmp, hpair, hname, segCmpK, nameCmp, lessIf]
        · simp only [cmpCore, hx, if_false, hpd, Bool.false_or]
          rw [hcont]
          have hpair : ¬(x :: xs, true) = (([] : Str), false) := by simp
          have hname : ¬(x :: xs) = ([] : Str) := by simp
          simp [lexCmp, hpair, hname, segCmpK, lessIf]
      · show cmpCore prev (x :: (xs ++ tailS k1 r1)) ([] ++ (47 :: segsToStr r2)) = _
        simp only [List.nil_append]
        have hpair : ¬(x :: xs, k1) = (([] : Str), true) := by simp
        have hname : ¬(x :: xs) = ([] : Str) := by simp
        cases k1 <;>
          simp [cmpCore, hx, lexCmp, hpair, hname, segCmpK, nameCmp, lessIf]
    · -- both names continue
      have hx : x ≠ 47 := fun hc => h47a (by simp [hc])
      have hy : y ≠ 47 := fun hc => h47b (by simp [hc])
      by_cases hxy : x = y
      · subst hxy
        show cmpCore prev (x :: (xs ++ tailS k1 r1))
            (x :: (ys ++ tailS k2 r2)) = _
        have hstep : cmpCore prev (x :: (xs ++ tailS k1 r1))
            (x :: (ys ++ tailS k2 r2))
            = cmpCore (some x) (xs ++ tailS k1 r1) (ys ++ tailS k2 r2) := by
          simp [cmpCore]
        rw [hstep]
        have hm2 : (xs ++ tailS k1 r1).length + (ys ++ tailS k2 r2).length
            < m := by
          simp only [List.cons_append, List.length_cons] at hm
          omega
        have h47xs : ¬47 ∈ xs := fun hc => h47a (List.mem_cons_of_mem _ hc)
        have h47ys : ¬47 ∈ ys := fun hc => h47b (List.mem_cons_of_mem _ hc)
        have hrec := ih _ hm2 xs k1 r1 ys k2 r2 (some x) le_rfl
          h47xs h47ys hf1 hf2 hw1 hw2 hv1 hv2
          (fun _ hc => hx (by injection hc))
        rw [hrec]
        exact (lexCmp_cons_byte x xs ys k1 k2 r1 r2).symm
      · show cmpCore prev (x :: (xs ++ tailS k1 r1))
            (y :: (ys ++ tailS k2 r2)) = _
        have hconta : (xs ++ tailS k1 r1).contains 47 = k1 :=
          contains_tailS _ _ _
            (fun hc => h47a (List.mem_cons_of_mem _ hc)) hf1
        have hcontb : (ys ++ tailS k2 r2).contains 47 = k2 :=
          contains_tailS _ _ _
            (fun hc => h47b (List.mem_cons_of_mem _ hc)) hf2
        have hpair : ¬(x :: xs, k1) = (y :: ys, k2) := by
          intro hc
          have := congrArg Prod.fst hc
          simp only [List.cons.injEq] at this
          exact hxy this.1
        have hname : ¬(x :: xs) = (y :: ys) := by
          intro hc
          simp only [List.cons.injEq] at hc
          exact hxy hc.1
        have hseg : segCmpK (x :: xs, k1) (y :: ys, k2)
            = if k1 = k2 then lessIf (x < y) else lessIf k1 := by
          unfold segCmpK
          by_cases hk : k1 = k2
          · simp [hk, nameCmp, hxy]
          · simp [hk]
        by_cases hk : k1 = k2
        · subst hk
          simp only [cmpCore, hxy, if_false, hx, hy, hconta, hcontb,
            ne_eq, not_true_eq_false, if_false, lexCmp, hpair, hname, hseg,
            if_pos rfl, if_true]
        · simp only [cmpCore, hxy, if_false, hx, hy, hconta, hcontb,
            lexCmp, hpair, hname, hseg, hk]
          have hkk : (k1 ≠ k2) = True := by simp [hk]
          simp [hk, hkk]

/-! ### From `cmpP` to the segment order -/

theorem strToSegs_nil : strToSegs [] = none := by
  rw [strToSegs]
  simp

theorem strToSegs_props_self (p : Str) (l : List Seg)
    (h : strToSegs p = some l) :
    segsToStr l = p ∧ l ≠ [] ∧ (∀ s ∈ l, ¬47 ∈ s.1 ∧ s.1 ≠ []) ∧
      (∀ s ∈ l.dropLast, s.2 = true) :=
  strToSegs_props p.length p l le_rfl h

theorem parsed_ne_nil (p : Str) (l : List Seg) (h : strToSegs p = some l) :
    p ≠ [] := by
  intro hc
  subst hc
  rw [strToSegs_nil] at h
  exact Option.noConfusion h

theorem cmpP_eq_cmpCore (p q : Str) (hp : p ≠ []) (hq : q ≠ [])
    (hpr : p ≠ rootP) (hqr : q ≠ rootP) :
    cmpP p q = cmpCore none p q := by
  unfold cmpP
  by_cases hlen : p.length ≤ 1 ∨ q.length ≤ 1
  · rw [if_pos hlen, if_neg (by
      intro hc
      rcases hc with hc | hc
      · exact hp hc
      · exact hq hc), if_neg (by
      intro hc
      rcases hc with hc | hc
      · exact hpr hc
      · exact hqr hc)]
  · rw [if_neg hlen]

theorem cmpP_lex (p q : Str) (sp sq : List Seg)
    (hp : strToSegs p = some sp) (hq : strToSegs q = some sq)
    (hpr : p ≠ rootP) (hqr : q ≠ rootP) :
    cmpP p q = lexCmp sp sq := by
  obtain ⟨hstr1, hne1, hwf1, hk1⟩ := strToSegs_props_self p sp hp
  obtain ⟨hstr2, hne2, hwf2, hk2⟩ := strToSegs_props_self q sq hq
  rw [cmpP_eq_cmpCore p q (parsed_ne_nil p sp hp) (parsed_ne_nil q sq hq)
    hpr hqr]
  rcases sp with _ | ⟨⟨n1, k1⟩, r1⟩
  · exact absurd rfl hne1
  rcases sq with _ | ⟨⟨n2, k2⟩, r2⟩
  · exact absurd rfl hne2
  rw [← hstr1, ← hstr2, segsToStr_eq_tailS, segsToStr_eq_tailS]
  refine cmpSeg _ n1 k1 r1 n2 k2 r2 none le_rfl
    (hwf1 _ (List.mem_cons_self _ _)).1
    (hwf2 _ (List.mem_cons_self _ _)).1
    ?_ ?_ ?_ ?_ ?_ ?_ ?_
  · intro hf
    subst hf
    exact wf_false_rest _ _ hk1
  · intro hf
    subst hf
    exact wf_false_rest _ _ hk2
  · exact fun s hs => hwf1 s (List.mem_cons_of_mem _ hs)
  · intro s hs
    apply hk1
    rcases r1 with _ | _
    · simp at hs
    · rw [List.dropLast_cons₂]
      exact List.mem_cons_of_mem _ hs
  · exact fun s hs => hwf2 s (List.mem_cons_of_mem _ hs)
  · intro s hs
    apply hk2
    rcases r2 with _ | _
    · simp at hs
    · rw [List.dropLast_cons₂]
      exact List.mem_cons_of_mem _ hs
  · intro _ hc
    exact Option.noConfusion hc

theorem cmpP_root_left (q : Str) (hq : q ≠ []) (hqr : q ≠ rootP) :
    cmpP rootP q = some (-1) := by
  unfold cmpP
  rw [if_pos (Or.inl (by decide)), if_neg (by
    intro hc
    rcases hc with hc | hc
    · exact absurd hc (by decide)
    · exact hq hc), if_pos (Or.inl rfl), if_neg (by
    intro hc
    exact hqr hc.symm)]
  rfl

theorem cmpP_root_right (q : Str) (hq : q ≠ []) (hqr : q ≠ rootP) :
    cmpP q rootP = some 1 := by
  unfold cmpP
  rw [if_pos (Or.inr (by decide)), if_neg (by
    intro hc
    rcases hc with hc | hc
    · exact hq hc
    · exact absurd hc (by decide)), if_pos (Or.inr rfl), if_neg (by
    intro hc
    exact hqr hc)]
  simp [lessIf, hqr]

/-- A name is used as a file in `a` and as a directory in `b`: `a` is a
proper prefix of `b` and the next byte of `b` is a slash. -/
def conflictStr (a b : Str) : Prop := ∃ t, b = a ++ 47 :: t

theorem lexCmp_none_conflict : ∀ (sp sq : List Seg),
    (∀ s ∈ sp.dropLast, s.2 = true) → (∀ s ∈ sq.dropLast, s.2 = true) →
    lexCmp sp sq = none →
    conflictStr (segsToStr sp) (segsToStr sq) ∨
      conflictStr (segsToStr sq) (segsToStr sp) := by
  intro sp
  induction sp with
  | nil =>
    intro sq _ _ h
    cases sq <;> simp [lexCmp] at h
  | cons s ss ih =>
    intro sq hk1 hk2 h
    cases sq with
    | nil => simp [lexCmp] at h
    | cons t ts =>
      by_cases hst : s = t
      · subst hst
        simp only [lexCmp, if_pos rfl] at h
        rcases s with ⟨n, k⟩
        cases k
        · have hss : ss = [] := wf_false_rest _ _ hk1
          have hts : ts = [] := wf_false_rest _ _ hk2
          subst hss; subst hts
          simp [lexCmp] at h
        · have hcon := ih ts
            (by
              intro u hu
              apply hk1
              rcases ss with _ | _
              · simp at hu
              · rw [List.dropLast_cons₂]
                exact List.mem_cons_of_mem _ hu)
            (by
              intro u hu
              apply hk2
              rcases ts with _ | _
              · simp at hu
              · rw [List.dropLast_cons₂]
                exact List.mem_cons_of_mem _ hu)
            h
          rw [segsToStr_cons, segsToStr_cons]
          simp only [if_true]
          rcases hcon with ⟨t0, ht0⟩ | ⟨t0, ht0⟩
          · left
            refine ⟨t0, ?_⟩
            rw [ht0]
            simp
          · right
            refine ⟨t0, ?_⟩
            rw [ht0]
            simp
      · by_cases hn : s.1 = t.1
        · -- equal names, different kinds: the real conflict
          simp only [lexCmp, hst, hn, if_false, if_true, if_pos hn] at h
          rcases s with ⟨n, k⟩
          rcases t with ⟨n2, k2⟩
          simp only [] at hn
          subst hn
          have hkk : ¬k = k2 := by
            intro hc
            exact hst (by rw [hc])
          cases k
          · have hk2t : k2 = true := by
              cases k2
              · exact absurd rfl hkk
              · rfl
            subst hk2t
            have hss : ss = [] := wf_false_rest _ _ hk1
            subst hss
            left
            refine ⟨segsToStr ts, ?_⟩
            rw [segsToStr_cons, segsToStr_cons]
            simp [segsToStr]
          · have hk2f : k2 = false := by
              cases k2
              · rfl
              · exact absurd rfl hkk
            subst hk2f
            have hts : ts = [] := wf_false_rest _ _ hk2
            subst hts
            right
            refine ⟨segsToStr ss, ?_⟩
            rw [segsToStr_cons, segsToStr_cons]
            simp [segsToStr]
        · simp [lexCmp, hst, hn] at h

theorem cmpCore_sep_first : ∀ (s : Str) (prev : Option Nat) (xs ys : Str)
    (y : Nat), y ≠ 47 →
    cmpCore prev (s ++ 47 :: xs) (s ++ y :: ys) = some (-1) := by
  intro s
  induction s with
  | nil =>
    intro prev xs ys y hy
    have h1 : ¬(47 : Nat) = y := fun hc => hy hc.symm
    simp [cmpCore, h1]
  | cons a s ih =>
    intro prev xs ys y hy
    show cmpCore prev (a :: (s ++ 47 :: xs)) (a :: (s ++ y :: ys)) = _
    have hstep : cmpCore prev (a :: (s ++ 47 :: xs)) (a :: (s ++ y :: ys))
        = cmpCore (some a) (s ++ 47 :: xs) (s ++ y :: ys) := by
      simp [cmpCore]
    rw [hstep]
    exact ih _ xs ys y hy

theorem lexCmp_dir_file : ∀ (l : List Seg) (n1 n2 : Str), n1 ≠ n2 →
    lexCmp (l ++ [(n1, true)]) (l ++ [(n2, false)]) = some (-1) := by
  intro l
  induction l with
  | nil =>
    intro n1 n2 hne
    have hp : ¬((n1, true) : Seg) = (n2, false) := by
      intro hc
      exact absurd (congrArg Prod.snd hc) (by simp)
    simp [lexCmp, hp, hne, segCmpK, lessIf]
  | cons s l ih =>
    intro n1 n2 hne
    simpa [lexCmp] using ih n1 n2 hne

/-- A valid path value: the root, or a parseable segment path. -/
def pathOK (p : Str) : Prop := p = rootP ∨ ∃ l, strToSegs p = some l

/-- Claim C7: on valid non-empty canonical paths in which no name is
used as both a file and a directory, `path.cmp` is a total order with
`cmp p q = 0` exactly when `p = q`; at the first differing byte a
separator sorts before any other byte; a directory sorts before a file
under the same parent; and the root "." sorts before every other path.
The conjuncts are: the zero law away from the root, the root laws,
antisymmetry, the value range, definedness in the absence of
file-versus-directory name conflicts, transitivity, the
separator-first law and the directory-before-file law. -/
theorem c7_cmp_total_order :
    (∀ p q sp sq c, strToSegs p = some sp → strToSegs q = some sq →
      p ≠ rootP → q ≠ rootP → cmpP p q = some c → (c = 0 ↔ p = q)) ∧
    cmpP rootP rootP = some 0 ∧
    (∀ q sq, strToSegs q = some sq → q ≠ rootP →
      cmpP rootP q = some (-1) ∧ cmpP q rootP = some 1) ∧
    (∀ p q c, pathOK p → pathOK q → cmpP p q = some c →
      cmpP q p = some (-c)) ∧
    (∀ p q c, pathOK p → pathOK q → cmpP p q = some c →
      c = -1 ∨ c = 0 ∨ c = 1) ∧
    (∀ p q, pathOK p → pathOK q → ¬conflictStr p q → ¬conflictStr q p →
      (cmpP p q).isSome = true) ∧
    (∀ p q r, pathOK p → pathOK q → pathOK r →
      cmpP p q = some (-1) → cmpP q r = some (-1) →
      (cmpP p r).isSome = true → cmpP p r = some (-1)) ∧
    (∀ (s xs ys : Str) (y : Nat), s ≠ [] → y ≠ 47 →
      cmpP (s ++ 47 :: xs) (s ++ y :: ys) = some (-1)) ∧
    (∀ p q l n1 n2, strToSegs p = some (l ++ [(n1, true)]) →
      strToSegs q = some (l ++ [(n2, false)]) → n1 ≠ n2 →
      p ≠ rootP → q ≠ rootP → cmpP p q = some (-1)) := by
  have hnonroot : ∀ p, pathOK p → p ≠ rootP → ∃ l, strToSegs p = some l := by
    intro p hok hne
    rcases hok with h | h
    · exact absurd h hne
    · exact h
  refine ⟨?_, by decide, ?_, ?_, ?_, ?_, ?_, ?_, ?_⟩
  · -- zero law away from the root
    intro p q sp sq c hp hq hpr hqr hc
    rw [cmpP_lex p q sp sq hp hq hpr hqr] at hc
    constructor
    · intro h0
      subst h0
      have hsp := lexCmp_eq_zero sp sq hc
      subst hsp
      have h1 := (strToSegs_props_self p sp hp).1
      have h2 := (strToSegs_props_self q sp hq).1
      rw [← h1, ← h2]
    · intro hpq
      subst hpq
      rw [hp] at hq
      have hsp : sp = sq := by
        injection hq
      subst hsp
      rw [lexCmp_self] at hc
      injection hc with hc
      exact hc.symm
  · -- root laws
    intro q sq hq hqr
    exact ⟨cmpP_root_left q (parsed_ne_nil q sq hq) hqr,
      cmpP_root_right q (parsed_ne_nil q sq hq) hqr⟩
  · -- antisymmetry
    intro p q c hp hq hc
    by_cases hpr : p = rootP
    · subst hpr
      by_cases hqr : q = rootP
      · subst hqr
        have h0 : c = 0 := by
          have : cmpP rootP rootP = some 0 := by decide
          rw [this] at hc
          injection hc with hc
          exact hc.symm
        subst h0
        simpa using hc.symm ▸ (by decide : cmpP rootP rootP = some 0)
      · obtain ⟨sq, hsq⟩ := hnonroot q hq hqr
        have h1 := cmpP_root_left q (parsed_ne_nil q sq hsq) hqr
        rw [h1] at hc
        injection hc with hc
        subst hc
        simpa using cmpP_root_right q (parsed_ne_nil q sq hsq) hqr
    · by_cases hqr : q = rootP
      · subst hqr
        obtain ⟨sp, hsp⟩ := hnonroot p hp hpr
        have h1 := cmpP_root_right p (parsed_ne_nil p sp hsp) hpr
        rw [h1] at hc
        injection hc with hc
        subst hc
        simpa using cmpP_root_left p (parsed_ne_nil p sp hsp) hpr
      · obtain ⟨sp, hsp⟩ := hnonroot p hp hpr
        obtain ⟨sq, hsq⟩ := hnonroot q hq hqr
        rw [cmpP_lex p q sp sq hsp hsq hpr hqr] at hc
        rw [cmpP_lex q p sq sp hsq hsp hqr hpr, lexCmp_antisymm sp sq, hc]
        rfl
  · -- range of values
    intro p q c hp hq hc
    by_cases hpr : p = rootP
    · subst hpr
      by_cases hqr : q = rootP
      · subst hqr
        have : cmpP rootP rootP = some 0 := by decide
        rw [this] at hc
        injection hc with hc
        omega
      · obtain ⟨sq, hsq⟩ := hnonroot q hq hqr
        rw [cmpP_root_left q (parsed_ne_nil q sq hsq) hqr] at hc
        injection hc with hc
        omega
    · by_cases hqr : q = rootP
      · subst hqr
        obtain ⟨sp, hsp⟩ := hnonroot p hp hpr
        rw [cmpP_root_right p (parsed_ne_nil p sp hsp) hpr] at hc
        injection hc with hc
        omega
      · obtain ⟨sp, hsp⟩ := hnonroot p hp hpr
        obtain ⟨sq, hsq⟩ := hnonroot q hq hqr
        rw [cmpP_lex p q sp sq hsp hsq hpr hqr] at hc
        exact lexCmp_range sp sq c hc
  · -- definedness without name conflicts
    intro p q hp hq hc1 hc2
    by_cases hpr : p = rootP
    · subst hpr
      by_cases hqr : q = rootP
      · subst hqr
        decide
      · obtain ⟨sq, hsq⟩ := hnonroot q hq hqr
        rw [cmpP_root_left q (parsed_ne_nil q sq hsq) hqr]
        rfl
    · by_cases hqr : q = rootP
      · subst hqr
        obtain ⟨sp, hsp⟩ := hnonroot p hp hpr
        rw [cmpP_root_right p (parsed_ne_nil p sp hsp) hpr]
        rfl
      · obtain ⟨sp, hsp⟩ := hnonroot p hp hpr
        obtain ⟨sq, hsq⟩ := hnonroot q hq hqr
        rw [cmpP_lex p q sp sq hsp hsq hpr hqr]
        rcases hlc : lexCmp sp sq with _ | c
        · exfalso
          obtain ⟨hstr1, _, _, hk1⟩ := strToSegs_props_self p sp hsp
          obtain ⟨hstr2, _, _, hk2⟩ := strToSegs_props_self q sq hsq
          have := lexCmp_none_conflict sp sq hk1 hk2 hlc
          rw [hstr1, hstr2] at this
          rcases this with h | h
          · exact hc1 h
          · exact hc2 h
        · rfl
  · -- transitivity
    intro p q r hp hq hr hab hbc hac
    by_cases hpr : p = rootP
    · subst hpr
      by_cases hrr : r = rootP
      · subst hrr
        exfalso
        by_cases hqr : q = rootP
        · subst hqr
          have : cmpP rootP rootP = some 0 := by decide
          rw [this] at hbc
          exact absurd hbc (by decide)
        · obtain ⟨sq, hsq⟩ := hnonroot q hq hqr
          rw [cmpP_root_right q (parsed_ne_nil q sq hsq) hqr] at hbc
          exact absurd hbc (by simp)
      · obtain ⟨sr, hsr⟩ := hnonroot r hr hrr
        exact cmpP_root_left r (parsed_ne_nil r sr hsr) hrr
    · by_cases hqr : q = rootP
      · subst hqr
        exfalso
        obtain ⟨sp, hsp⟩ := hnonroot p hp hpr
        rw [cmpP_root_right p (parsed_ne_nil p sp hsp) hpr] at hab
        exact absurd hab (by simp)
      · by_cases hrr : r = rootP
        · subst hrr
          exfalso
          obtain ⟨sq, hsq⟩ := hnonroot q hq hqr
          rw [cmpP_root_right q (parsed_ne_nil q sq hsq) hqr] at hbc
          exact absurd hbc (by simp)
        · obtain ⟨sp, hsp⟩ := hnonroot p hp hpr
          obtain ⟨sq, hsq⟩ := hnonroot q hq hqr
          obtain ⟨sr, hsr⟩ := hnonroot r hr hrr
          rw [cmpP_lex p q sp sq hsp hsq hpr hqr] at hab
          rw [cmpP_lex q r sq sr hsq hsr hqr hrr] at hbc
          rw [cmpP_lex p r sp sr hsp hsr hpr hrr] at hac ⊢
          exact lexCmp_trans sp sq sr hab hbc hac
  · -- separator sorts first at the first mismatch
    intro s xs ys y hs hy
    have hlen : 2 ≤ (s ++ 47 :: xs).length := by
      rcases s with _ | ⟨a, s⟩
      · exact absurd rfl hs
      · simp
        omega
    have hlen2 : 2 ≤ (s ++ y :: ys).length := by
      rcases s with _ | ⟨a, s⟩
      · exact absurd rfl hs
      · simp
        omega
    have hne1 : (s ++ 47 :: xs) ≠ [] := by
      intro hc
      rw [hc] at hlen
      simp at hlen
    have hne2 : (s ++ y :: ys) ≠ [] := by
      intro hc
      rw [hc] at hlen2
      simp at hlen2
    have hnr1 : (s ++ 47 :: xs) ≠ rootP := by
      intro hc
      rw [hc] at hlen
      simp [rootP] at hlen
    have hnr2 : (s ++ y :: ys) ≠ rootP := by
      intro hc
      rw [hc] at hlen2
      simp [rootP] at hlen2
    rw [cmpP_eq_cmpCore _ _ hne1 hne2 hnr1 hnr2]
    exact cmpCore_sep_first s none xs ys y hy
  · -- a directory sorts before a file under the same parent
    intro p q l n1 n2 hp hq hne hpr hqr
    rw [cmpP_lex p q _ _ hp hq hpr hqr]
    exact lexCmp_dir_file l n1 n2 hne

/-- Witness for C7: the separator-first law at the concrete pair
"a/" versus "ab". -/
theorem c7_cmp_total_order_witness :
    cmpP ([97] ++ 47 :: []) ([97] ++ 98 :: []) = some (-1) :=
  c7_cmp_total_order.2.2.2.2.2.2.2.1 [97] [] [] 98 (by decide) (by decide)

/-! ## File records and the file order (source: part of the index
package defining File, Files and their sort) -/

/-- A content digest: 32 opaque bytes. -/
abbrev Digest := Str

/-- Source `File`: path, digest, size, modification time and flags.
The modification time is an abstract instant (nanoseconds). -/
structure File where
  path : Str
  digest : Digest
  size : Int
  modTime : Nat
  flag : Nat
deriving DecidableEq, Repr

/-- Model of Go `cmp.Compare` on naturals. -/
def cmpNat (a b : Nat) : Int := if a < b then -1 else if b < a then 1 else 0

/-- Model of Go `cmp.Compare` on 64-bit integers. -/
def cmpInt (a b : Int) : Int := if a < b then -1 else if b < a then 1 else 0

/-- Source `(*File).cmp`: order by path, gone bit, modification time,
keep bits and size.  `none` models the panic inherited from `path.cmp`. -/
def fileCmp (f g : File) : Option Int :=
  match cmpP f.path g.path with
  | none => none
  | some c =>
    if c ≠ 0 then some c
    else if cmpNat (f.flag &&& flagGone) (g.flag &&& flagGone) ≠ 0 then
      some (cmpNat (f.flag &&& flagGone) (g.flag &&& flagGone))
    else if cmpNat f.modTime g.modTime ≠ 0 then
      some (cmpNat f.modTime g.modTime)
    else if cmpNat (f.flag &&& flagKeep) (g.flag &&& flagKeep) ≠ 0 then
      some (cmpNat (f.flag &&& flagKeep) (g.flag &&& flagKeep))
    else some (cmpInt f.size g.size)

/-- One insertion step of the model of `Files.Sort`. -/
def insertF (f : File) : List File → Option (List File)
  | [] => some [f]
  | g :: gs =>
    match fileCmp f g with
    | none => none
    | some c =>
      if c < 0 then some (f :: g :: gs)
      else (insertF f gs).map (fun t => g :: t)

/-- Model of source `Files.Sort` (`slices.SortFunc` with `(*File).cmp`):
a comparison sort producing the list ordered by `fileCmp`; `none`
propagates the comparison panic.  Go's sort is unstable, so on inputs
with ties between distinct records only order-insensitive consequences
are claimed. -/
def sortFiles : List File → Option (List File)
  | [] => some []
  | f :: fs =>
    match sortFiles fs with
    | none => none
    | some s => insertF f s

/-! ## Index model and group-by-digest (source: Index, New,
groupByDigest) -/

/-- Source `Index`: a root string and an ordered list of groups. -/
structure Index where
  root : Str
  groups : List (List File)
deriving DecidableEq

/-- An entry of the digest map: digest, first-appearance index, files. -/
abbrev GbdEntry := Digest × Nat × List File

/-- Append file `f` (input position `i`) to the digest map, checking
the sizes of colliding digests as the source does against the first
file of the group.  `none` models the digest-collision panic. -/
def gbdUpd (f : File) (e2 : GbdEntry) : GbdEntry :=
  if e2.1 = f.digest then (e2.1, e2.2.1, e2.2.2 ++ [f]) else e2

def gbdStep (acc : List GbdEntry) (i : Nat) (f : File) :
    Option (List GbdEntry) :=
  match acc.find? (fun e => e.1 = f.digest) with
  | none => some (acc ++ [(f.digest, i, [f])])
  | some e =>
    match e.2.2.head? with
    | none => none
    | some g0 =>
      if g0.size = f.size then some (acc.map (gbdUpd f))
      else none

/-- The fold of `groupByDigest` over the input files. -/
def gbdGo (acc : List GbdEntry) (i : Nat) : List File →
    Option (List GbdEntry)
  | [] => some acc
  | f :: rest =>
    match gbdStep acc i f with
    | none => none
    | some acc2 => gbdGo acc2 (i + 1) rest

/-- Insertion into a list of entries ordered by first-appearance index
(the comparison of source `slices.SortFunc` over `idx[...].i`). -/
def insertByKey (x : GbdEntry) : List GbdEntry → List GbdEntry
  | [] => [x]
  | y :: ys => if x.2.1 < y.2.1 then x :: y :: ys else y :: insertByKey x ys

/-- Sort entries by first-appearance index. -/
def sortByKey : List GbdEntry → List GbdEntry
  | [] => []
  | x :: xs => insertByKey x (sortByKey xs)

/-- Source `groupByDigest`: partition files into groups keyed by
digest, ordered by the first appearance of each digest. -/
def groupByDigest (all : List File) : Option (List (List File)) :=
  match gbdGo [] 0 all with
  | none => none
  | some entries => some ((sortByKey entries).map (fun e => e.2.2))

/-- Source `New`: build an index from a file list. -/
def NewIndex (root : Str) (all : List File) : Option Index :=
  if all = [] then some { root := root, groups := [] }
  else
    match groupByDigest all with
    | none => none
    | some gs => some { root := root, groups := gs }

/-- Digests of the input in order of first appearance, given the set
already seen. -/
def firstDigestsAux (seen : List Digest) : List File → List Digest
  | [] => []
  | f :: fs =>
    if f.digest ∈ seen then firstDigestsAux seen fs
    else f.digest :: firstDigestsAux (f.digest :: seen) fs

/-- Digests of the input in order of first appearance. -/
def firstDigests (fs : List File) : List Digest := firstDigestsAux [] fs

/-! ### groupByDigest infrastructure -/

/-- Files stored for digest `d` in the accumulator. -/
def entryFiles (acc : List GbdEntry) (d : Digest) : List File :=
  match acc.find? (fun e => e.1 = d) with
  | none => []
  | some e => e.2.2

/-- Accumulator invariant of the group-by-digest fold: entry digests
are distinct, every group is non-empty, every file sits under its own
digest and matches the size of the group head. -/
def GbdWF (acc : List GbdEntry) : Prop :=
  (acc.map (fun e => e.1)).Nodup ∧
  ∀ e ∈ acc, e.2.2 ≠ [] ∧ ∀ f ∈ e.2.2, f.digest = e.1 ∧
    ∀ h0, e.2.2.head? = some h0 → f.size = h0.size

/-- The remaining input is size-compatible with the accumulator and
internally size-compatible. -/
def GbdCompat (acc : List GbdEntry) (rest : List File) : Prop :=
  (∀ f ∈ rest, ∀ e ∈ acc, e.1 = f.digest →
    ∀ h0, e.2.2.head? = some h0 → f.size = h0.size) ∧
  ∀ f ∈ rest, ∀ g ∈ rest, f.digest = g.digest → f.size = g.size

theorem gbdUpd_fst (f : File) (e2 : GbdEntry) : (gbdUpd f e2).1 = e2.1 := by
  rw [gbdUpd]; split <;> rfl

theorem gbdUpd_key (f : File) (e2 : GbdEntry) :
    (gbdUpd f e2).2.1 = e2.2.1 := by
  rw [gbdUpd]; split <;> rfl

theorem gbdUpd_snd (f : File) (e2 : GbdEntry) :
    (gbdUpd f e2).2.2 =
      if e2.1 = f.digest then e2.2.2 ++ [f] else e2.2.2 := by
  rw [gbdUpd]; split <;> simp_all

theorem gbdStep_cases (acc acc2 : List GbdEntry) (i : Nat) (f : File)
    (h : gbdStep acc i f = some acc2) :
    (acc.find? (fun e => e.1 = f.digest) = none ∧
      acc2 = acc ++ [(f.digest, i, [f])]) ∨
    (∃ e g0, acc.find? (fun e => e.1 = f.digest) = some e ∧
      e.2.2.head? = some g0 ∧ g0.size = f.size ∧ acc2 = acc.map (gbdUpd f)) := by
  rw [gbdStep] at h
  split at h
  next hf => exact Or.inl ⟨hf, (Option.some_inj.mp h).symm⟩
  next e hf =>
    split at h
    next hh => exact absurd h (by simp)
    next g0 hh =>
      split at h
      next hs =>
        exact Or.inr ⟨e, g0, hf, hh, hs, (Option.some_inj.mp h).symm⟩
      next hs => exact absurd h (by simp)

theorem find?_none_iff (acc : List GbdEntry) (d : Digest) :
    acc.find? (fun e => e.1 = d) = none ↔ d ∉ acc.map (fun e => e.1) := by
  rw [List.find?_eq_none]
  constructor
  · intro h hm
    rcases List.mem_map.mp hm with ⟨e, he, hd⟩
    exact h e he (by simp [hd])
  · intro h e he hd
    exact h (List.mem_map.mpr ⟨e, he, by simpa using hd⟩)

theorem gbdStep_fst (acc acc2 : List GbdEntry) (i : Nat) (f : File)
    (h : gbdStep acc i f = some acc2) :
    acc2.map (fun e => e.1) =
      if f.digest ∈ acc.map (fun e => e.1) then acc.map (fun e => e.1)
      else acc.map (fun e => e.1) ++ [f.digest] := by
  rcases gbdStep_cases acc acc2 i f h with ⟨hf, rfl⟩ | ⟨e, g0, hf, _, _, rfl⟩
  · rw [if_neg ((find?_none_iff acc f.digest).mp hf)]
    simp
  · have hm : f.digest ∈ acc.map (fun e => e.1) := by
      have he := List.mem_of_find?_eq_some hf
      have hp : e.1 = f.digest := by simpa using List.find?_some hf
      exact List.mem_map.mpr ⟨e, he, hp⟩
    rw [if_pos hm, List.map_map]
    exact List.map_congr_left (fun e2 _ => gbdUpd_fst f e2)

theorem gbdStep_files (acc acc2 : List GbdEntry) (i : Nat) (f : File)
    (h : gbdStep acc i f = some acc2) (d : Digest) :
    entryFiles acc2 d =
      entryFiles acc d ++ if f.digest = d then [f] else [] := by
  rcases gbdStep_cases acc acc2 i f h with ⟨hf, rfl⟩ | ⟨e, g0, hf, hh, hs, rfl⟩
  · by_cases hd : f.digest = d
    · subst hd
      rw [entryFiles, entryFiles, List.find?_append, hf]
      simp
    · rw [entryFiles, entryFiles, List.find?_append]
      have h1 : ([(f.digest, i, [f])] : List GbdEntry).find?
          (fun e => e.1 = d) = none := by
        simp [List.find?, hd]
      rw [h1]
      cases acc.find? (fun e => e.1 = d) <;> simp [hd]
  · have hpred : ((fun e : GbdEntry => decide (e.1 = d)) ∘ gbdUpd f) =
        fun e : GbdEntry => decide (e.1 = d) := by
      funext e2
      simp [Function.comp, gbdUpd_fst]
    have hmap : (acc.map (gbdUpd f)).find? (fun e => e.1 = d) =
        (acc.find? (fun e => e.1 = d)).map (gbdUpd f) := by
      rw [List.find?_map, hpred]
    by_cases hd : f.digest = d
    · subst hd
      rw [entryFiles, entryFiles, hmap, hf]
      have he1 : e.1 = f.digest := by simpa using List.find?_some hf
      simp [gbdUpd_snd, he1]
    · rw [entryFiles, entryFiles, hmap]
      cases hfd : acc.find? (fun e => e.1 = d) with
      | none => simp [hd]
      | some e2 =>
        have he2 : e2.1 = d := by simpa using List.find?_some hfd
        have hne : ¬e2.1 = f.digest := by
          rw [he2]
          intro hx
          exact hd hx.symm
        simp [gbdUpd_snd, hne, hd]

/-- Entry keys are strictly increasing and below the running index. -/
def KeysBelow (acc : List GbdEntry) (i : Nat) : Prop :=
  (acc.map (fun e => e.2.1)).Pairwise (· < ·) ∧ ∀ e ∈ acc, e.2.1 < i

theorem gbdStep_keys (acc acc2 : List GbdEntry) (i : Nat) (f : File)
    (h : gbdStep acc i f = some acc2) (hk : KeysBelow acc i) :
    KeysBelow acc2 (i + 1) := by
  obtain ⟨hp, hb⟩ := hk
  rcases gbdStep_cases acc acc2 i f h with ⟨hf, rfl⟩ | ⟨e, g0, hf, hh, hs, rfl⟩
  · constructor
    · rw [List.map_append, List.pairwise_append]
      refine ⟨hp, by simp, ?_⟩
      intro x hx y hy
      simp only [List.map_cons, List.map_nil, List.mem_singleton] at hy
      subst hy
      rcases List.mem_map.mp hx with ⟨e, he, rfl⟩
      exact hb e he
    · intro e he
      rcases List.mem_append.mp he with h1 | h1
      · exact Nat.lt_trans (hb e h1) (Nat.lt_succ_self i)
      · rw [List.mem_singleton] at h1
        subst h1
        exact Nat.lt_succ_self i
  · constructor
    · rw [List.map_map]
      have hc : ((fun e : GbdEntry => e.2.1) ∘ gbdUpd f) =
          fun e : GbdEntry => e.2.1 := by
        funext e2
        exact gbdUpd_key f e2
      rw [hc]
      exact hp
    · intro e2 he
      rcases List.mem_map.mp he with ⟨e3, he3, rfl⟩
      rw [gbdUpd_key]
      exact Nat.lt_trans (hb e3 he3) (Nat.lt_succ_self i)

theorem gbdStep_nodup (acc acc2 : List GbdEntry) (i : Nat) (f : File)
    (h : gbdStep acc i f = some acc2)
    (hn : (acc.map (fun e => e.1)).Nodup) :
    (acc2.map (fun e => e.1)).Nodup := by
  rw [gbdStep_fst acc acc2 i f h]
  by_cases hm : f.digest ∈ acc.map (fun e => e.1)
  · rw [if_pos hm]
    exact hn
  · rw [if_neg hm]
    simp [List.nodup_append, hn, hm]

theorem insertByKey_lt (x : GbdEntry) (l : List GbdEntry)
    (h : ∀ y ∈ l, x.2.1 < y.2.1) : insertByKey x l = x :: l := by
  cases l with
  | nil => rfl
  | cons y ys => rw [insertByKey, if_pos (h y (by simp))]

theorem sortByKey_sorted (l : List GbdEntry)
    (h : (l.map (fun e => e.2.1)).Pairwise (· < ·)) : sortByKey l = l := by
  induction l with
  | nil => rfl
  | cons x xs ih =>
    rw [List.map_cons, List.pairwise_cons] at h
    rw [sortByKey, ih h.2, insertByKey_lt]
    intro y hy
    exact h.1 y.2.1 (List.mem_map.mpr ⟨y, hy, rfl⟩)

theorem firstDigestsAux_congr :
    ∀ (l : List File) (s1 s2 : List Digest), (∀ d, d ∈ s1 ↔ d ∈ s2) →
      firstDigestsAux s1 l = firstDigestsAux s2 l
  | [], _, _, _ => rfl
  | f :: fs, s1, s2, h => by
    rw [firstDigestsAux, firstDigestsAux]
    by_cases hm : f.digest ∈ s1
    · rw [if_pos hm, if_pos ((h _).mp hm)]
      exact firstDigestsAux_congr fs s1 s2 h
    · rw [if_neg hm, if_neg (fun hx => hm ((h _).mpr hx))]
      congr 1
      refine firstDigestsAux_congr fs _ _ ?_
      intro d
      simp [h d]

theorem firstDigestsAux_mem (l : List File) :
    ∀ (seen : List Digest) (d : Digest),
      d ∈ firstDigestsAux seen l ↔ d ∉ seen ∧ ∃ f ∈ l, f.digest = d := by
  induction l with
  | nil => simp [firstDigestsAux]
  | cons f fs ih =>
    intro seen d
    rw [firstDigestsAux]
    by_cases hm : f.digest ∈ seen
    · rw [if_pos hm, ih]
      constructor
      · rintro ⟨h1, g, hg, rfl⟩
        exact ⟨h1, g, List.mem_cons_of_mem f hg, rfl⟩
      · rintro ⟨h1, g, hg, rfl⟩
        rcases List.mem_cons.mp hg with rfl | hg2
        · exact absurd hm h1
        · exact ⟨h1, g, hg2, rfl⟩
    · rw [if_neg hm]
      constructor
      · intro hd
        rcases List.mem_cons.mp hd with rfl | hd2
        · exact ⟨hm, f, List.mem_cons_self f fs, rfl⟩
        · obtain ⟨h1, g, hg, rfl⟩ := (ih _ _).mp hd2
          refine ⟨fun hx => h1 (List.mem_cons_of_mem _ hx), g,
            List.mem_cons_of_mem f hg, rfl⟩
      · rintro ⟨h1, g, hg, rfl⟩
        rcases List.mem_cons.mp hg with rfl | hg2
        · exact List.mem_cons_self _ _
        · by_cases hgf : g.digest = f.digest
          · rw [hgf]
            exact List.mem_cons_self _ _
          · refine List.mem_cons_of_mem _ ((ih _ _).mpr ⟨?_, g, hg2, rfl⟩)
            intro hx
            rcases List.mem_cons.mp hx with h3 | h3
            · exact hgf h3
            · exact h1 h3

theorem firstDigestsAux_nodup (l : List File) :
    ∀ (seen : List Digest), (firstDigestsAux seen l).Nodup := by
  induction l with
  | nil => intro seen; simp [firstDigestsAux]
  | cons f fs ih =>
    intro seen
    rw [firstDigestsAux]
    by_cases hm : f.digest ∈ seen
    · rw [if_pos hm]
      exact ih seen
    · rw [if_neg hm]
      refine List.nodup_cons.mpr ⟨?_, ih _⟩
      intro hx
      exact ((firstDigestsAux_mem fs _ _).mp hx).1 (List.mem_cons_self _ _)

theorem gbdGo_fst :
    ∀ (rest : List File) (acc : List GbdEntry) (i : Nat)
      (out : List GbdEntry), gbdGo acc i rest = some out →
      out.map (fun e => e.1) =
        acc.map (fun e => e.1) ++
          firstDigestsAux (acc.map (fun e => e.1)) rest := by
  intro rest
  induction rest with
  | nil =>
    intro acc i out h
    rw [gbdGo] at h
    cases Option.some_inj.mp h
    simp [firstDigestsAux]
  | cons f rest ih =>
    intro acc i out h
    rw [gbdGo] at h
    split at h
    next => exact absurd h (by simp)
    next acc2 hstep =>
      have hfst := gbdStep_fst acc acc2 i f hstep
      by_cases hm : f.digest ∈ acc.map (fun e => e.1)
      · rw [if_pos hm] at hfst
        rw [ih acc2 (i + 1) out h, hfst, firstDigestsAux, if_pos hm]
      · rw [if_neg hm] at hfst
        rw [ih acc2 (i + 1) out h, hfst, firstDigestsAux, if_neg hm,
          List.append_assoc, List.singleton_append]
        congr 2
        refine firstDigestsAux_congr rest _ _ ?_
        intro d
        simp [or_comm]

theorem gbdGo_files :
    ∀ (rest : List File) (acc : List GbdEntry) (i : Nat)
      (out : List GbdEntry), gbdGo acc i rest = some out → ∀ d,
      entryFiles out d =
        entryFiles acc d ++ rest.filter (fun f => f.digest = d) := by
  intro rest
  induction rest with
  | nil =>
    intro acc i out h d
    rw [gbdGo] at h
    cases Option.some_inj.mp h
    simp
  | cons f rest ih =>
    intro acc i out h d
    rw [gbdGo] at h
    split at h
    next => exact absurd h (by simp)
    next acc2 hstep =>
      rw [ih acc2 (i + 1) out h d, gbdStep_files acc acc2 i f hstep d,
        List.filter_cons, List.append_assoc]
      by_cases hd : f.digest = d
      · simp [hd]
      · simp [hd]

theorem gbdGo_keys :
    ∀ (rest : List File) (acc : List GbdEntry) (i : Nat)
      (out : List GbdEntry), gbdGo acc i rest = some out →
      KeysBelow acc i → (out.map (fun e => e.2.1)).Pairwise (· < ·) := by
  intro rest
  induction rest with
  | nil =>
    intro acc i out h hk
    rw [gbdGo] at h
    cases Option.some_inj.mp h
    exact hk.1
  | cons f rest ih =>
    intro acc i out h hk
    rw [gbdGo] at h
    split at h
    next => exact absurd h (by simp)
    next acc2 hstep =>
      exact ih acc2 (i + 1) out h (gbdStep_keys acc acc2 i f hstep hk)

theorem find?_self_of_nodup :
    ∀ (acc : List GbdEntry), (acc.map (fun e => e.1)).Nodup →
      ∀ e ∈ acc, acc.find? (fun x => x.1 = e.1) = some e := by
  intro acc
  induction acc with
  | nil => simp
  | cons a l ih =>
    intro hn e he
    rw [List.map_cons, List.nodup_cons] at hn
    rcases List.mem_cons.mp he with rfl | he2
    · rw [List.find?_cons_of_pos _ (by simp)]
    · by_cases hae : a.1 = e.1
      · exact absurd (hae ▸ List.mem_map.mpr ⟨e, he2, rfl⟩) hn.1
      · rw [List.find?_cons_of_neg _ (by simpa using hae)]
        exact ih hn.2 e he2

/-- `groupByDigest` output characterization: groups are the filters of
the input over the digests in first-appearance order. -/
theorem groupByDigest_char (all : List File) (gs : List (List File))
    (h : groupByDigest all = some gs) :
    gs = (firstDigests all).map
      (fun d => all.filter (fun f => f.digest = d)) := by
  rw [groupByDigest] at h
  split at h
  next => exact absurd h (by simp)
  next out hgo =>
    rw [Option.some_inj] at h
    have hsort : sortByKey out = out :=
      sortByKey_sorted out (gbdGo_keys all [] 0 out hgo ⟨by simp, by simp⟩)
    have hfst : out.map (fun e => e.1) = firstDigests all := by
      have h2 := gbdGo_fst all [] 0 out hgo
      simpa [firstDigests] using h2
    have hnodup : (out.map (fun e => e.1)).Nodup := by
      rw [hfst]
      exact firstDigestsAux_nodup all []
    have hfiles : ∀ d, entryFiles out d =
        all.filter (fun f => f.digest = d) := by
      intro d
      have h2 := gbdGo_files all [] 0 out hgo d
      simpa [entryFiles] using h2
    have hmap : out.map (fun e => e.2.2) =
        out.map (fun e => all.filter (fun f => f.digest = e.1)) := by
      refine List.map_congr_left ?_
      intro e he
      rw [← hfiles e.1, entryFiles, find?_self_of_nodup out hnodup e he]
    rw [← h, hsort, hmap, ← hfst, List.map_map]
    rfl

theorem gbdStep_wf (acc acc2 : List GbdEntry) (i : Nat) (f : File)
    (h : gbdStep acc i f = some acc2) (hw : GbdWF acc) : GbdWF acc2 := by
  obtain ⟨hn, hent⟩ := hw
  refine ⟨gbdStep_nodup acc acc2 i f h hn, ?_⟩
  rcases gbdStep_cases acc acc2 i f h with ⟨hf, rfl⟩ | ⟨e, g0, hf, hh, hs, rfl⟩
  · intro e2 he2
    rcases List.mem_append.mp he2 with h1 | h1
    · exact hent e2 h1
    · rw [List.mem_singleton] at h1
      subst h1
      refine ⟨by simp, ?_⟩
      intro f2 hf2
      rw [List.mem_singleton] at hf2
      subst hf2
      refine ⟨rfl, ?_⟩
      intro h0 hh0
      simp only [List.head?_cons, Option.some_inj] at hh0
      rw [← hh0]
  · intro e2 he2
    rcases List.mem_map.mp he2 with ⟨e3, he3, rfl⟩
    obtain ⟨hne, hmem⟩ := hent e3 he3
    by_cases hd : e3.1 = f.digest
    · have hhead : (gbdUpd f e3).2.2.head? = e3.2.2.head? := by
        rw [gbdUpd_snd, if_pos hd]
        cases h3 : e3.2.2 with
        | nil => exact absurd h3 hne
        | cons a l => simp
      have he3e : e3 = e := by
        have h4 := find?_self_of_nodup acc hn e3 he3
        rw [hd] at h4
        rw [h4] at hf
        exact Option.some_inj.mp hf
      constructor
      · rw [gbdUpd_snd, if_pos hd]
        simp
      · intro f2 hf2
        rw [gbdUpd_snd, if_pos hd] at hf2
        rw [gbdUpd_fst]
        rcases List.mem_append.mp hf2 with h1 | h1
        · obtain ⟨hd2, hs2⟩ := hmem f2 h1
          refine ⟨hd2, ?_⟩
          intro h0 hh0
          rw [hhead] at hh0
          exact hs2 h0 hh0
        · rw [List.mem_singleton] at h1
          subst h1
          refine ⟨hd.symm, ?_⟩
          intro h0 hh0
          rw [hhead, he3e, hh, Option.some_inj] at hh0
          rw [← hh0, hs]
    · have hid : gbdUpd f e3 = e3 := by
        rw [gbdUpd, if_neg hd]
      rw [hid]
      exact hent e3 he3

theorem gbdStep_none (acc : List GbdEntry) (i : Nat) (f : File)
    (hw : GbdWF acc) (h : gbdStep acc i f = none) :
    ∃ e ∈ acc, e.1 = f.digest ∧
      ∃ g0, e.2.2.head? = some g0 ∧ g0.size ≠ f.size := by
  rw [gbdStep] at h
  split at h
  next hf => exact absurd h (by simp)
  next e hf =>
    have he := List.mem_of_find?_eq_some hf
    have hp : e.1 = f.digest := by simpa using List.find?_some hf
    split at h
    next hh =>
      have hne := (hw.2 e he).1
      exfalso
      cases h3 : e.2.2 with
      | nil => exact hne h3
      | cons a l =>
        rw [h3] at hh
        simp at hh
    next g0 hh =>
      split at h
      next hs => exact absurd h (by simp)
      next hs => exact ⟨e, he, hp, g0, hh, hs⟩

theorem gbdStep_some_of_compat (acc : List GbdEntry) (i : Nat) (f : File)
    (hw : GbdWF acc)
    (hc : ∀ e ∈ acc, e.1 = f.digest →
      ∀ h0, e.2.2.head? = some h0 → f.size = h0.size) :
    (gbdStep acc i f).isSome = true := by
  by_contra hno
  have hnone : gbdStep acc i f = none := by
    cases h3 : gbdStep acc i f with
    | none => rfl
    | some a =>
      rw [h3] at hno
      simp at hno
  obtain ⟨e, he, hp, g0, hh, hs⟩ := gbdStep_none acc i f hw hnone
  exact hs (hc e he hp g0 hh).symm

theorem gbdStep_heads_mono (acc acc2 : List GbdEntry) (i : Nat) (f : File)
    (h : gbdStep acc i f = some acc2) (hw : GbdWF acc) :
    ∀ e ∈ acc, ∃ e2 ∈ acc2, e2.1 = e.1 ∧ e2.2.2.head? = e.2.2.head? := by
  intro e he
  rcases gbdStep_cases acc acc2 i f h with ⟨hf, rfl⟩ | ⟨e0, g0, hf, hh, hs, rfl⟩
  · exact ⟨e, List.mem_append_left _ he, rfl, rfl⟩
  · refine ⟨gbdUpd f e, List.mem_map.mpr ⟨e, he, rfl⟩, gbdUpd_fst f e, ?_⟩
    by_cases hd : e.1 = f.digest
    · rw [gbdUpd_snd, if_pos hd]
      cases h3 : e.2.2 with
      | nil => exact absurd h3 ((hw.2 e he).1)
      | cons a l => simp
    · rw [gbdUpd_snd, if_neg hd]

theorem gbdStep_heads (acc acc2 : List GbdEntry) (i : Nat) (f : File)
    (h : gbdStep acc i f = some acc2) (hw : GbdWF acc) :
    ∀ e2 ∈ acc2, ∀ h0, e2.2.2.head? = some h0 →
      (∃ e ∈ acc, e.1 = e2.1 ∧ e.2.2.head? = some h0) ∨
      (e2.1 = f.digest ∧ h0 = f) := by
  intro e2 he2 h0 hh0
  rcases gbdStep_cases acc acc2 i f h with ⟨hf, rfl⟩ | ⟨e0, g0, hf, hh, hs, rfl⟩
  · rcases List.mem_append.mp he2 with h1 | h1
    · exact Or.inl ⟨e2, h1, rfl, hh0⟩
    · rw [List.mem_singleton] at h1
      subst h1
      simp only [List.head?_cons, Option.some_inj] at hh0
      exact Or.inr ⟨rfl, hh0.symm⟩
  · rcases List.mem_map.mp he2 with ⟨e3, he3, rfl⟩
    by_cases hd : e3.1 = f.digest
    · have hhead : (gbdUpd f e3).2.2.head? = e3.2.2.head? := by
        rw [gbdUpd_snd, if_pos hd]
        cases h3 : e3.2.2 with
        | nil => exact absurd h3 ((hw.2 e3 he3).1)
        | cons a l => simp
      rw [hhead] at hh0
      exact Or.inl ⟨e3, he3, (gbdUpd_fst f e3).symm, hh0⟩
    · have hid : gbdUpd f e3 = e3 := by
        rw [gbdUpd, if_neg hd]
      rw [hid] at hh0 ⊢
      exact Or.inl ⟨e3, he3, rfl, hh0⟩

theorem gbdGo_isSome_iff :
    ∀ (rest : List File) (acc : List GbdEntry) (i : Nat), GbdWF acc →
      ((gbdGo acc i rest).isSome = true ↔ GbdCompat acc rest) := by
  intro rest
  induction rest with
  | nil =>
    intro acc i hw
    rw [gbdGo]
    constructor
    · intro _
      exact ⟨by simp, by simp⟩
    · intro _
      rfl
  | cons f rest ih =>
    intro acc i hw
    rw [gbdGo]
    cases hstep : gbdStep acc i f with
    | none =>
      show ((none : Option (List GbdEntry)).isSome = true) ↔ _
      simp only [Option.isSome_none, Bool.false_eq_true, false_iff]
      intro hc
      obtain ⟨e, he, hp, g0, hh, hs⟩ := gbdStep_none acc i f hw hstep
      exact hs (hc.1 f (List.mem_cons_self f rest) e he hp g0 hh).symm
    | some acc2 =>
      show ((gbdGo acc2 (i + 1) rest).isSome = true) ↔ _
      rw [ih acc2 (i + 1) (gbdStep_wf acc acc2 i f hstep hw)]
      constructor
      · intro hc2
        constructor
        · intro g hg e he hp h0 hh0
          rcases List.mem_cons.mp hg with rfl | hg2
          · rcases gbdStep_cases acc acc2 i _ hstep with
              ⟨hf, _⟩ | ⟨e0, g0, hf, hh, hs, _⟩
            · exact absurd (List.mem_map.mpr ⟨e, he, hp⟩)
                ((find?_none_iff acc g.digest).mp hf)
            · have h4 := find?_self_of_nodup acc hw.1 e he
              rw [hp] at h4
              rw [h4] at hf
              cases Option.some_inj.mp hf
              rw [hh0] at hh
              cases Option.some_inj.mp hh
              exact hs.symm
          · obtain ⟨e2, he2, hfst, hhd⟩ :=
              gbdStep_heads_mono acc acc2 i f hstep hw e he
            refine hc2.1 g hg2 e2 he2 (by rw [hfst, hp]) h0 ?_
            rw [hhd, hh0]
        · intro g1 hg1 g2 hg2 hdig
          rcases List.mem_cons.mp hg1 with rfl | hg1b <;>
            rcases List.mem_cons.mp hg2 with rfl | hg2b
          · rfl
          · rcases gbdStep_cases acc acc2 i _ hstep with
              ⟨hf, rfl⟩ | ⟨e0, g0, hf, hh, hs, rfl⟩
            · have hm : (g1.digest, i, [g1]) ∈ acc ++ [(g1.digest, i, [g1])] :=
                List.mem_append_right _ (List.mem_singleton.mpr rfl)
              exact (hc2.1 g2 hg2b _ hm hdig g1 (by simp)).symm
            · have he0 := List.mem_of_find?_eq_some hf
              have hp0 : e0.1 = g1.digest := by simpa using List.find?_some hf
              obtain ⟨e2, he2, hfst, hhd⟩ :=
                gbdStep_heads_mono acc (acc.map (gbdUpd g1)) i g1 hstep hw e0 he0
              have h5 := hc2.1 g2 hg2b e2 he2 (by rw [hfst, hp0, hdig]) g0
                (by rw [hhd, hh])
              rw [h5, hs]
          · rcases gbdStep_cases acc acc2 i _ hstep with
              ⟨hf, rfl⟩ | ⟨e0, g0, hf, hh, hs, rfl⟩
            · have hm : (g2.digest, i, [g2]) ∈ acc ++ [(g2.digest, i, [g2])] :=
                List.mem_append_right _ (List.mem_singleton.mpr rfl)
              exact hc2.1 g1 hg1b _ hm hdig.symm g2 (by simp)
            · have he0 := List.mem_of_find?_eq_some hf
              have hp0 : e0.1 = g2.digest := by simpa using List.find?_some hf
              obtain ⟨e2, he2, hfst, hhd⟩ :=
                gbdStep_heads_mono acc (acc.map (gbdUpd g2)) i g2 hstep hw e0 he0
              have h5 := hc2.1 g1 hg1b e2 he2 (by rw [hfst, hp0, hdig]) g0
                (by rw [hhd, hh])
              rw [h5, hs]
          · exact hc2.2 g1 hg1b g2 hg2b hdig
      · intro hc
        constructor
        · intro g hg e2 he2 hp h0 hh0
          rcases gbdStep_heads acc acc2 i f hstep hw e2 he2 h0 hh0 with
            ⟨e, he, hfst, hhd⟩ | ⟨hdig, rfl⟩
          · exact hc.1 g (List.mem_cons_of_mem f hg) e he (by rw [hfst, hp]) h0 hhd
          · exact hc.2 g (List.mem_cons_of_mem _ hg) h0
              (List.mem_cons_self _ _) (by rw [← hp, hdig])
        · intro g1 hg1 g2 hg2 hdig
          exact hc.2 g1 (List.mem_cons_of_mem f hg1) g2
            (List.mem_cons_of_mem f hg2) hdig

/-- `groupByDigest` succeeds exactly when equal digests imply equal
sizes in the input. -/
theorem groupByDigest_isSome_iff (all : List File) :
    (groupByDigest all).isSome = true ↔
      ∀ f ∈ all, ∀ g ∈ all, f.digest = g.digest → f.size = g.size := by
  have hwf : GbdWF [] := ⟨by simp, by simp⟩
  have h1 := gbdGo_isSome_iff all [] 0 hwf
  have h2 : (groupByDigest all).isSome = (gbdGo [] 0 all).isSome := by
    rw [groupByDigest]
    cases gbdGo [] 0 all <;> rfl
  rw [h2, h1]
  constructor
  · intro hc
    exact hc.2
  · intro hc
    exact ⟨by simp, hc⟩

theorem sum_ite_zero (d0 : Digest) (c : Nat) :
    ∀ (ds : List Digest), d0 ∉ ds →
      (ds.map (fun d => if d0 = d then c else 0)).sum = 0 := by
  intro ds
  induction ds with
  | nil => simp
  | cons d ds ih =>
    intro hm
    rw [List.map_cons, List.sum_cons,
      ih (fun h => hm (List.mem_cons_of_mem d h)),
      if_neg (fun h => hm (by rw [h]; exact List.mem_cons_self d ds))]

theorem sum_ite_single (d0 : Digest) (c : Nat) :
    ∀ (ds : List Digest), ds.Nodup → d0 ∈ ds →
      (ds.map (fun d => if d0 = d then c else 0)).sum = c := by
  intro ds
  induction ds with
  | nil => simp
  | cons d ds ih =>
    intro hn hm
    rw [List.nodup_cons] at hn
    rcases List.mem_cons.mp hm with rfl | hm2
    · rw [List.map_cons, List.sum_cons, if_pos rfl,
        sum_ite_zero d0 c ds hn.1, Nat.add_zero]
    · have hne : d0 ≠ d := fun h => hn.1 (h ▸ hm2)
      rw [List.map_cons, List.sum_cons, if_neg hne, ih hn.2 hm2,
        Nat.zero_add]

theorem join_filter_perm (all : List File) (ds : List Digest)
    (hn : ds.Nodup) (hmem : ∀ f ∈ all, f.digest ∈ ds) :
    ((ds.map (fun d => all.filter (fun f => f.digest = d))).join).Perm
      all := by
  rw [List.perm_iff_count]
  intro x
  rw [List.count_flatten, List.map_map]
  by_cases hx : x ∈ all
  · have h2 : ds.map (List.count x ∘
        fun d => all.filter (fun f => f.digest = d)) =
        ds.map (fun d => if x.digest = d then all.count x else 0) := by
      refine List.map_congr_left ?_
      intro d _
      simp only [Function.comp]
      by_cases hd : x.digest = d
      · rw [if_pos hd, List.count_filter (by simp [hd])]
      · rw [if_neg hd, List.count_eq_zero]
        intro hmem2
        rw [List.mem_filter] at hmem2
        exact hd (by simpa using hmem2.2)
    rw [h2, sum_ite_single _ _ ds hn (hmem x hx)]
  · rw [List.count_eq_zero.mpr hx]
    refine List.sum_eq_zero ?_
    intro n hn2
    rcases List.mem_map.mp hn2 with ⟨d, hd, rfl⟩
    simp only [Function.comp]
    rw [List.count_eq_zero]
    intro hmem2
    exact hx (List.mem_of_mem_filter hmem2)

/-- **C6.** `groupByDigest` partitions its input into digest groups:
the groups are exactly the input filters over the digests in
first-appearance order (so within a group the input order is
preserved), every input file lies in exactly one group, the joined
groups are a permutation of the input, the build succeeds exactly when
files sharing a digest agree on size, and an empty input yields zero
groups (also through `New`). -/
theorem c6_group_by_digest :
    (∀ all gs, groupByDigest all = some gs →
      gs = (firstDigests all).map
        (fun d => all.filter (fun f => f.digest = d)) ∧
      (firstDigests all).Nodup ∧
      gs.join.Perm all ∧
      (∀ f ∈ all, ∃! g, g ∈ gs ∧ f ∈ g)) ∧
    (∀ all, (groupByDigest all).isSome = true ↔
      ∀ f ∈ all, ∀ g ∈ all, f.digest = g.digest → f.size = g.size) ∧
    groupByDigest [] = some [] ∧
    (∀ root, NewIndex root [] = some { root := root, groups := [] }) := by
  refine ⟨?_, groupByDigest_isSome_iff, rfl,
    fun root => by rw [NewIndex, if_pos rfl]⟩
  intro all gs h
  have hchar := groupByDigest_char all gs h
  have hnd : (firstDigests all).Nodup := firstDigestsAux_nodup all []
  have hmem : ∀ f ∈ all, f.digest ∈ firstDigests all := by
    intro f hf
    rw [firstDigests, firstDigestsAux_mem]
    exact ⟨by simp, f, hf, rfl⟩
  refine ⟨hchar, hnd, ?_, ?_⟩
  · rw [hchar]
    exact join_filter_perm all (firstDigests all) hnd hmem
  · intro f hf
    refine ⟨all.filter (fun x => x.digest = f.digest), ⟨?_, ?_⟩, ?_⟩
    · rw [hchar]
      exact List.mem_map.mpr ⟨f.digest, hmem f hf, rfl⟩
    · rw [List.mem_filter]
      exact ⟨hf, by simp⟩
    · intro g hg
      obtain ⟨hg1, hg2⟩ := hg
      rw [hchar] at hg1
      rcases List.mem_map.mp hg1 with ⟨d, hd, rfl⟩
      rw [List.mem_filter] at hg2
      have hfd : f.digest = d := by simpa using hg2.2
      rw [hfd]

theorem c6_group_by_digest_witness :
    (([[⟨[97], [1], 0, 0, 0⟩, ⟨[99], [1], 0, 0, 0⟩],
       [⟨[98], [2], 5, 0, 0⟩]] : List (List File)).join).Perm
      [⟨[97], [1], 0, 0, 0⟩, ⟨[98], [2], 5, 0, 0⟩, ⟨[99], [1], 0, 0, 0⟩] :=
  (c6_group_by_digest.1
    [⟨[97], [1], 0, 0, 0⟩, ⟨[98], [2], 5, 0, 0⟩, ⟨[99], [1], 0, 0, 0⟩]
    [[⟨[97], [1], 0, 0, 0⟩, ⟨[99], [1], 0, 0, 0⟩], [⟨[98], [2], 5, 0, 0⟩]]
    (by decide)).2.2.1

/-! ### Antisymmetry of the comparisons, used for sorting -/

theorem cmpNat_antisymm (a b : Nat) : cmpNat b a = -cmpNat a b := by
  rw [cmpNat, cmpNat]
  split_ifs <;> omega

theorem cmpNat_eq_zero (a b : Nat) : cmpNat a b = 0 ↔ a = b := by
  constructor
  · intro h
    rw [cmpNat] at h
    split_ifs at h <;> omega
  · intro h
    subst h
    rw [cmpNat]
    simp

theorem cmpInt_antisymm (a b : Int) : cmpInt b a = -cmpInt a b := by
  rw [cmpInt, cmpInt]
  split_ifs <;> omega

theorem cmpCore_antisymm :
    ∀ (a b : Str) (prev : Option Nat),
      cmpCore prev b a = (cmpCore prev a b).map (fun c => -c)
  | [], [], prev => by
    simp only [cmpCore]
    rfl
  | [], y :: ys, prev => by
    simp only [cmpCore]
    by_cases hy : y = 47
    · rw [if_pos hy, if_pos hy]
      rfl
    · rw [if_neg hy, if_neg hy, Option.map_some', Option.some_inj,
        lessIf_neg]
  | x :: xs, [], prev => by
    simp only [cmpCore]
    by_cases hx : x = 47
    · rw [if_pos hx, if_pos hx]
      rfl
    · rw [if_neg hx, if_neg hx, Option.map_some', Option.some_inj,
        lessIf_neg, neg_neg]
  | x :: xs, y :: ys, prev => by
    simp only [cmpCore]
    by_cases hxy : x = y
    · subst hxy
      rw [if_pos rfl, if_pos rfl]
      exact cmpCore_antisymm xs ys (some x)
    · rw [if_neg (fun h => hxy h.symm), if_neg hxy]
      by_cases hx : x = 47
      · subst hx
        rw [if_neg (fun h => hxy h.symm), if_pos rfl, if_pos rfl]
        rfl
      · by_cases hy : y = 47
        · subst hy
          rw [if_pos rfl, if_neg hx, if_pos rfl]
          rfl
        · rw [if_neg hy, if_neg hx, if_neg hx, if_neg hy]
          by_cases hd : xs.contains 47 = ys.contains 47
          · rw [if_neg (fun h => h hd.symm), if_neg (fun h => h hd),
              Option.map_some', Option.some_inj]
            have hb : (decide (y < x) : Bool) = !decide (x < y) := by
              rcases Nat.lt_trichotomy x y with h | h | h
              · simp [h, Nat.lt_asymm h]
              · exact absurd h hxy
              · simp [h, Nat.lt_asymm h]
            rw [hb, lessIf_neg]
          · rw [if_pos (fun h => hd h.symm), if_pos hd, Option.map_some',
              Option.some_inj]
            have hb : ys.contains 47 = !xs.contains 47 := by
              cases h1 : xs.contains 47 <;> cases h2 : ys.contains 47 <;>
                simp_all
            rw [hb, lessIf_neg]

theorem cmpP_antisymm (p q : Str) :
    cmpP q p = (cmpP p q).map (fun c => -c) := by
  rw [cmpP, cmpP]
  by_cases hlen : p.length ≤ 1 ∨ q.length ≤ 1
  · rw [if_pos hlen, if_pos (Or.symm hlen)]
    by_cases hnil : p = [] ∨ q = []
    · rw [if_pos hnil, if_pos (Or.symm hnil)]
      rfl
    · rw [if_neg hnil, if_neg (fun h => hnil (Or.symm h))]
      by_cases hroot : p = rootP ∨ q = rootP
      · rw [if_pos hroot, if_pos (Or.symm hroot)]
        by_cases heq : p = q
        · rw [if_pos heq, if_pos heq.symm]
          rfl
        · rw [if_neg heq, if_neg (fun h => heq h.symm), Option.map_some']
          rcases hroot with hp | hq
          · have hq2 : ¬q = rootP := fun h => heq (by rw [hp, h])
            simp [lessIf, hp, hq2]
          · have hp2 : ¬p = rootP := fun h => heq (by rw [hq, h])
            simp [lessIf, hq, hp2]
      · rw [if_neg hroot, if_neg (fun h => hroot (Or.symm h))]
        exact cmpCore_antisymm p q none
  · rw [if_neg hlen, if_neg (fun h => hlen (Or.symm h))]
    exact cmpCore_antisymm p q none

theorem fileCmp_antisymm (f g : File) :
    fileCmp g f = (fileCmp f g).map (fun c => -c) := by
  cases hc : cmpP f.path g.path with
  | none =>
    have hneg : cmpP g.path f.path = none := by
      rw [cmpP_antisymm, hc]
      rfl
    rw [fileCmp, fileCmp, hc, hneg]
    rfl
  | some c =>
    have hneg : cmpP g.path f.path = some (-c) := by
      rw [cmpP_antisymm, hc]
      rfl
    rw [fileCmp, fileCmp, hc, hneg]
    show (if -c ≠ 0 then some (-c)
      else if cmpNat (g.flag &&& flagGone) (f.flag &&& flagGone) ≠ 0 then
        some (cmpNat (g.flag &&& flagGone) (f.flag &&& flagGone))
      else if cmpNat g.modTime f.modTime ≠ 0 then
        some (cmpNat g.modTime f.modTime)
      else if cmpNat (g.flag &&& flagKeep) (f.flag &&& flagKeep) ≠ 0 then
        some (cmpNat (g.flag &&& flagKeep) (f.flag &&& flagKeep))
      else some (cmpInt g.size f.size)) =
      ((if c ≠ 0 then some c
      else if cmpNat (f.flag &&& flagGone) (g.flag &&& flagGone) ≠ 0 then
        some (cmpNat (f.flag &&& flagGone) (g.flag &&& flagGone))
      else if cmpNat f.modTime g.modTime ≠ 0 then
        some (cmpNat f.modTime g.modTime)
      else if cmpNat (f.flag &&& flagKeep) (g.flag &&& flagKeep) ≠ 0 then
        some (cmpNat (f.flag &&& flagKeep) (g.flag &&& flagKeep))
      else some (cmpInt f.size g.size)).map (fun c => -c))
    by_cases hc0 : c = 0
    · subst hc0
      rw [if_neg (show ¬(-(0 : Int) ≠ 0) by simp),
        if_neg (show ¬((0 : Int) ≠ 0) by simp),
        cmpNat_antisymm (f.flag &&& flagGone) (g.flag &&& flagGone)]
      by_cases h2 : cmpNat (f.flag &&& flagGone) (g.flag &&& flagGone) = 0
      · rw [h2, if_neg (show ¬(-(0 : Int) ≠ 0) by simp),
          if_neg (show ¬((0 : Int) ≠ 0) by simp),
          cmpNat_antisymm f.modTime g.modTime]
        by_cases h3 : cmpNat f.modTime g.modTime = 0
        · rw [h3, if_neg (show ¬(-(0 : Int) ≠ 0) by simp),
            if_neg (show ¬((0 : Int) ≠ 0) by simp),
            cmpNat_antisymm (f.flag &&& flagKeep) (g.flag &&& flagKeep)]
          by_cases h4 : cmpNat (f.flag &&& flagKeep) (g.flag &&& flagKeep) = 0
          · rw [h4, if_neg (show ¬(-(0 : Int) ≠ 0) by simp),
              if_neg (show ¬((0 : Int) ≠ 0) by simp),
              cmpInt_antisymm f.size g.size, Option.map_some']
          · rw [if_pos (neg_ne_zero.mpr h4), if_pos h4, Option.map_some']
        · rw [if_pos (neg_ne_zero.mpr h3), if_pos h3, Option.map_some']
      · rw [if_pos (neg_ne_zero.mpr h2), if_pos h2, Option.map_some']
    · rw [if_pos (neg_ne_zero.mpr hc0), if_pos hc0, Option.map_some']

/-- Strict sortedness in the file order: every earlier file compares
strictly below every later one. -/
def StrictSortedF (fs : List File) : Prop :=
  fs.Pairwise (fun a b => fileCmp a b = some (-1))

theorem insertF_perm :
    ∀ (f : File) (l s : List File), insertF f l = some s →
      s.Perm (f :: l) := by
  intro f l
  induction l with
  | nil =>
    intro s h
    rw [insertF] at h
    cases Option.some_inj.mp h
    exact List.Perm.refl _
  | cons g gs ih =>
    intro s h
    rw [insertF] at h
    split at h
    next => exact absurd h (by simp)
    next c hc =>
      split at h
      next =>
        cases Option.some_inj.mp h
        exact List.Perm.refl _
      next =>
        cases hrec : insertF f gs with
        | none =>
          rw [hrec] at h
          exact absurd h (by simp)
        | some s2 =>
          rw [hrec] at h
          rw [Option.map_some', Option.some_inj] at h
          subst h
          exact (List.Perm.cons g (ih s2 hrec)).trans (List.Perm.swap f g gs)

theorem sortFiles_perm :
    ∀ (l s : List File), sortFiles l = some s → s.Perm l := by
  intro l
  induction l with
  | nil =>
    intro s h
    cases Option.some_inj.mp h
    exact List.Perm.refl _
  | cons f fs ih =>
    intro s h
    rw [sortFiles] at h
    split at h
    next => exact absurd h (by simp)
    next s2 hs2 =>
      exact (insertF_perm f s2 s h).trans (List.Perm.cons f (ih s2 hs2))

theorem insertF_of_strict :
    ∀ (fs0 : List File), StrictSortedF fs0 →
      ∀ f ∈ fs0, insertF f (fs0.erase f) = some fs0 := by
  intro fs0
  induction fs0 with
  | nil => simp
  | cons g rest ih =>
    intro hs f hf
    rw [StrictSortedF, List.pairwise_cons] at hs
    by_cases hfg : f = g
    · subst hfg
      rw [List.erase_cons_head]
      cases rest with
      | nil => rfl
      | cons r rest2 =>
        rw [insertF, hs.1 r (List.mem_cons_self r rest2)]
        rfl
    · have hgf0 : ¬g = f := fun h => hfg h.symm
      rw [List.erase_cons_tail (by simp [hgf0])]
      have hfr : f ∈ rest := by
        rcases List.mem_cons.mp hf with h1 | h1
        · exact absurd h1 hfg
        · exact h1
      have hgf : fileCmp g f = some (-1) := hs.1 f hfr
      have hfg2 : fileCmp f g = some 1 := by
        rw [fileCmp_antisymm f g] at hgf
        cases h3 : fileCmp f g with
        | none =>
          rw [h3] at hgf
          exact absurd hgf (by simp)
        | some c =>
          rw [h3] at hgf
          rw [Option.map_some', Option.some_inj] at hgf
          rw [Option.some_inj]
          omega
      simp only [insertF, hfg2]
      rw [if_neg (by decide), ih hs.2 f hfr]
      rfl

theorem sortFiles_of_perm :
    ∀ (l fs0 : List File), l.Perm fs0 → StrictSortedF fs0 →
      sortFiles l = some fs0 := by
  intro l
  induction l with
  | nil =>
    intro fs0 hp _
    rw [← hp.nil_eq]
    rfl
  | cons f l2 ih =>
    intro fs0 hp hs
    have hf : f ∈ fs0 := hp.mem_iff.mp (List.mem_cons_self f l2)
    have hl2 : l2.Perm (fs0.erase f) :=
      (List.cons_perm_iff_perm_erase.mp hp).2
    have hs2 : StrictSortedF (fs0.erase f) :=
      List.Pairwise.sublist (List.erase_sublist f fs0) hs
    rw [sortFiles, ih (fs0.erase f) hl2 hs2]
    exact insertF_of_strict fs0 hs f hf

/-! ## Tree model (source: tree.go, middle draft).  Go's `dir` holds
pointers to child `dir` values; the model stores child paths resolved
through the tree's directory map, and pointer mutation becomes map
update.  Loops that climb or walk the directory graph take explicit
fuel; for the acyclic maps the code builds, the chosen fuel is always
sufficient, and exhaustion models non-termination on corrupt input. -/

/-- A directory record: child directory paths, files, atomic container
path and counts. -/
structure DirData where
  dirs : List Str
  files : List File
  atom : Option Str
  totalDirs : Nat
  totalFiles : Nat
  uniqueFiles : Nat
deriving DecidableEq

/-- The directory map of a tree (Go `map[path]*dir`) as an
insertion-ordered association list. -/
abbrev DirMap := List (Str × DirData)

def emptyDir : DirData := ⟨[], [], none, 0, 0, 0⟩

def lookupD (m : DirMap) (p : Str) : Option DirData :=
  match m.find? (fun e => e.1 = p) with
  | none => none
  | some e => some e.2

def updateD (m : DirMap) (p : Str) (d : DirData) : DirMap :=
  m.map (fun e => if e.1 = p then (p, d) else e)

/-- The parent-creation loop of source `(*Tree).addFile`.  Each pass
moves to the parent directory, which is strictly shorter, so
`name.length` fuel always suffices. -/
def addClimb : Nat → DirMap → Str → DirMap
  | 0, m, _ => m
  | fuel + 1, m, name =>
    if name = rootP then m
    else
      match dirOfP name with
      | none => m
      | some parent =>
        match lookupD m parent with
        | some p => updateD m parent { p with dirs := p.dirs ++ [name] }
        | none =>
          addClimb fuel (m ++ [(parent, { emptyDir with dirs := [name] })])
            parent

/-- Source `(*Tree).addFile`.  `none` models the `path.dir` panic on an
empty file path. -/
def addFile (m : DirMap) (f : File) : Option DirMap :=
  match dirOfP f.path with
  | none => none
  | some name =>
    match lookupD m name with
    | some d => some (updateD m name { d with files := d.files ++ [f] })
    | none =>
      some (addClimb name.length
        (m ++ [(name, { emptyDir with files := [f] })]) name)

/-- The prefixes of `p` ending at each separator: the values produced
by source `steps.next` for a clean directory path. -/
def stepsGo (done : Str) : Str → List Str
  | [] => []
  | b :: rest =>
    if b = 47 then (done ++ [47]) :: stepsGo (done ++ [47]) rest
    else stepsGo (done ++ [b]) rest

def stepsOf (p : Str) : List Str := stepsGo [] p

/-- The set of directories visited by source `uniqueDirs.forEach`: the
root plus every step of every added path, each exactly once.  The Go
iterator interleaves the walks; the per-directory increments commute,
so only the set matters. -/
def uniqueDirsOf (ps : List Str) : List Str :=
  if ps = [] then [] else (rootP :: (ps.map stepsOf).join).dedup

/-- Increment `uniqueFiles` of every listed directory; `none` models
the nil-map-entry dereference when a directory is missing. -/
def bumpUnique (m : DirMap) : List Str → Option DirMap
  | [] => some m
  | p :: rest =>
    match lookupD m p with
    | none => none
    | some d =>
      bumpUnique (updateD m p { d with uniqueFiles := d.uniqueFiles + 1 })
        rest

/-- The per-group file loop of source `ToTree`: add non-gone files to
the directory tree and record their parent directories. -/
def addGroupFiles (m : DirMap) : List File → Option (DirMap × List Str)
  | [] => some (m, [])
  | f :: rest =>
    if flagIsGone f.flag then addGroupFiles m rest
    else
      match addFile m f with
      | none => none
      | some m2 =>
        match dirOfP f.path with
        | none => none
        | some d =>
          match addGroupFiles m2 rest with
          | none => none
          | some (m3, ds) => some (m3, d :: ds)

/-- One group of phase 1 of source `ToTree`: digest-collision check,
digest-map entry, file insertion and unique-count bumps. -/
def toTreeGroup (m : DirMap) (idx : List (Digest × List File))
    (g : List File) : Option (DirMap × List (Digest × List File)) :=
  match g.head? with
  | none => none
  | some g0 =>
    if (idx.find? (fun e => e.1 = g0.digest)).isSome then none
    else
      match addGroupFiles m g with
      | none => none
      | some (m2, ds) =>
        match bumpUnique m2 (uniqueDirsOf ds) with
        | none => none
        | some m3 => some (m3, idx ++ [(g0.digest, g)])

def toTreePhase1 (m : DirMap) (idx : List (Digest × List File)) :
    List (List File) → Option (DirMap × List (Digest × List File))
  | [] => some (m, idx)
  | g :: rest =>
    match toTreeGroup m idx g with
    | none => none
    | some (m2, idx2) => toTreePhase1 m2 idx2 rest

/-- Lexicographic byte comparison: Go `cmp.Compare` on strings. -/
def strCmp : Str → Str → Int
  | [], [] => 0
  | [], _ :: _ => -1
  | _ :: _, [] => 1
  | x :: xs, y :: ys =>
    if x < y then -1 else if y < x then 1 else strCmp xs ys

/-- Insertion step of the base-name sort of source `ToTree`; `none`
models the duplicate-name panic (fired whenever the sort compares two
equal base names).  Go's unstable sort may compare different pairs; on
duplicate-free inputs both succeed with the same result. -/
def insertStrByBase (p : Str) : List Str → Option (List Str)
  | [] => some [p]
  | q :: qs =>
    match baseOfP p, baseOfP q with
    | some bp, some bq =>
      if strCmp bp bq = 0 then none
      else if strCmp bp bq < 0 then some (p :: q :: qs)
      else (insertStrByBase p qs).map (fun t => q :: t)
    | _, _ => none

def sortStrsByBase : List Str → Option (List Str)
  | [] => some []
  | p :: ps =>
    match sortStrsByBase ps with
    | none => none
    | some s => insertStrByBase p s

def insertFileByBase (f : File) : List File → Option (List File)
  | [] => some [f]
  | g :: gs =>
    match baseOfP f.path, baseOfP g.path with
    | some bf, some bg =>
      if strCmp bf bg = 0 then none
      else if strCmp bf bg < 0 then some (f :: g :: gs)
      else (insertFileByBase f gs).map (fun t => g :: t)
    | _, _ => none

def sortFilesByBase : List File → Option (List File)
  | [] => some []
  | f :: fs =>
    match sortFilesByBase fs with
    | none => none
    | some s => insertFileByBase f s

/-- Sort every directory's children and files by base name. -/
def sortEntries : DirMap → Option DirMap
  | [] => some []
  | (p, d) :: rest =>
    match sortStrsByBase d.dirs, sortFilesByBase d.files with
    | some ds, some fs =>
      match sortEntries rest with
      | some rest2 => some ((p, { d with dirs := ds, files := fs }) :: rest2)
      | none => none
    | _, _ => none

/-- Source `isAtomic`: ".git" or ".svn". -/
def isAtomicStr (s : Str) : Bool :=
  s = [46, 103, 105, 116] || s = [46, 115, 118, 110]

/-- Depth-first subtree walk setting the atomic container, the
`dirStack` loop of source `ToTree`. -/
def stampAtom (a : Str) : Nat → DirMap → List Str → Option DirMap
  | _, m, [] => some m
  | 0, _, _ :: _ => none
  | fuel + 1, m, p :: rest =>
    match lookupD m p with
    | none => none
    | some d =>
      stampAtom a fuel (updateD m p { d with atom := some a })
        (d.dirs ++ rest)

/-- The atomic-directory detection loop of source `ToTree`.  Go
iterates the directory map in arbitrary order; the model iterates in
insertion order. -/
def stampAtoms (fuel : Nat) (m : DirMap) : List Str → Option DirMap
  | [] => some m
  | p :: rest =>
    match lookupD m p with
    | none => none
    | some d =>
      match baseOfP p with
      | none => none
      | some b =>
        if d.atom = none ∧ isAtomicStr b then
          match stampAtom p fuel m [p] with
          | none => none
          | some m2 => stampAtoms fuel m2 rest
        else stampAtoms fuel m rest

/-- Source `(*dir).updateCounts` over a list of sibling directories,
returning the updated map and the sums of the totals.  `none` models
the invalid-count panic and fuel exhaustion on corrupt maps. -/
def updateCountsGo : Nat → DirMap → List Str → Option (DirMap × Nat × Nat)
  | _, m, [] => some (m, 0, 0)
  | 0, _, _ :: _ => none
  | fuel + 1, m, p :: rest =>
    match lookupD m p with
    | none => none
    | some d =>
      match updateCountsGo fuel m d.dirs with
      | none => none
      | some (m1, cds, cfs) =>
        if d.files.length + cfs < d.uniqueFiles then none
        else
          match updateCountsGo fuel
              (updateD m1 p { d with
                totalDirs := d.dirs.length + cds
                totalFiles := d.files.length + cfs }) rest with
          | none => none
          | some (m2, tds, tfs) =>
            some (m2, d.dirs.length + cds + tds, d.files.length + cfs + tfs)

/-- Source `Tree`: root, directory map and digest map. -/
structure Tree where
  root : Str
  dirs : DirMap
  idx : List (Digest × List File)
deriving DecidableEq

/-- Source `(*Index).ToTree`. -/
def ToTree (x : Index) : Option Tree :=
  if x.groups = [] then
    some { root := x.root, dirs := [(rootP, emptyDir)], idx := [] }
  else
    match toTreePhase1 [(rootP, emptyDir)] [] x.groups with
    | none => none
    | some (m, idx) =>
      match sortEntries m with
      | none => none
      | some m2 =>
        match stampAtoms (2 * m2.length + 2) m2 (m2.map (fun e => e.1)) with
        | none => none
        | some m3 =>
          match updateCountsGo (2 * m3.length + 2) m3 [rootP] with
          | none => none
          | some (m4, _, _) =>
            if (lookupD m4 []).isSome then none
            else some { root := x.root, dirs := m4, idx := idx }

/-- Source `(*Tree).ToIndex`: collect every group of the digest map,
sort globally and rebuild.  Go walks the digest map in arbitrary order
before sorting; the model collects in stored order, which the sort
makes irrelevant when no two files tie. -/
def ToIndex (t : Tree) : Option Index :=
  match sortFiles ((t.idx.map (fun e => e.2)).join) with
  | none => none
  | some all => NewIndex t.root all

theorem toTreeGroup_idx (m : DirMap) (idx : List (Digest × List File))
    (g : List File) (m2 : DirMap) (idx2 : List (Digest × List File))
    (h : toTreeGroup m idx g = some (m2, idx2)) :
    idx2.map (fun e => e.2) = idx.map (fun e => e.2) ++ [g] := by
  rw [toTreeGroup] at h
  split at h
  next => exact absurd h (by simp)
  next g0 hg0 =>
    split at h
    next => exact absurd h (by simp)
    next hdup =>
      split at h
      next => exact absurd h (by simp)
      next m3 ds hadd =>
        split at h
        next => exact absurd h (by simp)
        next m4 hbump =>
          have h2 := Option.some_inj.mp h
          injection h2 with h3 h4
          subst h4
          simp

theorem toTreePhase1_idx :
    ∀ (gs : List (List File)) (m : DirMap)
      (idx : List (Digest × List File)) (m2 : DirMap)
      (idx2 : List (Digest × List File)),
      toTreePhase1 m idx gs = some (m2, idx2) →
      idx2.map (fun e => e.2) = idx.map (fun e => e.2) ++ gs := by
  intro gs
  induction gs with
  | nil =>
    intro m idx m2 idx2 h
    rw [toTreePhase1] at h
    have h2 := Option.some_inj.mp h
    injection h2 with h3 h4
    subst h4
    simp
  | cons g rest ih =>
    intro m idx m2 idx2 h
    rw [toTreePhase1] at h
    split at h
    next => exact absurd h (by simp)
    next m3 idx3 hstep =>
      rw [ih m3 idx3 m2 idx2 h, toTreeGroup_idx m idx g m3 idx3 hstep,
        List.append_assoc, List.singleton_append]

theorem ToTree_char (x : Index) (t : Tree) (h : ToTree x = some t) :
    t.root = x.root ∧ t.idx.map (fun e => e.2) = x.groups := by
  rw [ToTree] at h
  split at h
  next hg =>
    cases Option.some_inj.mp h
    exact ⟨rfl, by simp [hg]⟩
  next hg =>
    split at h
    next => exact absurd h (by simp)
    next m idx hp1 =>
      split at h
      next => exact absurd h (by simp)
      next m2 hs =>
        split at h
        next => exact absurd h (by simp)
        next m3 ha =>
          split at h
          next => exact absurd h (by simp)
          next m4 tds tfs hc =>
            split at h
            next hl => exact absurd h (by simp)
            next hl =>
              cases Option.some_inj.mp h
              refine ⟨rfl, ?_⟩
              have h2 := toTreePhase1_idx x.groups [(rootP, emptyDir)] []
                m idx hp1
              simpa using h2

/-- Concrete files and indexes used by the C5 theorems. -/
def fileA : File := ⟨[97], [1], 0, 0, 0⟩

def fileB : File := ⟨[98], [2], 0, 0, 0⟩

def idxAB : Index := ⟨[114], [[fileA], [fileB]]⟩

def idxBA : Index := ⟨[114], [[fileB], [fileA]]⟩

/-- C5 counterexample: an index whose two groups are stored in
non-canonical order (group of "b" before group of "a") converts to a
tree and back to an index with the groups reordered, so the round trip
is not the identity on such indexes. -/
theorem c5_to_tree_to_index_counterexample :
    (ToTree idxBA).bind ToIndex = some idxAB ∧ idxAB ≠ idxBA := by
  constructor
  · decide
  · decide

/-- **C5** (amended).  The round trip `ToIndex ∘ ToTree` is the
identity on canonical indexes: those built by `New` from a list of
files that is strictly sorted in the file order.  For such an index
`x`, whenever `ToTree x` succeeds, `ToIndex` rebuilds exactly `x`
(gone files included, since the digest map keeps whole groups). -/
theorem c5_to_tree_to_index (root : Str) (fs : List File) (x : Index)
    (t : Tree) (hsort : StrictSortedF fs)
    (hnew : NewIndex root fs = some x) (htree : ToTree x = some t) :
    ToIndex t = some x := by
  obtain ⟨hroot, hidx⟩ := ToTree_char x t htree
  rw [ToIndex, hidx, hroot]
  rw [NewIndex] at hnew
  by_cases hfs : fs = []
  · rw [if_pos hfs] at hnew
    cases Option.some_inj.mp hnew
    rfl
  · rw [if_neg hfs] at hnew
    split at hnew
    next => exact absurd hnew (by simp)
    next gs hgs =>
      cases Option.some_inj.mp hnew
      have hchar := groupByDigest_char fs gs hgs
      have hnd : (firstDigests fs).Nodup := firstDigestsAux_nodup fs []
      have hmem : ∀ f ∈ fs, f.digest ∈ firstDigests fs := by
        intro f hf
        rw [firstDigests, firstDigestsAux_mem]
        exact ⟨by simp, f, hf, rfl⟩
      have hperm : gs.join.Perm fs := by
        rw [hchar]
        exact join_filter_perm fs (firstDigests fs) hnd hmem
      rw [sortFiles_of_perm gs.join fs hperm hsort]
      show NewIndex root fs = some ⟨root, gs⟩
      rw [NewIndex, if_neg hfs, hgs]

theorem c5_to_tree_to_index_witness :
    ToIndex ((ToTree idxAB).get (by decide)) = some idxAB :=
  c5_to_tree_to_index [114] [fileA, fileB] _ _
    (by rw [StrictSortedF]; decide) (by decide)
    (Option.some_get (by decide)).symm

/-! ## Path construction (source: path.go `cleanPath` and the path
constructors).  The platform is Linux: `filepath.VolumeName` is always
empty and `ToSlash` is the identity. -/

/-- The backtracking loop of Go `path.Clean` for a `..` element: pop
the write index until it sits on a separator or the dotdot barrier. -/
def popLoop (out : Str) (dotdot : Nat) (w : Nat) : Nat :=
  if dotdot < w ∧ out.getD w 0 ≠ 47 then popLoop out dotdot (w - 1) else w
termination_by w
decreasing_by
  rename_i h
  omega

/-- The main loop of Go `path.Clean`.  `r` advances at least one byte
per pass, so `p.length + 1` fuel always suffices. -/
def cleanLoop (p : Str) (rooted : Bool) :
    Nat → Nat → Str → Nat → Str
  | 0, _, out, _ => out
  | fuel + 1, r, out, dotdot =>
    if r < p.length then
      if p.getD r 0 = 47 then cleanLoop p rooted fuel (r + 1) out dotdot
      else if p.getD r 0 = 46 ∧
          (r + 1 = p.length ∨ p.getD (r + 1) 0 = 47) then
        cleanLoop p rooted fuel (r + 1) out dotdot
      else if p.getD r 0 = 46 ∧ p.getD (r + 1) 0 = 46 ∧
          (r + 2 = p.length ∨ p.getD (r + 2) 0 = 47) then
        if dotdot < out.length then
          cleanLoop p rooted fuel (r + 2)
            (out.take (popLoop out dotdot (out.length - 1))) dotdot
        else if !rooted then
          cleanLoop p rooted fuel (r + 2)
            ((if 0 < out.length then out ++ [47] else out) ++ [46, 46])
            ((if 0 < out.length then out ++ [47] else out) ++ [46, 46]).length
        else cleanLoop p rooted fuel (r + 2) out dotdot
      else
        cleanLoop p rooted fuel
          (r + ((p.drop r).takeWhile (fun b => b ≠ 47)).length)
          ((if (rooted ∧ out.length ≠ 1) ∨ (¬rooted ∧ out.length ≠ 0) then
              out ++ [47]
            else out) ++ (p.drop r).takeWhile (fun b => b ≠ 47))
          dotdot
    else out

/-- Go `path.Clean`. -/
def pathClean (p : Str) : Str :=
  if p = [] then [46]
  else
    let rooted := p.headD 0 = 47
    let out := cleanLoop p rooted (p.length + 1) (if rooted then 1 else 0)
      (if rooted then [47] else []) (if rooted then 1 else 0)
    if out = [] then [46] else out

/-- Source `cleanPath`: clean, reject rooted or escaping paths, and
preserve directory status. -/
def cleanPath (p : Str) : Str :=
  if p = [] then []
  else
    let c := pathClean p
    if (3 < c.length ∧ c.take 3 = [46, 46, 47]) ∨
        (1 < c.length ∧ (c.getD 1 0 = 58 ∨ c = [46, 46])) ∨
        c.length = 0 ∨ c.headD 0 = 47 then []
    else if p.getLastD 0 = 47 then
      if c = [46] then [46] else c ++ [47]
    else if p.getLastD 0 = 46 then
      if c = [46] then [46]
      else if (3 < p.length ∧ p.drop (p.length - 3) = [47, 46, 46]) ∨
          (1 < p.length ∧ p.getD (p.length - 2) 0 = 47) then c ++ [47]
      else c
    else c

/-- Source `filePath`; `none` models the invalid-path panic. -/
def filePath (p : Str) : Option Str :=
  if isFileP (cleanPath p) then some (cleanPath p) else none

/-- Source `eitherPath`, including the faithful `c[:len(p)-1]` slice
(the source slices by the length of the original `p`, not of the
cleaned path); `none` models the resulting slice-bounds panic. -/
def eitherPath (p : Str) : Option (Str × Str) :=
  let c := cleanPath p
  if isDirP c then some (c, [])
  else if c ≠ [] then
    if p.length - 1 ≤ c.length + 1 then
      some (c ++ [47], (c ++ [47]).take (p.length - 1))
    else none
  else some ([], [])

/-- Source `(*Tree).file`: look up a file by its parent directory and
base name.  Go binary-searches the base-sorted file list; the model
scans for the matching base, which agrees on the sorted duplicate-free
lists the tree builder produces. -/
def fileT (t : Tree) (p : Str) : Option File :=
  if p = [] then none
  else
    match dirOfP p with
    | none => none
    | some dp =>
      match lookupD t.dirs dp with
      | none => none
      | some d =>
        if isDirP p then none
        else
          match baseOfP p with
          | none => none
          | some base => d.files.find? (fun f => baseOfP f.path = some base)

/-- The `set` closure of source `(*Tree).mark`: a mark lands only on
files whose flag has no Keep bit. -/
def markSet (flag : Nat) (f : File) : File :=
  if f.flag &&& flagKeep = 0 then { f with flag := f.flag ||| flag } else f

/-- Collect the paths of every file under the stacked directories, the
`dirStack` loop of source `(*Tree).mark`. -/
def collectFiles (m : DirMap) : Nat → List Str → List Str →
    Option (List Str)
  | _, [], acc => some acc
  | 0, _ :: _, _ => none
  | fuel + 1, p :: stack, acc =>
    match lookupD m p with
    | none => none
    | some d =>
      collectFiles m fuel (d.dirs ++ stack)
        (acc ++ d.files.map (fun f => f.path))

/-- Mark every file whose path is listed, in both views of the shared
file records (Go mutates the single record through pointers). -/
def treeMapFiles (t : Tree) (ps : List Str) (flag : Nat) : Tree :=
  { t with
    dirs := t.dirs.map (fun e => (e.1, { e.2 with
      files := e.2.files.map
        (fun f => if f.path ∈ ps then markSet flag f else f) }))
    idx := t.idx.map (fun e => (e.1, e.2.map
      (fun f => if f.path ∈ ps then markSet flag f else f))) }

/-- Result of a mark operation: the updated tree, or not-found. -/
inductive MarkResult where
  | ok (t : Tree)
  | notFound
deriving DecidableEq

/-- Source `(*Tree).mark`; `none` models the invalid-flag panic, the
`eitherPath` slice panic, and walks over corrupt maps. -/
def markT (t : Tree) (name : Str) (flag : Nat) : Option MarkResult :=
  if flag = 0 ∨ flag &&& 252 ≠ 0 then none
  else
    match eitherPath name with
    | none => none
    | some (dp, fp) =>
      match lookupD t.dirs dp with
      | some _ =>
        match collectFiles t.dirs (2 * t.dirs.length + 2) [dp] [] with
        | none => none
        | some ps => some (MarkResult.ok (treeMapFiles t ps flag))
      | none =>
        match fileT t fp with
        | some f => some (MarkResult.ok (treeMapFiles t [f.path] flag))
        | none => some MarkResult.notFound

/-- Source `(*Tree).MarkDup`. -/
def MarkDup (t : Tree) (name : Str) : Option MarkResult :=
  markT t name flagDup

def fileAB : File := ⟨[97, 98], [1], 0, 0, 0⟩

/-- **C4** (code bug).  `eitherPath` slices the cleaned path by
`len(p)-1` instead of its own length, so the file interpretation of
the two-byte name "ab" is "a".  Consequently, on a tree that does
contain the file "ab" (as `file` confirms), `MarkDup("ab")` falls
through the directory branch, looks up the wrong file name and returns
not-found instead of setting the mark — contradicting the claim that a
name denoting a file gets the mark set on that file. -/
theorem c4_mark_file_not_found :
    eitherPath [97, 98] = some ([97, 98, 47], [97]) ∧
    (ToTree ⟨[114], [[fileAB]]⟩).map
      (fun t => (fileT t [97, 98], MarkDup t [97, 98])) =
      some (some fileAB, some MarkResult.notFound) := by
  constructor
  · decide
  · decide

/-! ## Deduplication check (source: part of the dedup file,
`(*dedup).isDup`) -/

/-- ASCII lowering; Go `strings.EqualFold` restricted to the ASCII
range, which covers the two compared literals. -/
def toLowerB (b : Nat) : Nat := if 65 ≤ b ∧ b ≤ 90 then b + 32 else b

def eqFold (a b : Str) : Bool := a.map toLowerB = b.map toLowerB

/-- Source `(*File).canIgnore` as a pure predicate ("Thumbs.db",
"desktop.ini", or empty size). -/
def canIgB (f : File) : Bool :=
  decide (f.size = 0) ||
    (match baseOfP f.path with
     | none => false
     | some b =>
       eqFold b [84, 104, 117, 109, 98, 115, 46, 100, 98] ||
         eqFold b [100, 101, 115, 107, 116, 111, 112, 46, 105, 110, 105])

/-- Source `(*File).canIgnore`; `none` models the `base` panic on an
empty path. -/
def canIgnoreT (f : File) : Option Bool :=
  if decide (f.size = 0) then some true
  else
    match baseOfP f.path with
    | none => none
    | some b =>
      some (eqFold b [84, 104, 117, 109, 98, 115, 46, 100, 98] ||
        eqFold b [100, 101, 115, 107, 116, 111, 112, 46, 105, 110, 105])

/-- Source `(*File).isSafeOutsideOf`. -/
def isSafeOutsideOf (f : File) (rootPath : Str) : Bool :=
  flagIsSafe f.flag && !containsP rootPath f.path

/-- Digest-map group lookup (Go `tree.idx[d]`, empty when absent). -/
def idxGroup (t : Tree) (d : Digest) : List File :=
  match t.idx.find? (fun e => e.1 = d) with
  | none => []
  | some e => e.2

/-- Set insertion on a digest list. -/
def addDigest (l : List Digest) (d : Digest) : List Digest :=
  if d ∈ l then l else l ++ [d]

/-- Outcome of the categorization walk of `isDup`: an early `false`
return, or the accumulated safe and lost digest sets. -/
inductive DupScan where
  | abort
  | cont (safe lost : List Digest)
deriving DecidableEq

/-- One file of the categorization loop of source `isDup`. -/
def isDupFile (t : Tree) (rp : Str) (maxLost : Int) (f : File)
    (safe lost : List Digest) : Option DupScan :=
  if f.flag &&& flagPersist ≠ 0 ∧ flagIsGone f.flag then
    some (DupScan.cont safe lost)
  else if f.flag &&& flagPersist ≠ 0 ∧ flagIsKeep f.flag then
    some DupScan.abort
  else
    match canIgnoreT f with
    | none => none
    | some true => some (DupScan.cont safe lost)
    | some false =>
      if 1 < (idxGroup t f.digest).length ∧
          (idxGroup t f.digest).any (fun o => isSafeOutsideOf o rp) then
        some (DupScan.cont (addDigest safe f.digest) lost)
      else
        if maxLost < (addDigest lost f.digest).length then some DupScan.abort
        else some (DupScan.cont safe (addDigest lost f.digest))

/-- The per-directory file loop of source `isDup`. -/
def isDupFilesLoop (t : Tree) (rp : Str) (maxLost : Int) :
    List File → List Digest → List Digest → Option DupScan
  | [], safe, lost => some (DupScan.cont safe lost)
  | f :: rest, safe, lost =>
    match isDupFile t rp maxLost f safe lost with
    | none => none
    | some DupScan.abort => some DupScan.abort
    | some (DupScan.cont s2 l2) => isDupFilesLoop t rp maxLost rest s2 l2

/-- The depth-first `dirStack` walk of source `isDup`. -/
def isDupWalk (t : Tree) (rp : Str) (maxLost : Int) :
    Nat → List Str → List Digest → List Digest → Option DupScan
  | _, [], safe, lost => some (DupScan.cont safe lost)
  | 0, _ :: _, _, _ => none
  | fuel + 1, p :: stack, safe, lost =>
    match lookupD t.dirs p with
    | none => none
    | some d =>
      match isDupFilesLoop t rp maxLost d.files safe lost with
      | none => none
      | some DupScan.abort => some DupScan.abort
      | some (DupScan.cont s2 l2) =>
        isDupWalk t rp maxLost fuel (d.dirs ++ stack) s2 l2

/-- Source `(*dedup).isDup`.  The atomic-container pointer comparison
`root.atom != root` becomes a path comparison, which agrees on the
key-coherent maps `ToTree` builds. -/
def isDupT (t : Tree) (p : Str) (maxLost : Int) : Option Bool :=
  match lookupD t.dirs p with
  | none => some false
  | some root =>
    if root.atom ≠ none ∧ root.atom ≠ some p then some false
    else
      match isDupWalk t p maxLost (2 * t.dirs.length + 2) [p] [] [] with
      | none => none
      | some DupScan.abort => some false
      | some (DupScan.cont safe lost) =>
        some (decide ((lost.length * lost.length : Int) < safe.length))

/-- Collect the files of a subtree in walk order (the reference list
the C3 characterization speaks about). -/
def collectDirFiles (m : DirMap) : Nat → List Str → List File →
    Option (List File)
  | _, [], acc => some acc
  | 0, _ :: _, _ => none
  | fuel + 1, p :: stack, acc =>
    match lookupD m p with
    | none => none
    | some d => collectDirFiles m fuel (d.dirs ++ stack) (acc ++ d.files)

/-- Claim-side classification: some other file of the digest group is
safe and outside the directory. -/
def classSafeB (t : Tree) (p : Str) (f : File) : Bool :=
  (idxGroup t f.digest).any (fun o => decide (o ≠ f) && isSafeOutsideOf o p)

/-- A file participates in the safe/lost classification: it still
exists and is not ignorable. -/
def relevantB (f : File) : Bool := !flagIsGone f.flag && !canIgB f

/-- A non-gone file carrying the Keep mark (the rejection condition). -/
def fKeepBad (f : File) : Bool := !flagIsGone f.flag && flagIsKeep f.flag

/-- Distinct digests of a file list, in first-appearance order,
starting from an already-collected set. -/
def foldDigests (init : List Digest) (fs : List File) : List Digest :=
  fs.foldl (fun acc f => addDigest acc f.digest) init

/-- Digest sets of the lost and safe files of the claim. -/
def lostDigestsOf (t : Tree) (p : Str) (fls : List File) : List Digest :=
  foldDigests [] (fls.filter (fun f => relevantB f && !classSafeB t p f))

def safeDigestsOf (t : Tree) (p : Str) (fls : List File) : List Digest :=
  foldDigests [] (fls.filter (fun f => relevantB f && classSafeB t p f))

theorem canIgnoreT_eq (f : File) (h : f.path ≠ []) :
    canIgnoreT f = some (canIgB f) := by
  have hb : ∃ b, baseOfP f.path = some b := by
    rw [baseOfP, if_neg h]
    split <;> split <;> exact ⟨_, rfl⟩
  obtain ⟨b, hb⟩ := hb
  rw [canIgnoreT, canIgB, hb]
  by_cases hs : f.size = 0
  · rw [if_pos (by simpa using hs)]
    simp [hs]
  · rw [if_neg (by simpa using hs)]
    simp [hs]

theorem keep_imp_persist (a : Nat) (h : flagIsKeep a = true) :
    a &&& flagPersist ≠ 0 := by
  rw [flagIsKeep, flagKeep] at h
  rw [flagPersist]
  intro h0
  have h2 : a &&& 3 = 3 := by simpa using h
  have h3 : a &&& 3 = 0 := by
    have h4 : a &&& 3 = a &&& 15 &&& 3 := by
      rw [Nat.and_assoc]
      rfl
    rw [h4, h0]
    rfl
  omega

theorem gone_imp_persist (a : Nat) (h : flagIsGone a = true) :
    a &&& flagPersist ≠ 0 := by
  rw [flagIsGone, flagGone] at h
  rw [flagPersist]
  intro h0
  have h2 : a &&& 4 ≠ 0 := by simpa using h
  have h3 : a &&& 4 = 0 := by
    have h4 : a &&& 4 = a &&& 15 &&& 4 := by
      rw [Nat.and_assoc]
      rfl
    rw [h4, h0]
    rfl
  exact h2 h3

theorem addDigest_length_le (l : List Digest) (d : Digest) :
    l.length ≤ (addDigest l d).length := by
  rw [addDigest]
  split <;> simp

theorem foldDigests_length_le :
    ∀ (fs : List File) (init : List Digest),
      init.length ≤ (foldDigests init fs).length := by
  intro fs
  induction fs with
  | nil => intro init; simp [foldDigests]
  | cons f rest ih =>
    intro init
    calc init.length ≤ (addDigest init f.digest).length :=
          addDigest_length_le init f.digest
      _ ≤ (foldDigests (addDigest init f.digest) rest).length := ih _
      _ = (foldDigests init (f :: rest)).length := rfl

theorem isDupFilesLoop_char (t : Tree) (rp : Str) (maxLost : Int) :
    ∀ (fs : List File) (safe lost : List Digest),
      (∀ f ∈ fs, f.path ≠ []) →
      (∀ f ∈ fs,
        ((1 < (idxGroup t f.digest).length ∧
            (idxGroup t f.digest).any (fun o => isSafeOutsideOf o rp) =
              true) ↔
          classSafeB t rp f = true)) →
      isDupFilesLoop t rp maxLost fs safe lost =
        (if fs.any fKeepBad = true ∨
            (fs.filter (fun f => relevantB f && !classSafeB t rp f) ≠ [] ∧
              maxLost < (foldDigests lost
                (fs.filter
                  (fun f => relevantB f && !classSafeB t rp f))).length)
          then some DupScan.abort
          else some (DupScan.cont
            (foldDigests safe
              (fs.filter (fun f => relevantB f && classSafeB t rp f)))
            (foldDigests lost
              (fs.filter (fun f => relevantB f && !classSafeB t rp f))))) := by
  intro fs
  induction fs with
  | nil =>
    intro safe lost _ _
    simp [isDupFilesLoop, foldDigests]
  | cons f rest ih =>
    intro safe lost hpath hguard
    have hpath2 : ∀ g ∈ rest, g.path ≠ [] :=
      fun g hg => hpath g (List.mem_cons_of_mem f hg)
    have hguard2 := fun g hg => hguard g (List.mem_cons_of_mem f hg)
    rw [isDupFilesLoop, isDupFile]
    by_cases hA : f.flag &&& flagPersist ≠ 0 ∧ flagIsGone f.flag
    · rw [if_pos hA]
      have hkb : fKeepBad f = false := by
        rw [fKeepBad, hA.2]
        rfl
      have hrel : relevantB f = false := by
        rw [relevantB, hA.2]
        rfl
      show isDupFilesLoop t rp maxLost rest safe lost = _
      rw [ih safe lost hpath2 hguard2]
      simp only [List.any_cons, hkb, Bool.false_or, List.filter_cons,
        Bool.false_and,
        show (relevantB f && !classSafeB t rp f) = false by rw [hrel]; rfl,
        show (relevantB f && classSafeB t rp f) = false by rw [hrel]; rfl]
      simp
    · rw [if_neg hA]
      by_cases hB : f.flag &&& flagPersist ≠ 0 ∧ flagIsKeep f.flag
      · rw [if_pos hB]
        have hgone : flagIsGone f.flag = false := by
          cases hg : flagIsGone f.flag
          · rfl
          · exact absurd ⟨hB.1, hg⟩ hA
        have hkb : fKeepBad f = true := by
          rw [fKeepBad, hgone, hB.2]
          rfl
        show some DupScan.abort = _
        rw [if_pos (Or.inl (by simp [List.any_cons, hkb]))]
      · rw [if_neg hB]
        have hgone : flagIsGone f.flag = false := by
          cases hg : flagIsGone f.flag
          · rfl
          · exact absurd ⟨gone_imp_persist f.flag hg, hg⟩ hA
        have hkeep : flagIsKeep f.flag = false := by
          cases hk : flagIsKeep f.flag
          · rfl
          · exact absurd ⟨keep_imp_persist f.flag hk, hk⟩ hB
        have hkb : fKeepBad f = false := by
          rw [fKeepBad, hkeep]
          simp
        rw [canIgnoreT_eq f (hpath f (List.mem_cons_self f rest))]
        by_cases hIg : canIgB f = true
        · rw [hIg]
          have hrel : relevantB f = false := by
            rw [relevantB, hIg]
            simp
          show isDupFilesLoop t rp maxLost rest safe lost = _
          rw [ih safe lost hpath2 hguard2]
          simp only [List.any_cons, hkb, Bool.false_or, List.filter_cons,
            show (relevantB f && !classSafeB t rp f) = false by
              rw [hrel]; rfl,
            show (relevantB f && classSafeB t rp f) = false by
              rw [hrel]; rfl]
          simp
        · have hIg2 : canIgB f = false := by
            cases h2 : canIgB f
            · rfl
            · exact absurd h2 hIg
          rw [hIg2]
          have hrel : relevantB f = true := by
            rw [relevantB, hgone, hIg2]
            rfl
          by_cases hC : 1 < (idxGroup t f.digest).length ∧
              (idxGroup t f.digest).any (fun o => isSafeOutsideOf o rp) = true
          · rw [if_pos hC]
            have hcs : classSafeB t rp f = true :=
              (hguard f (List.mem_cons_self f rest)).mp hC
            show isDupFilesLoop t rp maxLost rest (addDigest safe f.digest)
              lost = _
            rw [ih (addDigest safe f.digest) lost hpath2 hguard2]
            simp only [List.any_cons, hkb, Bool.false_or, List.filter_cons,
              show (relevantB f && !classSafeB t rp f) = false by
                rw [hrel, hcs]; rfl,
              show (relevantB f && classSafeB t rp f) = true by
                rw [hrel, hcs]; rfl, if_pos rfl]
            rfl
          · rw [if_neg hC]
            have hcs : classSafeB t rp f = false := by
              cases h2 : classSafeB t rp f
              · rfl
              · exact absurd ((hguard f (List.mem_cons_self f rest)).mpr h2)
                  hC
            have hfilt :
                (f :: rest).filter
                  (fun g => relevantB g && !classSafeB t rp g) =
                f :: rest.filter
                  (fun g => relevantB g && !classSafeB t rp g) := by
              rw [List.filter_cons,
                if_pos (by rw [hrel, hcs]; exact rfl)]
            have hfilts :
                (f :: rest).filter
                  (fun g => relevantB g && classSafeB t rp g) =
                rest.filter (fun g => relevantB g && classSafeB t rp g) := by
              rw [List.filter_cons]
              rw [show (relevantB f && classSafeB t rp f) = false by
                rw [hrel, hcs]; rfl]
              rfl
            have hfold : foldDigests lost ((f :: rest).filter
                (fun g => relevantB g && !classSafeB t rp g)) =
                foldDigests (addDigest lost f.digest)
                  (rest.filter (fun g => relevantB g && !classSafeB t rp g)) := by
              rw [hfilt]
              rfl
            by_cases hOver : maxLost < (addDigest lost f.digest).length
            · rw [if_pos hOver]
              show some DupScan.abort = _
              rw [if_pos]
              refine Or.inr ⟨by rw [hfilt]; simp, ?_⟩
              rw [hfold]
              have hmono := foldDigests_length_le
                (rest.filter (fun g => relevantB g && !classSafeB t rp g))
                (addDigest lost f.digest)
              omega
            · rw [if_neg hOver]
              show isDupFilesLoop t rp maxLost rest safe
                (addDigest lost f.digest) = _
              rw [ih safe (addDigest lost f.digest) hpath2 hguard2]
              rw [hfold, hfilts]
              simp only [List.any_cons, hkb, Bool.false_or]
              by_cases hrest : rest.filter
                  (fun g => relevantB g && !classSafeB t rp g) = []
              · rw [hrest]
                simp only [ne_eq, not_true_eq_false, false_and, or_false,
                  List.cons_ne_nil, not_false_eq_true, true_and,
                  show foldDigests (addDigest lost f.digest)
                    ([] : List File) = addDigest lost f.digest from rfl,
                  hOver, and_false]
              · have hne2 : (f :: rest.filter
                    (fun g => relevantB g && !classSafeB t rp g)) ≠ [] := by
                  simp
                rw [hfilt]
                simp only [ne_eq, hrest, not_false_eq_true, true_and, hne2]

theorem isDupFilesLoop_append (t : Tree) (rp : Str) (maxLost : Int) :
    ∀ (xs ys : List File) (safe lost : List Digest),
      isDupFilesLoop t rp maxLost (xs ++ ys) safe lost =
        match isDupFilesLoop t rp maxLost xs safe lost with
        | none => none
        | some DupScan.abort => some DupScan.abort
        | some (DupScan.cont s2 l2) =>
          isDupFilesLoop t rp maxLost ys s2 l2 := by
  intro xs
  induction xs with
  | nil =>
    intro ys safe lost
    rfl
  | cons f xs ih =>
    intro ys safe lost
    rw [List.cons_append, isDupFilesLoop, isDupFilesLoop]
    cases isDupFile t rp maxLost f safe lost with
    | none => rfl
    | some r =>
      cases r with
      | abort => rfl
      | cont s2 l2 => exact ih ys s2 l2

theorem collectDirFiles_acc (m : DirMap) :
    ∀ (fuel : Nat) (stack : List Str) (acc : List File),
      collectDirFiles m fuel stack acc =
        (collectDirFiles m fuel stack []).map (fun w => acc ++ w) := by
  intro fuel
  induction fuel with
  | zero =>
    intro stack acc
    cases stack <;> simp [collectDirFiles]
  | succ fuel ih =>
    intro stack acc
    cases stack with
    | nil => simp [collectDirFiles]
    | cons p st =>
      rw [collectDirFiles, collectDirFiles]
      cases hl : lookupD m p with
      | none => rfl
      | some d =>
        show collectDirFiles m fuel (d.dirs ++ st) (acc ++ d.files) =
          Option.map (fun w => acc ++ w)
            (collectDirFiles m fuel (d.dirs ++ st) ([] ++ d.files))
        rw [ih (d.dirs ++ st) (acc ++ d.files),
          ih (d.dirs ++ st) ([] ++ d.files)]
        cases collectDirFiles m fuel (d.dirs ++ st) [] <;> simp

theorem isDupWalk_eq_filesLoop (t : Tree) (rp : Str) (maxLost : Int) :
    ∀ (fuel : Nat) (stack : List Str) (fls : List File)
      (safe lost : List Digest),
      collectDirFiles t.dirs fuel stack [] = some fls →
      isDupWalk t rp maxLost fuel stack safe lost =
        isDupFilesLoop t rp maxLost fls safe lost := by
  intro fuel
  induction fuel with
  | zero =>
    intro stack fls safe lost h
    cases stack with
    | nil =>
      cases Option.some_inj.mp h
      rfl
    | cons p st =>
      exact absurd h (by rw [collectDirFiles]; simp)
  | succ fuel ih =>
    intro stack fls safe lost h
    cases stack with
    | nil =>
      cases Option.some_inj.mp h
      rfl
    | cons p st =>
      rw [collectDirFiles] at h
      rw [isDupWalk]
      split at h
      next => exact absurd h (by simp)
      next d hl =>
        rw [collectDirFiles_acc] at h
        cases hc : collectDirFiles t.dirs fuel (d.dirs ++ st) [] with
        | none =>
          rw [hc] at h
          exact absurd h (by simp)
        | some w =>
          rw [hc, Option.map_some', Option.some_inj] at h
          subst h
          rw [List.nil_append, isDupFilesLoop_append]
          cases isDupFilesLoop t rp maxLost d.files safe lost with
          | none => rfl
          | some r =>
            cases r with
            | abort => rfl
            | cont s2 l2 => exact ih (d.dirs ++ st) w s2 l2 hc

theorem one_lt_length_of_mem_ne {α : Type} {l : List α} {a b : α}
    (ha : a ∈ l) (hb : b ∈ l) (hne : a ≠ b) : 1 < l.length := by
  cases l with
  | nil => exact absurd ha (by simp)
  | cons x xs =>
    cases xs with
    | nil =>
      rw [List.mem_singleton] at ha hb
      exact absurd (ha.trans hb.symm) hne
    | cons y ys =>
      simp only [List.length_cons]
      omega

theorem guard_iff (t : Tree) (p : Str) (f : File)
    (hunder : containsP p f.path = true)
    (hing : f ∈ idxGroup t f.digest) :
    ((1 < (idxGroup t f.digest).length ∧
        (idxGroup t f.digest).any (fun o => isSafeOutsideOf o p) = true) ↔
      classSafeB t p f = true) := by
  constructor
  · rintro ⟨hlen, hany⟩
    rw [List.any_eq_true] at hany
    obtain ⟨o, ho, hso⟩ := hany
    rw [classSafeB, List.any_eq_true]
    refine ⟨o, ho, ?_⟩
    have hne : o ≠ f := by
      intro heq
      subst heq
      rw [isSafeOutsideOf, hunder] at hso
      simp at hso
    simp [hne, hso]
  · intro hcs
    rw [classSafeB, List.any_eq_true] at hcs
    obtain ⟨o, ho, hb⟩ := hcs
    rw [Bool.and_eq_true] at hb
    obtain ⟨hne, hso⟩ := hb
    have hone : o ≠ f := by simpa using hne
    constructor
    · exact one_lt_length_of_mem_ne ho hing hone
    · rw [List.any_eq_true]
      exact ⟨o, ho, hso⟩

/-- Index, tree and reachable-file list used by the C3 theorems: one
digest group with a safe copy of "d/c" outside "d/". -/
def idxCex : Index :=
  ⟨[114], [[⟨[100, 47, 99], [1], 5, 0, 0⟩, ⟨[120], [1], 5, 0, 0⟩]]⟩

/-- C3 counterexample: with a negative bound (maxLost = -1) and an
empty lost set, `isDup` still returns true (the abort check only runs
on insertion), so the claimed conjunct |lost| ≤ maxLost does not hold
as stated for every bound. -/
theorem c3_is_dup_counterexample :
    (ToTree idxCex).map (fun t => isDupT t [100, 47] (-1)) =
      some (some true) ∧
    (ToTree idxCex).map (fun t =>
      (collectDirFiles t.dirs (2 * t.dirs.length + 2) [[100, 47]] []).map
        (fun fls => lostDigestsOf t [100, 47] fls)) = some (some []) := by
  constructor
  · decide
  · decide

/-- **C3** (amended).  For a non-negative bound, `isDup` returns true
exactly when: the directory is not a non-root directory inside an
atomic container; no reachable non-gone file carries the Keep mark;
the distinct digests classified as lost number at most `maxLost`; and
the safe digests outnumber the square of the lost ones.  The
hypotheses fix the reachable file list and state the tree coherence
the builder guarantees (files live under their directory and belong to
their digest group).  For negative bounds the claim fails (see the
counterexample): the bound check only fires when a lost file is
recorded. -/
theorem c3_is_dup_characterization (t : Tree) (p : Str) (maxLost : Int)
    (root : DirData) (fls : List File)
    (hml : 0 ≤ maxLost)
    (hroot : lookupD t.dirs p = some root)
    (hcollect : collectDirFiles t.dirs (2 * t.dirs.length + 2) [p] [] =
      some fls)
    (hpath : ∀ f ∈ fls, f.path ≠ [])
    (hunder : ∀ f ∈ fls, containsP p f.path = true)
    (hing : ∀ f ∈ fls, f ∈ idxGroup t f.digest) :
    isDupT t p maxLost = some true ↔
      ((root.atom = none ∨ root.atom = some p) ∧
       (∀ f ∈ fls, fKeepBad f = false) ∧
       ((lostDigestsOf t p fls).length : Int) ≤ maxLost ∧
       ((lostDigestsOf t p fls).length * (lostDigestsOf t p fls).length :
          Int) < (safeDigestsOf t p fls).length) := by
  rw [isDupT, hroot]
  have hatomde : root.atom = none ∨ root.atom = some p ↔
      ¬(root.atom ≠ none ∧ root.atom ≠ some p) := by
    constructor
    · rintro (h1 | h1) ⟨h2, h3⟩
      · exact h2 h1
      · exact h3 h1
    · intro h
      by_cases h1 : root.atom = none
      · exact Or.inl h1
      · right
        by_cases h2 : root.atom = some p
        · exact h2
        · exact absurd ⟨h1, h2⟩ h
  show (if root.atom ≠ none ∧ root.atom ≠ some p then some false
    else match isDupWalk t p maxLost (2 * t.dirs.length + 2) [p] [] [] with
      | none => none
      | some DupScan.abort => some false
      | some (DupScan.cont safe lost) =>
        some (decide ((lost.length * lost.length : Int) < safe.length))) =
      some true ↔ _
  by_cases hatom : root.atom ≠ none ∧ root.atom ≠ some p
  · rw [if_pos hatom]
    constructor
    · intro h
      exact absurd h (by simp)
    · rintro ⟨h1, _⟩
      exact absurd hatom (hatomde.mp h1)
  · rw [if_neg hatom]
    have hatom2 : root.atom = none ∨ root.atom = some p := hatomde.mpr hatom
    have hguard := fun f hf => guard_iff t p f (hunder f hf) (hing f hf)
    rw [isDupWalk_eq_filesLoop t p maxLost _ [p] fls [] [] hcollect,
      isDupFilesLoop_char t p maxLost fls [] [] hpath hguard]
    by_cases hcond : fls.any fKeepBad = true ∨
        (fls.filter (fun f => relevantB f && !classSafeB t p f) ≠ [] ∧
          maxLost < (foldDigests []
            (fls.filter (fun f => relevantB f && !classSafeB t p f))).length)
    · rw [if_pos hcond]
      show some false = some true ↔ _
      constructor
      · intro h
        exact absurd h (by simp)
      · rintro ⟨_, hkeep, hbound, _⟩
        rcases hcond with hk | ⟨hne, hover⟩
        · rw [List.any_eq_true] at hk
          obtain ⟨f, hf, hkb⟩ := hk
          exact absurd (hkeep f hf) (by simp [hkb])
        · rw [lostDigestsOf] at hbound
          omega
    · rw [if_neg hcond]
      show some (decide _) = some true ↔ _
      rw [Option.some_inj, decide_eq_true_eq]
      constructor
      · intro hlt
        refine ⟨hatom2, ?_, ?_, hlt⟩
        · intro f hf
          cases hkb : fKeepBad f
          · rfl
          · exact absurd (Or.inl (List.any_eq_true.mpr ⟨f, hf, hkb⟩)) hcond
        · by_cases hfe : fls.filter
              (fun f => relevantB f && !classSafeB t p f) = []
          · rw [lostDigestsOf, hfe]
            simpa using hml
          · have h2 : ¬maxLost < (foldDigests []
                (fls.filter
                  (fun f => relevantB f && !classSafeB t p f))).length :=
              fun hx => hcond (Or.inr ⟨hfe, hx⟩)
            rw [lostDigestsOf]
            omega
      · rintro ⟨_, _, _, hlt⟩
        exact hlt

def c3t : Tree := (ToTree idxCex).get (by decide)

def c3root : DirData := (lookupD c3t.dirs [100, 47]).get (by decide)

def c3fls : List File :=
  (collectDirFiles c3t.dirs (2 * c3t.dirs.length + 2) [[100, 47]] []).get
    (by decide)

theorem c3_is_dup_characterization_witness :
    ((lostDigestsOf c3t [100, 47] c3fls).length : Int) ≤ 0 :=
  ((c3_is_dup_characterization c3t [100, 47] 0 c3root c3fls (by decide)
    (Option.some_get (by decide)).symm (Option.some_get (by decide)).symm
    (by decide) (by decide) (by decide)).mp (by decide)).2.2.1

/-! ### Distance from the common root is positive for non-contained
paths (used by the C9 range proof) -/

theorem indexOf_min (l : List Nat) :
    ∀ (k : Nat), k < l.length → l.getD k 0 = 47 →
      List.indexOf 47 l ≤ k := by
  induction l with
  | nil =>
    intro k hk _
    simp at hk
  | cons x xs ih =>
    intro k hk h
    by_cases hx : x = 47
    · rw [hx, List.indexOf_cons_self]
      omega
    · rw [List.indexOf_cons_ne _ hx]
      cases k with
      | zero =>
        rw [List.getD_cons_zero] at h
        exact absurd h hx
      | succ k2 =>
        rw [List.getD_cons_succ] at h
        have h3 := ih k2 (by simpa using Nat.lt_of_succ_lt_succ hk) h
        omega

theorem indexOf_getD (l : List Nat) (h : List.indexOf 47 l < l.length) :
    l.getD (List.indexOf 47 l) 0 = 47 := by
  rw [List.getD_eq_getElem?_getD, List.getElem?_eq_getElem h,
    List.getElem_indexOf h]
  rfl

theorem commonRootRem_le :
    ∀ (n : Nat) (a b : Str), a.length ≤ n → commonRootRem a b ≤ a.length := by
  intro n
  induction n with
  | zero =>
    intro a b h
    rw [commonRootRem]
    split
    next h2 => omega
    next => exact Nat.le_refl _
  | succ n ih =>
    intro a b h
    rw [commonRootRem]
    split
    next h2 =>
      have h3 := ih (a.drop (a.indexOf 47 + 1)) (b.drop (a.indexOf 47 + 1))
        (by simp only [List.length_drop]; omega)
      simp only [List.length_drop] at h3
      omega
    next => exact Nat.le_refl _

theorem commonRootRem_zero :
    ∀ (n : Nat) (a b : Str), a.length ≤ n → a ≠ [] →
      commonRootRem a b = 0 →
      a.length ≤ b.length ∧ b.take a.length = a := by
  intro n
  induction n with
  | zero =>
    intro a b h ha _
    cases a with
    | nil => exact absurd rfl ha
    | cons x xs => simp at h
  | succ n ih =>
    intro a b h ha h0
    rw [commonRootRem] at h0
    split at h0
    next h2 =>
      obtain ⟨hi, hib, htake⟩ := h2
      by_cases hd : a.drop (a.indexOf 47 + 1) = []
      · have hlen : a.length = a.indexOf 47 + 1 := by
          have h5 := congrArg List.length hd
          simp only [List.length_drop, List.length_nil] at h5
          omega
        constructor
        · omega
        · rw [hlen, ← htake, List.take_of_length_le (by omega)]
      · have hlen2 : (a.drop (a.indexOf 47 + 1)).length ≤ n := by
          simp only [List.length_drop]
          omega
        obtain ⟨hl1, hl2⟩ := ih _ _ hlen2 hd h0
        simp only [List.length_drop] at hl1
        constructor
        · omega
        · have hsplit : a.length = (a.indexOf 47 + 1) +
              (a.length - (a.indexOf 47 + 1)) := by omega
          rw [hsplit, List.take_add, ← htake]
          have hd2 : (b.drop (a.indexOf 47 + 1)).take
              (a.length - (a.indexOf 47 + 1)) = a.drop (a.indexOf 47 + 1) := by
            have := hl2
            simpa [List.length_drop] using this
          rw [hd2, List.take_append_drop]
    next => exact absurd (List.length_eq_zero.mp h0) ha

theorem commonRootRem_boundary :
    ∀ (n : Nat) (a b : Str), a.length ≤ n →
      commonRootRem a b = a.length ∨
        a.getD (a.length - commonRootRem a b - 1) 0 = 47 := by
  intro n
  induction n with
  | zero =>
    intro a b h
    rw [commonRootRem]
    split
    next h2 => omega
    next => exact Or.inl rfl
  | succ n ih =>
    intro a b h
    rw [commonRootRem]
    split
    next h2 =>
      obtain ⟨hi, hib, htake⟩ := h2
      have hrem := commonRootRem_le (n + 1) (a.drop (a.indexOf 47 + 1))
        (b.drop (a.indexOf 47 + 1)) (by simp only [List.length_drop]; omega)
      simp only [List.length_drop] at hrem
      by_cases hcase : commonRootRem (a.drop (a.indexOf 47 + 1))
          (b.drop (a.indexOf 47 + 1)) = a.length - (a.indexOf 47 + 1)
      · right
        rw [hcase]
        have hidx : a.length - (a.length - (a.indexOf 47 + 1)) - 1 =
            a.indexOf 47 := by omega
        rw [hidx]
        exact indexOf_getD a hi
      · rcases ih (a.drop (a.indexOf 47 + 1)) (b.drop (a.indexOf 47 + 1))
            (by simp only [List.length_drop]; omega) with h3 | h3
        · simp only [List.length_drop] at h3
          exact absurd h3 hcase
        · right
          simp only [List.length_drop] at h3
          rw [List.getD_eq_getElem?_getD, List.getElem?_drop,
            ← List.getD_eq_getElem?_getD] at h3
          have hlt : commonRootRem (a.drop (a.indexOf 47 + 1))
              (b.drop (a.indexOf 47 + 1)) <
              a.length - (a.indexOf 47 + 1) := by
            omega
          have hidx : a.indexOf 47 + 1 +
              (a.length - (a.indexOf 47 + 1) -
                commonRootRem (a.drop (a.indexOf 47 + 1))
                  (b.drop (a.indexOf 47 + 1)) - 1) =
              a.length - commonRootRem (a.drop (a.indexOf 47 + 1))
                (b.drop (a.indexOf 47 + 1)) - 1 := by
            omega
          rw [hidx] at h3
          exact h3
    next => exact Or.inl rfl

theorem commonRootRem_take :
    ∀ (n : Nat) (a : Str) (k : Nat), a.length ≤ n → k < a.length →
      (k = 0 ∨ a.getD (k - 1) 0 = 47) →
      commonRootRem a (a.take k) = a.length - k := by
  intro n
  induction n with
  | zero =>
    intro a k h hk _
    omega
  | succ n ih =>
    intro a k h hk hb
    rcases hb with rfl | hb
    · rw [commonRootRem]
      split
      next h2 =>
        obtain ⟨hi, hib, _⟩ := h2
        simp at hib
      next => omega
    · by_cases hk0 : k = 0
      · subst hk0
        rw [commonRootRem]
        split
        next h2 =>
          obtain ⟨hi, hib, _⟩ := h2
          simp at hib
        next => omega
      · have hkpos : 0 < k := Nat.pos_of_ne_zero hk0
        have hidx : a.indexOf 47 ≤ k - 1 :=
          indexOf_min a (k - 1) (by omega) hb
        have hi : a.indexOf 47 < a.length := by omega
        rw [commonRootRem]
        rw [if_pos ?hcond]
        case hcond =>
          refine ⟨hi, ?_, ?_⟩
          · rw [List.length_take]
            omega
          · rw [List.take_take]
            rw [Nat.min_eq_left (by omega)]
        · rw [List.drop_take]
          by_cases hkk : k - (a.indexOf 47 + 1) = 0
          · -- the remaining prefix is empty
            rw [hkk]
            rw [show ((a.drop (a.indexOf 47 + 1)).take 0) = [] from rfl]
            rw [commonRootRem]
            split
            next h2 =>
              obtain ⟨_, hib, _⟩ := h2
              simp at hib
            next =>
              simp only [List.length_drop]
              omega
          · have hb2 : (a.drop (a.indexOf 47 + 1)).getD
                (k - (a.indexOf 47 + 1) - 1) 0 = 47 := by
              rw [List.getD_eq_getElem?_getD, List.getElem?_drop,
                ← List.getD_eq_getElem?_getD]
              have : a.indexOf 47 + 1 + (k - (a.indexOf 47 + 1) - 1) =
                  k - 1 := by omega
              rw [this]
              exact hb
            have h3 := ih (a.drop (a.indexOf 47 + 1))
              (k - (a.indexOf 47 + 1))
              (by simp only [List.length_drop]; omega)
              (by simp only [List.length_drop]; omega)
              (Or.inr hb2)
            rw [h3]
            simp only [List.length_drop]
            omega

theorem mem_of_getLastD (l : Str) (h : l ≠ []) (hl : l.getLastD 0 = 47) :
    (47 : Nat) ∈ l := by
  rw [List.getLastD_eq_getLast?] at hl
  cases h3 : l.getLast? with
  | none =>
    rw [List.getLast?_eq_none_iff] at h3
    exact absurd h3 h
  | some v =>
    rw [h3] at hl
    simp at hl
    subst hl
    exact List.mem_of_mem_getLast? h3

theorem getLastD_drop (l : Str) (m : Nat) (hm : m < l.length) :
    (l.drop m).getLastD 0 = l.getLastD 0 := by
  rw [List.getLastD_eq_getLast?, List.getLastD_eq_getLast?,
    List.getLast?_drop, if_neg (by omega)]

theorem count47_pos (l : Str) (hne : l ≠ []) (hlast : l.getLastD 0 = 47) :
    0 < l.count 47 :=
  List.count_pos_iff_mem.mpr (mem_of_getLastD l hne hlast)

theorem commonRootRem_rootP (p : Str) : commonRootRem p rootP = p.length := by
  rw [commonRootRem]
  split
  next h2 =>
    obtain ⟨hi, hib, htake⟩ := h2
    exfalso
    have hi0 : p.indexOf 47 = 0 := by
      have : rootP.length = 1 := rfl
      omega
    have h47 := indexOf_getD p hi
    rw [hi0] at h47 htake
    cases p with
    | nil => simp at hi
    | cons x xs =>
      rw [List.getD_cons_zero] at h47
      subst h47
      simp [rootP] at htake
  next => rfl

theorem dist_pos (p q : Str) (hp : p ≠ []) (hpl : p.getLastD 0 = 47)
    (hq : q ≠ []) (hnc : containsP p q = false) :
    ∃ cr n, commonRootP p q = some cr ∧ distP p cr = some n ∧ 1 ≤ n := by
  have hle := commonRootRem_le p.length p q (Nat.le_refl _)
  have hproot : p ≠ rootP := by
    intro h
    rw [h] at hpl
    simp [rootP] at hpl
  have hrem : 0 < commonRootRem p q := by
    by_contra hx
    push_neg at hx
    obtain ⟨h1, h2⟩ := commonRootRem_zero p.length p q (Nat.le_refl _) hp
      (by omega)
    rw [containsP] at hnc
    have hplen : 0 < p.length := List.length_pos.mpr hp
    simp only [hproot, h1, h2, hpl, hplen] at hnc
    simp at hnc
  by_cases hk0 : p.length - commonRootRem p q = 0
  · have hcr : commonRootP p q = some rootP := by
      rw [commonRootP, hk0]
      rw [if_neg (by simp), if_pos ⟨hp, hq⟩]
    refine ⟨rootP, p.count 47 + rootP.count 47, hcr, ?_, ?_⟩
    · rw [distP, commonRootP, commonRootRem_rootP]
      have h0 : p.length - p.length = 0 := by omega
      rw [h0]
      rw [if_neg (by simp), if_pos ⟨hp, by simp [rootP]⟩]
      show (if (rootP ≠ rootP) then
          some (List.count 47 (List.drop rootP.length p) +
            List.count 47 (List.drop rootP.length rootP))
        else some (List.count 47 p + List.count 47 rootP)) =
        some (List.count 47 p + List.count 47 rootP)
      rw [if_neg (by simp)]
    · have := count47_pos p hp hpl
      omega
  · have hkpos : 0 < p.length - commonRootRem p q := Nat.pos_of_ne_zero hk0
    have hbd := commonRootRem_boundary p.length p q (Nat.le_refl _)
    have hboundary : p.getD (p.length - commonRootRem p q - 1) 0 = 47 := by
      rcases hbd with h1 | h1
      · omega
      · exact h1
    have hrne : p.take (p.length - commonRootRem p q) ≠ [] := by
      intro h
      have h2 := congrArg List.length h
      simp only [List.length_take, List.length_nil] at h2
      omega
    have hcr : commonRootP p q =
        some (p.take (p.length - commonRootRem p q)) := by
      rw [commonRootP, if_pos hrne]
    have hrem2 : commonRootRem p (p.take (p.length - commonRootRem p q)) =
        p.length - (p.length - commonRootRem p q) :=
      commonRootRem_take p.length p (p.length - commonRootRem p q)
        (Nat.le_refl _) (by omega) (Or.inr hboundary)
    have hlen3 : (p.take (p.length - commonRootRem p q)).length =
        p.length - commonRootRem p q := by
      rw [List.length_take]
      omega
    have hnr : p.take (p.length - commonRootRem p q) ≠ rootP := by
      intro h
      have hlen : p.length - commonRootRem p q = 1 := by
        have h2 := congrArg List.length h
        simp only [List.length_take, rootP, List.length_cons,
          List.length_nil] at h2
        omega
      rw [hlen] at h hboundary
      have h46 : p.getD 0 0 = 46 := by
        cases p with
        | nil => exact absurd rfl hp
        | cons x xs =>
          rw [show List.take 1 (x :: xs) = [x] from rfl,
            show rootP = [46] from rfl] at h
          cases h
          rfl
      simp only [Nat.sub_self] at hboundary
      rw [h46] at hboundary
      omega
    have hdist : distP p (p.take (p.length - commonRootRem p q)) =
        some ((p.drop (p.length - commonRootRem p q)).count 47) := by
      rw [distP, commonRootP, hrem2]
      have he : p.length - (p.length - (p.length - commonRootRem p q)) =
          p.length - commonRootRem p q := by omega
      rw [he, if_pos hrne]
      show (if (p.take (p.length - commonRootRem p q) ≠ rootP) then
          some (List.count 47
              (p.drop (p.take (p.length - commonRootRem p q)).length) +
            List.count 47 ((p.take (p.length - commonRootRem p q)).drop
              (p.take (p.length - commonRootRem p q)).length))
        else some (List.count 47 p +
          List.count 47 (p.take (p.length - commonRootRem p q)))) = _
      rw [if_pos hnr, hlen3, List.drop_take]
      simp
    refine ⟨p.take (p.length - commonRootRem p q),
      (p.drop (p.length - commonRootRem p q)).count 47, hcr, hdist, ?_⟩
    have hlast2 : (p.drop (p.length - commonRootRem p q)).getLastD 0 = 47 := by
      rw [getLastD_drop p _ (by omega)]
      exact hpl
    have hdne : p.drop (p.length - commonRootRem p q) ≠ [] := by
      intro h
      have h2 := congrArg List.length h
      simp only [List.length_drop, List.length_nil] at h2
      omega
    exact count47_pos _ hdne hlast2

/-! ## Alternate-directory scoring (source: `(*dir).altScore`).  Go
computes in float64; the model computes in exact rationals.  The only
divisions whose denominators are not excluded by the checked
preconditions are the distance and the total file count; when Go would
divide by zero it produces +Inf and the final range assertion fires,
so the model returns `none` in exactly those cases. -/

def altCore (altUniq altTotalF altTotalD dn : Nat) (safe rem : Int) : ℚ :=
  5 * (1 / 8 : ℚ) * (((safe : ℚ) / (rem : ℚ)) * ((safe : ℚ) / (altUniq : ℚ))) +
    (1 / 8 : ℚ) * ((safe : ℚ) / (altTotalF : ℚ)) +
    (1 / 8 : ℚ) * (1 / (1 + (altTotalD : ℚ))) +
    (1 / 8 : ℚ) * (1 / (dn : ℚ))

def altScore (dpath : Str) (dUniq : Nat) (altpath : Str)
    (altUniq altTotalF altTotalD : Nat) (safe rem : Int) : Option ℚ :=
  if ¬(0 < safe ∧ safe ≤ (altUniq : Int)) ∨
      ¬(safe ≤ rem ∧ rem ≤ (dUniq : Int)) then none
  else
    match commonRootP dpath altpath with
    | none => none
    | some cr =>
      match distP dpath cr with
      | none => none
      | some dn =>
        if dn = 0 ∨ altTotalF = 0 then none
        else if containsP altpath dpath then
          if 0 ≤ altCore altUniq altTotalF altTotalD dn safe rem / 2 ∧
              altCore altUniq altTotalF altTotalD dn safe rem / 2 ≤ 1 then
            some (altCore altUniq altTotalF altTotalD dn safe rem / 2)
          else none
        else
          if 0 ≤ altCore altUniq altTotalF altTotalD dn safe rem ∧
              altCore altUniq altTotalF altTotalD dn safe rem ≤ 1 then
            some (altCore altUniq altTotalF altTotalD dn safe rem)
          else none

theorem altScore_core_bounds (s r u tf td dq : ℚ)
    (hs1 : 1 ≤ s) (hsr : s ≤ r) (hsu : s ≤ u) (hutf : u ≤ tf)
    (htd : 0 ≤ td) (hdq : 1 ≤ dq) :
    0 ≤ 5 * (1 / 8 : ℚ) * ((s / r) * (s / u)) + (1 / 8 : ℚ) * (s / tf) +
      (1 / 8 : ℚ) * (1 / (1 + td)) + (1 / 8 : ℚ) * (1 / dq) ∧
    5 * (1 / 8 : ℚ) * ((s / r) * (s / u)) + (1 / 8 : ℚ) * (s / tf) +
      (1 / 8 : ℚ) * (1 / (1 + td)) + (1 / 8 : ℚ) * (1 / dq) ≤ 1 := by
  have hrpos : 0 < r := by linarith
  have hupos : 0 < u := by linarith
  have htfpos : 0 < tf := by linarith
  have htdpos : 0 < 1 + td := by linarith
  have hdqpos : 0 < dq := by linarith
  have hm1 : 0 ≤ s / r := by positivity
  have hm2 : s / r ≤ 1 := (div_le_one hrpos).mpr hsr
  have hm3 : 0 ≤ s / u := by positivity
  have hm4 : s / u ≤ 1 := (div_le_one hupos).mpr hsu
  have hm5 : (s / r) * (s / u) ≤ 1 := mul_le_one hm2 hm3 hm4
  have hm0 : 0 ≤ (s / r) * (s / u) := mul_nonneg hm1 hm3
  have hf0 : 0 ≤ s / tf := by positivity
  have hf1 : s / tf ≤ 1 := (div_le_one htfpos).mpr (by linarith)
  have hd0 : (0 : ℚ) ≤ 1 / (1 + td) := by positivity
  have hd1 : 1 / (1 + td) ≤ 1 := (div_le_one htdpos).mpr (by linarith)
  have he0 : (0 : ℚ) ≤ 1 / dq := by positivity
  have he1 : 1 / dq ≤ 1 := (div_le_one hdqpos).mpr hdq
  constructor
  · nlinarith
  · nlinarith

theorem altCore_bounds (altUniq altTotalF altTotalD dn : Nat) (safe rem : Int)
    (h1 : 0 < safe) (h2 : safe ≤ (altUniq : Int)) (h3 : safe ≤ rem)
    (hinv : altUniq ≤ altTotalF) (hdn : 1 ≤ dn) :
    0 ≤ altCore altUniq altTotalF altTotalD dn safe rem ∧
      altCore altUniq altTotalF altTotalD dn safe rem ≤ 1 := by
  rw [altCore]
  exact altScore_core_bounds (safe : ℚ) (rem : ℚ) (altUniq : ℚ)
    (altTotalF : ℚ) (altTotalD : ℚ) (dn : ℚ)
    (by exact_mod_cast (show (1 : Int) ≤ safe by omega))
    (by exact_mod_cast h3) (by exact_mod_cast h2)
    (by exact_mod_cast hinv) (by positivity) (by exact_mod_cast hdn)

/-- **C9.**  Under the checked preconditions, the tree count
invariants, a directory-shaped `d` path and `d` not containing `alt`,
`altScore` succeeds: the distance to the common root is at least one
step, the score equals (5·match + files + dirs + dist)/8 — halved when
alt contains d — and lies in [0, 1], so the range assertion cannot
fire. -/
theorem c9_alt_score (dpath altpath : Str)
    (dUniq altUniq altTotalF altTotalD : Nat) (safe rem : Int)
    (h1 : 0 < safe) (h2 : safe ≤ (altUniq : Int))
    (h3 : safe ≤ rem) (h4 : rem ≤ (dUniq : Int))
    (hinv : altUniq ≤ altTotalF)
    (hdirp : isDirP dpath = true) (haltne : altpath ≠ [])
    (hnc : containsP dpath altpath = false) :
    ∃ cr dn q, commonRootP dpath altpath = some cr ∧
      distP dpath cr = some dn ∧ 1 ≤ dn ∧
      altScore dpath dUniq altpath altUniq altTotalF altTotalD safe rem =
        some q ∧
      q = (if containsP altpath dpath then
          (5 * (((safe : ℚ) / (rem : ℚ)) * ((safe : ℚ) / (altUniq : ℚ))) +
            (safe : ℚ) / (altTotalF : ℚ) + 1 / (1 + (altTotalD : ℚ)) +
            1 / (dn : ℚ)) / 8 / 2
        else
          (5 * (((safe : ℚ) / (rem : ℚ)) * ((safe : ℚ) / (altUniq : ℚ))) +
            (safe : ℚ) / (altTotalF : ℚ) + 1 / (1 + (altTotalD : ℚ)) +
            1 / (dn : ℚ)) / 8) ∧
      0 ≤ q ∧ q ≤ 1 := by
  have hdne : dpath ≠ [] := by
    intro h
    rw [h] at hdirp
    simp [isDirP] at hdirp
  have hproot : dpath ≠ rootP := by
    intro h
    rw [h, containsP] at hnc
    simp at hnc
  have hpl : dpath.getLastD 0 = 47 := by
    rw [isDirP] at hdirp
    simp only [Bool.and_eq_true, Bool.or_eq_true, decide_eq_true_eq] at hdirp
    rcases hdirp.2 with h5 | h5
    · exact absurd h5 hproot
    · exact h5
  obtain ⟨cr, dn, hcr, hdist, hdn⟩ :=
    dist_pos dpath altpath hdne hpl haltne hnc
  have htf1 : 1 ≤ altTotalF := by omega
  have hb := altCore_bounds altUniq altTotalF altTotalD dn safe rem
    h1 h2 h3 hinv hdn
  have hpre : ¬(¬(0 < safe ∧ safe ≤ (altUniq : Int)) ∨
      ¬(safe ≤ rem ∧ rem ≤ (dUniq : Int))) := by
    push_neg
    exact ⟨⟨h1, h2⟩, h3, h4⟩
  have hscore :
      altScore dpath dUniq altpath altUniq altTotalF altTotalD safe rem =
        some (if containsP altpath dpath then
          altCore altUniq altTotalF altTotalD dn safe rem / 2
        else altCore altUniq altTotalF altTotalD dn safe rem) := by
    rw [altScore, if_neg hpre, hcr]
    split
    next heq => exact absurd heq (by simp)
    next cr2 heq =>
      injection heq with heq
      subst heq
      rw [hdist]
      split
      next heq2 => exact absurd heq2 (by simp)
      next dn2 heq2 =>
        injection heq2 with heq2
        subst heq2
        rw [if_neg (by omega)]
        by_cases hcont : containsP altpath dpath = true
        · rw [if_pos hcont, if_pos hcont,
            if_pos ⟨by linarith [hb.1], by linarith [hb.2]⟩]
        · rw [if_neg hcont, if_neg hcont, if_pos hb]
  refine ⟨cr, dn, _, hcr, hdist, hdn, hscore, ?_, ?_, ?_⟩
  · by_cases hcont : containsP altpath dpath = true
    · rw [if_pos hcont, if_pos hcont, altCore]
      ring
    · rw [if_neg hcont, if_neg hcont, altCore]
      ring
  · by_cases hcont : containsP altpath dpath = true
    · rw [if_pos hcont]
      linarith [hb.1]
    · rw [if_neg hcont]
      exact hb.1
  · by_cases hcont : containsP altpath dpath = true
    · rw [if_pos hcont]
      linarith [hb.2]
    · rw [if_neg hcont]
      exact hb.2

theorem c9_alt_score_witness :
    ∃ cr dn q, commonRootP [97, 47] [98, 47] = some cr ∧
      distP [97, 47] cr = some dn ∧ 1 ≤ dn ∧
      altScore [97, 47] 1 [98, 47] 1 1 0 1 1 = some q ∧
      q = (if containsP [98, 47] [97, 47] then
          (5 * ((((1 : Int) : ℚ) / ((1 : Int) : ℚ)) *
              (((1 : Int) : ℚ) / ((1 : Nat) : ℚ))) +
            ((1 : Int) : ℚ) / ((1 : Nat) : ℚ) + 1 / (1 + ((0 : Nat) : ℚ)) +
            1 / (dn : ℚ)) / 8 / 2
        else
          (5 * ((((1 : Int) : ℚ) / ((1 : Int) : ℚ)) *
              (((1 : Int) : ℚ) / ((1 : Nat) : ℚ))) +
            ((1 : Int) : ℚ) / ((1 : Nat) : ℚ) + 1 / (1 + ((0 : Nat) : ℚ)) +
            1 / (dn : ℚ)) / 8) ∧
      0 ≤ q ∧ q ≤ 1 :=
  c9_alt_score [97, 47] [98, 47] 1 1 1 0 1 1 (by decide) (by decide)
    (by decide) (by decide) (by decide) (by decide) (by decide) (by decide)

/-! ## Rescan (source: `(*Tree).Rescan` and `(*walker).walk`).  The
file-system walk is modeled as the list of regular-file entries it
visits, each carrying the digest the hasher would produce; the old
tree is modeled by its stored file list, with lookup by full path
standing in for `Tree.file`, which resolves the same path through the
directory map.  Go receives hashed files from a channel in an
arbitrary interleaving; that only permutes the accumulator, which
`all.Sort()` then canonicalizes, so the model keeps walk order.
`Flag` is a byte, so `&^flagGone` is `&&& 251`. -/

structure Entry where
  path : Str
  size : Int
  modTime : Nat
  digest : Digest
deriving DecidableEq, Repr

/-- Rescan phase 0: clear non-persistent flags on every stored file. -/
def clearFlags (ts : List File) : List File :=
  ts.map (fun f => { f with flag := f.flag &&& flagPersist })

/-- In-place flag update of the first file with the given path,
modeling mutation through the pointer `Tree.file` returned. -/
def setFlagAt : List File → Str → Nat → List File
  | [], _, _ => []
  | f :: fs, p, fl =>
    if f.path = p then { f with flag := fl } :: fs
    else f :: setFlagAt fs p fl

/-- One regular-file step of the walk callback: a stored file with the
same name, size, and modification time is reused — its flag becomes
`flag &^ flagGone ||| flagSame` and it is forwarded as is; any other
entry is hashed into a fresh file with flag 0. -/
def rescanStep (ts : List File) (e : Entry) : List File × File :=
  match ts.find? (fun f => decide (f.path = e.path)) with
  | some f =>
    if f.size = e.size ∧ f.modTime = e.modTime then
      (setFlagAt ts e.path (f.flag &&& 251 ||| flagSame),
        { f with flag := f.flag &&& 251 ||| flagSame })
    else
      (ts, { path := e.path, digest := e.digest, size := e.size, modTime := e.modTime, flag := 0 })
  | none =>
    (ts, { path := e.path, digest := e.digest, size := e.size, modTime := e.modTime, flag := 0 })

/-- The whole walk: final stored-file state and forwarded files. -/
def rescanWalk (ts : List File) : List Entry → List File × List File
  | [] => (ts, [])
  | e :: es =>
    ((rescanWalk (rescanStep ts e).1 es).1,
      (rescanStep ts e).2 :: (rescanWalk (rescanStep ts e).1 es).2)

/-- Rescan phase 2: every stored file that did not receive the Same
bit is marked Gone and appended iff the result has a Keep-mask bit. -/
def rescanGone (ts : List File) : List File :=
  ts.filterMap (fun f =>
    if f.flag &&& flagSame ≠ 0 then none
    else if (f.flag ||| flagGone) &&& flagKeep ≠ 0 then
      some { f with flag := f.flag ||| flagGone }
    else none)

/-- Source `Rescan`: clear flags, walk, mark gone files, sort, build. -/
def Rescan (root : Str) (ts : List File) (es : List Entry) : Option Index :=
  match sortFiles ((rescanWalk (clearFlags ts) es).2 ++
      rescanGone (rescanWalk (clearFlags ts) es).1) with
  | none => none
  | some all => NewIndex root all

theorem nat_and_lor (a b c : Nat) :
    (a ||| b) &&& c = (a &&& c) ||| (b &&& c) := by
  apply Nat.eq_of_testBit_eq
  intro i
  rw [Nat.testBit_land, Nat.testBit_lor, Nat.testBit_lor,
    Nat.testBit_land, Nat.testBit_land]
  cases a.testBit i <;> cases b.testBit i <;> cases c.testBit i <;> rfl

theorem lor_right_eq_zero (a b : Nat) (h : a ||| b = 0) : b = 0 := by
  apply Nat.eq_of_testBit_eq
  intro i
  have h2 := congrArg (fun n => n.testBit i) h
  simp only [Nat.testBit_lor, Nat.zero_testBit] at h2
  simp only [Nat.zero_testBit]
  cases hb : b.testBit i
  · rfl
  · rw [hb] at h2
    simp at h2

theorem lor_gone_and_keep (a : Nat) :
    (a ||| flagGone) &&& flagKeep = a &&& flagKeep := by
  rw [flagGone, flagKeep, nat_and_lor,
    (show (4 &&& 3 : Nat) = 0 by decide)]
  simp

theorem lor_gone_and_same (a : Nat) :
    (a ||| flagGone) &&& flagSame = a &&& flagSame := by
  rw [flagGone, flagSame, nat_and_lor,
    (show (4 &&& 16 : Nat) = 0 by decide)]
  simp

theorem lor_gone_ne_zero (a : Nat) : a ||| flagGone ≠ 0 := by
  intro h
  rw [flagGone] at h
  exact absurd (lor_right_eq_zero a 4 h) (by decide)

theorem clear_same_and_gone (a : Nat) :
    (a &&& 251 ||| flagSame) &&& flagGone = 0 := by
  rw [flagSame, flagGone, nat_and_lor, Nat.and_assoc,
    (show (251 &&& 4 : Nat) = 0 by decide),
    (show (16 &&& 4 : Nat) = 0 by decide), Nat.and_zero]
  simp

theorem clear_same_and_same (a : Nat) :
    (a &&& 251 ||| flagSame) &&& flagSame ≠ 0 := by
  rw [flagSame, nat_and_lor, (show (16 &&& 16 : Nat) = 16 by decide)]
  intro h
  exact absurd (lor_right_eq_zero _ 16 h) (by decide)

/-- Every file the walk forwards is either freshly hashed (flag 0) or
a reused file carrying the Same bit. -/
theorem rescanWalk_flags :
    ∀ (es : List Entry) (ts : List File) (f : File),
      f ∈ (rescanWalk ts es).2 → f.flag = 0 ∨ f.flag &&& flagSame ≠ 0
  | [], ts, f => by
    intro h
    simp [rescanWalk] at h
  | e :: es, ts, f => by
    intro h
    rw [rescanWalk] at h
    rcases List.mem_cons.mp h with rfl | h2
    · rw [rescanStep]
      split
      next f0 heq =>
        split
        next => exact Or.inr (clear_same_and_same f0.flag)
        next => exact Or.inl rfl
      next => exact Or.inl rfl
    · exact rescanWalk_flags es (rescanStep ts e).1 f h2

/-- A successful `New` yields groups whose concatenation permutes the
input. -/
theorem NewIndex_join_perm (root : Str) (all : List File) (idx : Index)
    (h : NewIndex root all = some idx) : idx.groups.join.Perm all := by
  rw [NewIndex] at h
  split at h
  next he =>
    cases Option.some_inj.mp h
    subst he
    simp
  next he =>
    split at h
    next => exact absurd h (by simp)
    next gs hgs =>
      cases Option.some_inj.mp h
      show gs.join.Perm all
      rw [groupByDigest_char all gs hgs]
      refine join_filter_perm all (firstDigests all)
        (firstDigestsAux_nodup all []) ?_
      intro f hf
      rw [firstDigests, firstDigestsAux_mem]
      exact ⟨by simp, f, hf, rfl⟩

/-- **C2.**  During Rescan, a walked regular file matching a stored
file on path, size and mtime is reused: the stored file's flag becomes
`flag &^ Gone ||| Same` (the Gone bit is cleared, the Same bit set)
and it is forwarded with its digest intact, no hashing; after the walk
drains, every stored file without the Same bit is marked Gone and
appears in the resulting index exactly when it carries a persistent
Dup/Junk/Keep mark. -/
theorem c2_rescan (root : Str) (t : List File) (es : List Entry)
    (idx : Index) (hres : Rescan root t es = some idx) :
    (∀ ts e f, ts.find? (fun g => decide (g.path = e.path)) = some f →
      f.size = e.size ∧ f.modTime = e.modTime →
      rescanStep ts e =
        (setFlagAt ts e.path (f.flag &&& 251 ||| flagSame),
          { f with flag := f.flag &&& 251 ||| flagSame }) ∧
      (f.flag &&& 251 ||| flagSame) &&& flagGone = 0 ∧
      (f.flag &&& 251 ||| flagSame) &&& flagSame ≠ 0 ∧
      ({ f with flag := f.flag &&& 251 ||| flagSame } : File).digest =
        f.digest) ∧
    (∀ g, g ∈ (rescanWalk (clearFlags t) es).1 →
      g.flag &&& flagSame = 0 →
      ({ g with flag := g.flag ||| flagGone } ∈ idx.groups.join ↔
        g.flag &&& flagKeep ≠ 0)) := by
  constructor
  · intro ts e f hfind hmatch
    refine ⟨?_, clear_same_and_gone f.flag, clear_same_and_same f.flag,
      rfl⟩
    rw [rescanStep, hfind]
    split
    next f0 heq =>
      injection heq with heq
      subst heq
      rw [if_pos hmatch]
    next heq => exact absurd heq (by simp)
  · intro g hg hsame
    rw [Rescan] at hres
    split at hres
    next => exact absurd hres (by simp)
    next all hsort =>
      have hperm : idx.groups.join.Perm
          ((rescanWalk (clearFlags t) es).2 ++
            rescanGone (rescanWalk (clearFlags t) es).1) :=
        (NewIndex_join_perm root all idx hres).trans
          (sortFiles_perm _ all hsort)
      rw [hperm.mem_iff, List.mem_append]
      constructor
      · rintro (hw | hgone)
        · rcases rescanWalk_flags es (clearFlags t) _ hw with h0 | h16
          · have h0' : g.flag ||| flagGone = 0 := h0
            exact absurd h0' (lor_gone_ne_zero g.flag)
          · have h16' : (g.flag ||| flagGone) &&& flagSame ≠ 0 := h16
            rw [lor_gone_and_same] at h16'
            exact absurd hsame h16'
        · obtain ⟨a, ha, hfa⟩ := List.mem_filterMap.mp hgone
          split at hfa
          next => exact absurd hfa (by simp)
          next =>
            split at hfa
            next hk =>
              injection hfa with hfa
              have hfl : a.flag ||| flagGone = g.flag ||| flagGone :=
                congrArg File.flag hfa
              rw [← lor_gone_and_keep]
              rw [← hfl]
              exact hk
            next => exact absurd hfa (by simp)
      · intro hkeep
        right
        refine List.mem_filterMap.mpr ⟨g, hg, ?_⟩
        rw [if_neg (fun hc => hc hsame),
          if_pos (by rw [lor_gone_and_keep]; exact hkeep)]

def c2t : List File :=
  [{ path := [97], digest := [1], size := 0, modTime := 0, flag := 1 }, { path := [98], digest := [2], size := 0, modTime := 0, flag := 0 }]

def c2es : List Entry :=
  [{ path := [97], size := 0, modTime := 0, digest := [1] }]

def c2idx : Index :=
  { root := [114], groups := [[{ path := [97], digest := [1], size := 0, modTime := 0, flag := 17 }]] }

theorem c2_rescan_witness :
    (∀ ts e f, ts.find? (fun g => decide (g.path = e.path)) = some f →
      f.size = e.size ∧ f.modTime = e.modTime →
      rescanStep ts e =
        (setFlagAt ts e.path (f.flag &&& 251 ||| flagSame),
          { f with flag := f.flag &&& 251 ||| flagSame }) ∧
      (f.flag &&& 251 ||| flagSame) &&& flagGone = 0 ∧
      (f.flag &&& 251 ||| flagSame) &&& flagSame ≠ 0 ∧
      ({ f with flag := f.flag &&& 251 ||| flagSame } : File).digest =
        f.digest) ∧
    (∀ g, g ∈ (rescanWalk (clearFlags c2t) c2es).1 →
      g.flag &&& flagSame = 0 →
      ({ g with flag := g.flag ||| flagGone } ∈ c2idx.groups.join ↔
        g.flag &&& flagKeep ≠ 0)) :=
  c2_rescan [114] c2t c2es c2idx (by decide)

/-! ## Persisted index text format (source: `(*Index).write`, `read`,
`readHeader` and helpers).  Byte streams are `Str`; the writer is
modeled per line and the stream is the newline join of the lines,
byte-identical to the buffered output.  `time.Time` values and their
RFC3339Nano codec live outside this repository: modification times are
Nats and their codec is the canonical decimal encoding, which shares
the interface properties the format relies on (nonempty output, no
tab or newline bytes, strict parse inverting the format).
`uniseg.StringWidth` is likewise external and is modeled as the byte
count; it only feeds the alignment-tab count, which the reader strips
with `TrimLeft`. -/

def v1S : Str := [102, 115, 120, 32, 105, 110, 100, 101, 120, 32, 118, 49]

def zero32 : Str := List.replicate 32 0

def hexDigitC (n : Nat) : Nat := if n < 10 then 48 + n else 87 + n

/-- `hex.Encode` over a digest value. -/
def hexEncode (d : Str) : Str :=
  d.bind (fun b => [hexDigitC (b / 16), hexDigitC (b % 16)])

def unhexDigit (c : Nat) : Option Nat :=
  if 48 ≤ c ∧ c ≤ 57 then some (c - 48)
  else if 97 ≤ c ∧ c ≤ 102 then some (c - 87)
  else if 65 ≤ c ∧ c ≤ 70 then some (c - 55)
  else none

/-- `hex.Decode`: pairs of hex digits; odd length or a bad digit is an
error. -/
def hexDecode : Str → Option Str
  | [] => some []
  | _ :: [] => none
  | a :: b :: rest =>
    match unhexDigit a with
    | none => none
    | some x =>
      match unhexDigit b with
      | none => none
      | some y =>
        match hexDecode rest with
        | none => none
        | some d => some ((16 * x + y) :: d)

def decEncAux : Nat → Nat → Str
  | 0, _ => []
  | _ + 1, 0 => []
  | fuel + 1, n + 1 => decEncAux fuel ((n + 1) / 10) ++ [48 + (n + 1) % 10]

/-- `strconv.AppendUint(…, 10)`: canonical decimal digits. -/
def decEnc (n : Nat) : Str :=
  match n with
  | 0 => [48]
  | n + 1 => decEncAux (n + 1) (n + 1)

def isDigit (c : Nat) : Bool := decide (48 ≤ c ∧ c ≤ 57)

def decFold : Str → Nat → Option Nat
  | [], acc => some acc
  | c :: cs, acc =>
    if isDigit c then decFold cs (acc * 10 + (c - 48)) else none

/-- `strconv.ParseUint(…, 10, 63)`: digits only, value below 2^63. -/
def decParse63 (s : Str) : Option Nat :=
  if s = [] then none
  else
    match decFold s 0 with
    | none => none
    | some n => if n < 2 ^ 63 then some n else none

/-- Modification-time text form (stand-in for RFC3339Nano, see the
section comment). -/
def timeFormat (t : Nat) : Str := decEnc t

/-- Strict modification-time parse: accepts exactly the canonical
encodings. -/
def timeParse (s : Str) : Option Nat :=
  match decFold s 0 with
  | none => none
  | some n => if s ≠ [] ∧ decEnc n = s then some n else none

def wsByte (c : Nat) : Bool :=
  decide (c = 9 ∨ c = 10 ∨ c = 11 ∨ c = 12 ∨ c = 13 ∨ c = 32)

/-- `strings.TrimRight(p, "\t\n\v\f\r ")`. -/
def trimRightWs (p : Str) : Str := (p.reverse.dropWhile wsByte).reverse

/-- Per-line monospace width of a written entry:
`tabWidth + width(path)&^(tabWidth-1) + 2*tabWidth`. -/
def lineWidthOf (f : File) : Nat := 8 + f.path.length / 8 * 8 + 16

/-- The group alignment column: the maximum entry width, at least
`minAlign = 104`. -/
def alignOf (g : List File) : Nat :=
  g.foldl (fun a f => if flagWrite f.flag then max a (lineWidthOf f) else a)
    104

def timeTag (align lw t : Nat) : Str :=
  [9, 47, 47, 9] ++ List.replicate ((align - lw) / 8) 9 ++ timeFormat t

/-- The `\t//` comment of a written entry: the modification time when
it differs from the predecessor's (`g[i-1]`, written or not), the bare
marker for a path with trailing whitespace, or nothing. -/
def mtimeTail (align : Nat) (prev : Option File) (f : File) : Str :=
  match prev with
  | none => timeTag align (lineWidthOf f) f.modTime
  | some p =>
    if f.modTime = p.modTime then
      (if trimRightWs f.path ≠ f.path then [9, 47, 47] else [])
    else timeTag align (lineWidthOf f) f.modTime

/-- One written file entry: flag, tab, path, comment. -/
def fileLine (align : Nat) (prev : Option File) (f : File) : Str :=
  flagString f.flag ++ 9 :: (f.path ++ mtimeTail align prev f)

def groupLines (align : Nat) (prev : Option File) : List File → List Str
  | [] => []
  | f :: fs =>
    (if flagWrite f.flag then [fileLine align prev f] else []) ++
      groupLines align (some f) fs

/-- The `\t\t` digest-and-size trailer of a group. -/
def digestLine (f0 : File) : Str :=
  9 :: 9 :: (hexEncode f0.digest ++ 9 :: decEnc ((f0.size % 2 ^ 64).toNat))

/-- One group of the written body: nothing when every member is
skipped, and `none` for the digest/size-mismatch panic. -/
def writeGroup : List File → Option (List Str)
  | [] => some []
  | f0 :: fs =>
    if (f0 :: fs).all (fun f => f.digest = f0.digest ∧ f.size = f0.size) then
      if (f0 :: fs).all (fun f => ¬ flagWrite f.flag) then some []
      else
        some (groupLines (alignOf (f0 :: fs)) none (f0 :: fs) ++
          [digestLine f0])
    else none

def writeGroups : List (List File) → Option (List Str)
  | [] => some []
  | g :: gs =>
    match writeGroup g with
    | none => none
    | some ls =>
      match writeGroups gs with
      | none => none
      | some rest => some (ls ++ rest)

def linesJoin : List Str → Str
  | [] => []
  | l :: ls => l ++ 10 :: linesJoin ls

/-- Source `(*Index).write`: header then body, every line
newline-terminated. -/
def writeIndex (x : Index) : Option Str :=
  match writeGroups x.groups with
  | none => none
  | some body => some (linesJoin (v1S :: x.root :: body))

/-- `bufio.ScanLines` token post-processing: drop one trailing CR. -/
def dropCR (l : Str) : Str :=
  if l.getLastD 0 = 13 then l.take (l.length - 1) else l

def splitLinesGo : Str → Str → List Str
  | cur, [] => if cur = [] then [] else [dropCR cur]
  | cur, c :: rest =>
    if c = 10 then dropCR cur :: splitLinesGo [] rest
    else splitLinesGo (cur ++ [c]) rest

/-- `bufio.Scanner` with `ScanLines`: newline-separated tokens, one
trailing CR stripped, no empty final token. -/
def splitLines (s : Str) : List Str := splitLinesGo [] s

/-- Occurrence test for the `\t//` separator. -/
def hasTSS : Str → Bool
  | [] => false
  | c :: cs => (decide (c = 9) && decide (cs.take 2 = [47, 47])) || hasTSS cs

/-- `bytes.Cut(ln, []byte("\t//"))` with the unused `found` flag
dropped: the reader only tests whether the remainder is empty. -/
def cutTSS : Str → Str × Str
  | [] => ([], [])
  | c :: cs =>
    if c = 9 ∧ cs.take 2 = [47, 47] then ([], cs.drop 2)
    else (c :: (cutTSS cs).1, (cutTSS cs).2)

/-- Source `strictFilePath` (panic modeled as a Bool guard): the path
must be exactly what `filePath` returns for it. -/
def strictOk (p : Str) : Bool := filePath p = some p

/-- The file-entry part of a body line, after the flag and the
`\t//` cut: strict path validation, then the explicit or inherited
modification time. -/
def readFileEntry (g : List File) (fl : Nat) (pr : Str × Str) :
    Option File :=
  if strictOk pr.1 then
    if pr.2 ≠ [] then
      match timeParse (pr.2.dropWhile (fun c => decide (c = 9))) with
      | none => none
      | some t =>
        some { path := pr.1, digest := zero32, size := 0, modTime := t, flag := fl }
    else
      match g.getLast? with
      | none => none
      | some pf =>
        some { path := pr.1, digest := zero32, size := 0, modTime := pf.modTime, flag := fl }
  else none

/-- One body line of `read`: a `\t\t` line closes the current group
with its digest and size; any other line appends a file with its flag,
path, and explicit or inherited modification time. -/
def readLine (g : List File) (groups : List (List File)) (ln : Str) :
    Option (List File × List (List File)) :=
  if ln.take 2 = [9, 9] then
    if g = [] then none
    else
      if (ln.drop 2).indexOf 9 < (ln.drop 2).length then
        match hexDecode ((ln.drop 2).take ((ln.drop 2).indexOf 9)) with
        | none => none
        | some d =>
          if d.length = 32 then
            match decParse63 ((ln.drop 2).drop ((ln.drop 2).indexOf 9 + 1)) with
            | none => none
            | some sz =>
              some ([], groups ++
                [g.map (fun f => { f with digest := d, size := (sz : Int) })])
          else none
      else none
  else
    if ln.indexOf 9 < ln.length then
      match parseFlag (ln.take (ln.indexOf 9)) with
      | none => none
      | some fl =>
        match readFileEntry g fl (cutTSS (ln.drop (ln.indexOf 9 + 1))) with
        | none => none
        | some f => some (g ++ [f], groups)
    else none

/-- The file as `read` first builds it: path, flag and modification
time, with the digest and size still at their zero values. -/
def stripF (f : File) : File :=
  { path := f.path, digest := zero32, size := 0, modTime := f.modTime, flag := f.flag }

def readLinesGo : List Str → List File → List (List File) →
    Option (List (List File))
  | [], g, groups => if g = [] then some groups else none
  | ln :: rest, g, groups =>
    match readLine g groups ln with
    | none => none
    | some gg => readLinesGo rest gg.1 gg.2

/-- Source `read` with `readHeader`: signature line, tab-free root
line, then the body lines; the final group must be closed. -/
def readIndex (s : Str) : Option Index :=
  match splitLines s with
  | sig :: root :: rest =>
    if sig = v1S then
      if root.indexOf 9 < root.length then none
      else
        match readLinesGo rest [] [] with
        | none => none
        | some groups => some { root := root, groups := groups }
    else none
  | _ => none

/-- Well-formedness making the round trip hold: see the amended
claim. -/
def pathWF (p : Str) : Bool :=
  strictOk p && decide (p ≠ []) && decide (p.take 1 ≠ [9]) &&
    p.all (fun c => decide (c ≠ 10)) && !(hasTSS p)

def fileWF (f : File) : Bool :=
  flagWrite f.flag && decide (f.flag < 8) && decide (f.flag ≠ 4) &&
    decide (f.digest.length = 32) && f.digest.all (fun b => decide (b < 256)) &&
    decide (0 ≤ f.size) && decide (f.size < 2 ^ 63) && pathWF f.path

def groupWF : List File → Bool
  | [] => false
  | f0 :: fs =>
    (f0 :: fs).all fileWF &&
      (f0 :: fs).all (fun f => decide (f.digest = f0.digest ∧ f.size = f0.size))

def IndexWF (x : Index) : Bool :=
  x.root.all (fun c => decide (c ≠ 9 ∧ c ≠ 10 ∧ c ≠ 13)) &&
    x.groups.all groupWF

theorem unhexDigit_hexDigitC : ∀ n < 16, unhexDigit (hexDigitC n) = some n := by
  decide

theorem hexDigitC_ne : ∀ n < 16, hexDigitC n ≠ 9 ∧ hexDigitC n ≠ 10 := by
  decide

theorem hexEncode_cons (b : Nat) (rest : Str) :
    hexEncode (b :: rest) =
      hexDigitC (b / 16) :: hexDigitC (b % 16) :: hexEncode rest := rfl

theorem hexEncode_chars (d : Str) (hd : ∀ b ∈ d, b < 256) :
    ∀ c ∈ hexEncode d, c ≠ 9 ∧ c ≠ 10 := by
  induction d with
  | nil => simp [hexEncode]
  | cons b rest ih =>
    intro c hc
    have hb := hd b (List.mem_cons_self _ _)
    rw [hexEncode_cons] at hc
    rcases List.mem_cons.mp hc with rfl | hc2
    · exact hexDigitC_ne _ (by omega)
    · rcases List.mem_cons.mp hc2 with rfl | hc3
      · exact hexDigitC_ne _ (Nat.mod_lt _ (by omega))
      · exact ih (fun x hx => hd x (List.mem_cons_of_mem _ hx)) c hc3

theorem hexDecode_hexEncode (d : Str) (hd : ∀ b ∈ d, b < 256) :
    hexDecode (hexEncode d) = some d := by
  induction d with
  | nil => rfl
  | cons b rest ih =>
    have hb := hd b (List.mem_cons_self _ _)
    have h1 : b / 16 < 16 := by omega
    have h2 : b % 16 < 16 := Nat.mod_lt _ (by omega)
    rw [hexEncode_cons, hexDecode, unhexDigit_hexDigitC _ h1,
      unhexDigit_hexDigitC _ h2,
      ih (fun x hx => hd x (List.mem_cons_of_mem _ hx))]
    show some ((16 * (b / 16) + b % 16) :: rest) = some (b :: rest)
    rw [Nat.div_add_mod b 16]

theorem hexEncode_length (d : Str) : (hexEncode d).length = 2 * d.length := by
  induction d with
  | nil => rfl
  | cons b rest ih =>
    rw [hexEncode_cons, List.length_cons, List.length_cons, ih,
      List.length_cons]
    omega

theorem decEncAux_digits :
    ∀ (fuel n : Nat), ∀ c ∈ decEncAux fuel n, 48 ≤ c ∧ c ≤ 57
  | 0, _ => by simp [decEncAux]
  | _ + 1, 0 => by simp [decEncAux]
  | fuel + 1, n + 1 => by
    intro c hc
    rw [decEncAux] at hc
    rcases List.mem_append.mp hc with h1 | h2
    · exact decEncAux_digits fuel ((n + 1) / 10) c h1
    · have hce : c = 48 + (n + 1) % 10 := by simpa using h2
      have := Nat.mod_lt (n + 1) (show 0 < 10 by omega)
      omega

theorem decEnc_digits (n : Nat) : ∀ c ∈ decEnc n, 48 ≤ c ∧ c ≤ 57 := by
  cases n with
  | zero => simp [decEnc]
  | succ m => exact decEncAux_digits (m + 1) (m + 1)

theorem decFold_snoc_digit (xs : Str) (d acc v : Nat)
    (hd : isDigit d = true) (hxs : decFold xs acc = some v) :
    decFold (xs ++ [d]) acc = some (v * 10 + (d - 48)) := by
  induction xs generalizing acc with
  | nil =>
    rw [show v = acc from (Option.some_inj.mp hxs).symm]
    show decFold [d] acc = _
    rw [decFold, if_pos hd]
    rfl
  | cons c cs ih =>
    rw [decFold] at hxs
    show decFold (c :: (cs ++ [d])) acc = _
    rw [decFold]
    split at hxs
    next hc =>
      rw [if_pos hc]
      exact ih _ hxs
    next hc => exact absurd hxs (by simp)

theorem decFold_decEncAux :
    ∀ (fuel n acc : Nat), n ≤ fuel →
      decFold (decEncAux fuel n) acc =
        some (acc * 10 ^ (decEncAux fuel n).length + n)
  | 0, n, acc => by
    intro hn
    have hn0 : n = 0 := by omega
    subst hn0
    simp [decEncAux, decFold]
  | fuel + 1, 0, acc => by
    intro _
    simp [decEncAux, decFold]
  | fuel + 1, n + 1, acc => by
    intro hn
    have hq : (n + 1) / 10 ≤ fuel := by
      have := Nat.div_lt_self (show 0 < n + 1 by omega) (show 1 < 10 by omega)
      omega
    have hr := Nat.mod_lt (n + 1) (show 0 < 10 by omega)
    rw [decEncAux, decFold_snoc_digit _ _ _ _
      (by rw [isDigit]; exact decide_eq_true (by omega))
      (decFold_decEncAux fuel ((n + 1) / 10) acc hq)]
    congr 1
    rw [List.length_append, List.length_cons, List.length_nil]
    calc (acc * 10 ^ (decEncAux fuel ((n + 1) / 10)).length + (n + 1) / 10) *
          10 + (48 + (n + 1) % 10 - 48)
        = acc * (10 ^ (decEncAux fuel ((n + 1) / 10)).length * 10) +
          (10 * ((n + 1) / 10) + (n + 1) % 10) := by
          have he : 48 + (n + 1) % 10 - 48 = (n + 1) % 10 := by omega
          rw [he]
          ring
      _ = acc * 10 ^ ((decEncAux fuel ((n + 1) / 10)).length + 0 + 1) +
          (n + 1) := by
          rw [Nat.div_add_mod, ← pow_succ]

theorem decFold_decEnc (n : Nat) : decFold (decEnc n) 0 = some n := by
  cases n with
  | zero =>
    show decFold [48] 0 = some 0
    rw [decFold, if_pos (by rw [isDigit]; exact decide_eq_true (by omega))]
    rfl
  | succ m =>
    rw [decEnc, decFold_decEncAux (m + 1) (m + 1) 0 (le_refl _)]
    rw [Nat.zero_mul, Nat.zero_add]

theorem decEnc_ne_nil (n : Nat) : decEnc n ≠ [] := by
  cases n with
  | zero => simp [decEnc]
  | succ m =>
    rw [decEnc, decEncAux]
    simp

theorem decParse63_decEnc (n : Nat) (hn : n < 2 ^ 63) :
    decParse63 (decEnc n) = some n := by
  rw [decParse63, if_neg (decEnc_ne_nil n), decFold_decEnc]
  show (if n < 2 ^ 63 then some n else none) = some n
  rw [if_pos hn]

theorem timeParse_timeFormat (t : Nat) : timeParse (timeFormat t) = some t := by
  rw [timeFormat, timeParse, decFold_decEnc]
  show (if decEnc t ≠ [] ∧ decEnc t = decEnc t then some t else none) = some t
  rw [if_pos ⟨decEnc_ne_nil t, rfl⟩]

theorem cutTSS_no (p : Str) (h : hasTSS p = false) : cutTSS p = (p, []) := by
  induction p with
  | nil => rfl
  | cons c cs ih =>
    rw [hasTSS, Bool.or_eq_false_iff, Bool.and_eq_false_iff] at h
    rw [cutTSS, if_neg ?_, ih h.2]
    intro hc
    rcases h.1 with h1 | h1
    · exact absurd (decide_eq_true hc.1) (by simp [h1])
    · exact absurd (decide_eq_true hc.2) (by simp [h1])

theorem cutTSS_marker (p : Str) (t : Str) (h : hasTSS p = false) :
    cutTSS (p ++ 9 :: 47 :: 47 :: t) = (p, t) := by
  induction p with
  | nil =>
    show cutTSS (9 :: 47 :: 47 :: t) = ([], t)
    rw [cutTSS, if_pos ⟨rfl, rfl⟩]
    rfl
  | cons c cs ih =>
    rw [hasTSS, Bool.or_eq_false_iff, Bool.and_eq_false_iff] at h
    show cutTSS (c :: (cs ++ 9 :: 47 :: 47 :: t)) = (c :: cs, t)
    rw [cutTSS, if_neg ?_, ih h.2]
    intro hc
    rcases h.1 with h1 | h1
    · exact absurd (decide_eq_true hc.1) (by simp [h1])
    · match cs with
      | [] =>
        have h2 : ([9, 47] : Str) = [47, 47] := hc.2
        simp at h2
      | [x] =>
        have h2 : ([x, 9] : Str) = [47, 47] := hc.2
        simp at h2
      | x :: y :: zs =>
        rw [decide_eq_false_iff_not] at h1
        exact absurd (show (x :: y :: zs).take 2 = [47, 47] from hc.2) h1

theorem dropCR_id (l : Str) (h : l.getLastD 0 ≠ 13) : dropCR l = l := by
  rw [dropCR, if_neg h]

theorem splitLinesGo_chunk :
    ∀ (l cur rest : Str), (∀ c ∈ l, c ≠ 10) →
      splitLinesGo cur (l ++ 10 :: rest) =
        dropCR (cur ++ l) :: splitLinesGo [] rest
  | [], cur, rest => by
    intro _
    show splitLinesGo cur (10 :: rest) = _
    rw [splitLinesGo, if_pos rfl, List.append_nil]
  | c :: l2, cur, rest => by
    intro h
    show splitLinesGo cur (c :: (l2 ++ 10 :: rest)) = _
    rw [splitLinesGo, if_neg (h c (List.mem_cons_self _ _)),
      splitLinesGo_chunk l2 (cur ++ [c]) rest
        (fun x hx => h x (List.mem_cons_of_mem _ hx)),
      List.append_assoc, List.singleton_append]

theorem splitLines_linesJoin :
    ∀ (ls : List Str),
      (∀ l ∈ ls, (∀ c ∈ l, c ≠ 10) ∧ l.getLastD 0 ≠ 13) →
      splitLines (linesJoin ls) = ls
  | [] => by intro _; rfl
  | l :: ls2 => by
    intro h
    rw [splitLines, linesJoin,
      splitLinesGo_chunk l [] (linesJoin ls2)
        (h l (List.mem_cons_self _ _)).1,
      List.nil_append,
      dropCR_id l (h l (List.mem_cons_self _ _)).2]
    have h2 := splitLines_linesJoin ls2
      (fun x hx => h x (List.mem_cons_of_mem _ hx))
    rw [splitLines] at h2
    rw [h2]

theorem indexOf9_split :
    ∀ (a b : Str), (∀ c ∈ a, c ≠ 9) → (a ++ 9 :: b).indexOf 9 = a.length
  | [], b => by
    intro _
    show (9 :: b).indexOf 9 = 0
    exact List.indexOf_cons_self _ _
  | c :: a2, b => by
    intro h
    show (c :: (a2 ++ 9 :: b)).indexOf 9 = a2.length + 1
    rw [List.indexOf_cons_ne _ (h c (List.mem_cons_self _ _)),
      indexOf9_split a2 b (fun x hx => h x (List.mem_cons_of_mem _ hx))]

theorem indexOf9_none :
    ∀ (a : Str), (∀ c ∈ a, c ≠ 9) → a.indexOf 9 = a.length
  | [] => by intro _; rfl
  | c :: a2 => by
    intro h
    show (c :: a2).indexOf 9 = a2.length + 1
    rw [List.indexOf_cons_ne _ (h c (List.mem_cons_self _ _)),
      indexOf9_none a2 (fun x hx => h x (List.mem_cons_of_mem _ hx))]

theorem drop_split9 (a b : Str) : (a ++ 9 :: b).drop (a.length + 1) = b := by
  have h1 : a ++ 9 :: b = (a ++ [9]) ++ b := by simp
  have h2 : a.length + 1 = (a ++ [9]).length := by simp
  rw [h1, h2, List.drop_left]

theorem parseFlag_flagString_lt8 :
    ∀ n < 8, n ≠ 4 → parseFlag (flagString n) = some n := by
  decide

theorem flagString_chars :
    ∀ n < 8, ∀ c ∈ flagString n, c ≠ 9 ∧ c ≠ 10 ∧ c ≠ 13 := by
  decide

theorem take2_ne99 (n : Nat) (hn : n < 8) (p rest : Str)
    (hpne : p ≠ []) (hp : p.take 1 ≠ [9]) :
    (flagString n ++ 9 :: (p ++ rest)).take 2 ≠ [9, 9] := by
  have hc : ∀ c ∈ p, True := fun _ _ => trivial
  clear hc
  match p, hpne with
  | c :: p2, _ =>
    have hc9 : c ≠ 9 := by
      intro hc
      exact hp (by rw [hc]; rfl)
    interval_cases n
    · intro hq
      have h2 : ([9, c] : Str) = [9, 9] := hq
      simp at h2
      exact hc9 h2
    · intro hq
      have h2 : ([68, 9] : Str) = [9, 9] := hq
      simp at h2
    · intro hq
      have h2 : ([74, 9] : Str) = [9, 9] := hq
      simp at h2
    · intro hq
      have h2 : ([75, 9] : Str) = [9, 9] := hq
      simp at h2
    · intro hq
      have h2 : ([9, c] : Str) = [9, 9] := hq
      simp at h2
      exact hc9 h2
    · intro hq
      have h2 : ([68, 88] : Str) = [9, 9] := hq
      simp at h2
    · intro hq
      have h2 : ([74, 88] : Str) = [9, 9] := hq
      simp at h2
    · intro hq
      have h2 : ([75, 88] : Str) = [9, 9] := hq
      simp at h2

theorem trimRightWs_last (p : Str) (hpne : p ≠ [])
    (h : trimRightWs p = p) : p.getLastD 0 ≠ 13 := by
  intro h13
  have hrev : p.reverse.head? = some 13 := by
    rw [List.head?_reverse]
    rw [List.getLastD_eq_getLast?] at h13
    cases hl : p.getLast? with
    | none =>
      rw [hl] at h13
      simp at h13
    | some v =>
      rw [hl] at h13
      simp at h13
      rw [h13]
  match hrev2 : p.reverse, hrev with
  | c :: rest, hr =>
    have hc : c = 13 := by
      rw [hrev2] at hrev
      simpa using hrev
    have hlen : (trimRightWs p).length < p.length := by
      rw [trimRightWs, hrev2, hc]
      rw [List.dropWhile_cons_of_pos (by rw [wsByte]; exact decide_eq_true (by omega))]
      have h1 := List.Sublist.length_le ((List.dropWhile_sublist wsByte : List.Sublist (rest.dropWhile wsByte) rest))
      have h2 : p.length = rest.length + 1 := by
        have := congrArg List.length hrev2
        simpa using this
      simp only [List.length_reverse]
      omega
    rw [h] at hlen
    omega

theorem dropWhile9_pad :
    ∀ (k : Nat) (s : Str), (∀ c ∈ s.take 1, c ≠ 9) →
      (List.replicate k 9 ++ s).dropWhile (fun c => decide (c = 9)) = s
  | 0, s => by
    intro h
    rw [List.replicate_zero, List.nil_append]
    cases s with
    | nil => rfl
    | cons c cs =>
      have hc : c ≠ 9 := h c (by simp)
      rw [List.dropWhile_cons_of_neg (by simpa using hc)]
  | k + 1, s => by
    intro h
    rw [List.replicate_succ, List.cons_append,
      List.dropWhile_cons_of_pos (by simp)]
    exact dropWhile9_pad k s h

theorem readFileEntry_time (g : List File) (fl : Nat) (p : Str) (k t : Nat)
    (hst : strictOk p = true) :
    readFileEntry g fl (p, 9 :: (List.replicate k 9 ++ timeFormat t)) =
      some { path := p, digest := zero32, size := 0, modTime := t, flag := fl } := by
  have hdw : (9 :: (List.replicate k 9 ++ timeFormat t)).dropWhile
      (fun c => decide (c = 9)) = timeFormat t := by
    have hsh : (9 : Nat) :: (List.replicate k 9 ++ timeFormat t) =
        List.replicate (k + 1) 9 ++ timeFormat t := by
      rw [List.replicate_succ, List.cons_append]
    rw [hsh]
    refine dropWhile9_pad (k + 1) (timeFormat t) ?_
    intro c hc
    have hc2 := decEnc_digits t c (List.mem_of_mem_take hc)
    omega
  rw [readFileEntry, if_pos hst, if_pos (by simp), hdw, timeParse_timeFormat]

theorem readFileEntry_inherit (g : List File) (fl : Nat) (p : Str)
    (pf : File) (hst : strictOk p = true) (hlast : g.getLast? = some pf) :
    readFileEntry g fl (p, []) =
      some { path := p, digest := zero32, size := 0, modTime := pf.modTime, flag := fl } := by
  rw [readFileEntry, if_pos hst, if_neg (by simp), hlast]

theorem readLine_fileline (g : List File) (groups : List (List File))
    (fl : Nat) (hfl8 : fl < 8) (hfl4 : fl ≠ 4)
    (p tail : Str) (hpne : p ≠ []) (hp9 : p.take 1 ≠ [9])
    (F : File)
    (hentry : readFileEntry g fl (cutTSS (p ++ tail)) = some F) :
    readLine g groups (flagString fl ++ 9 :: (p ++ tail)) =
      some (g ++ [F], groups) := by
  have hflchars := flagString_chars fl hfl8
  have hidx : (flagString fl ++ 9 :: (p ++ tail)).indexOf 9 =
      (flagString fl).length :=
    indexOf9_split _ _ (fun c hc => (hflchars c hc).1)
  rw [readLine, if_neg (take2_ne99 fl hfl8 p tail hpne hp9), hidx,
    if_pos (by simp), List.take_left, parseFlag_flagString_lt8 fl hfl8 hfl4]
  split
  next heq => exact absurd heq (by simp)
  next fl2 heq =>
    injection heq with heq
    subst heq
    rw [drop_split9, hentry]

theorem readLine_digest (g : List File) (groups : List (List File))
    (hg : g ≠ []) (d : Str) (hd1 : d.length = 32) (hd2 : ∀ b ∈ d, b < 256)
    (sz : Int) (hsz0 : 0 ≤ sz) (hsz1 : sz < 2 ^ 63) :
    readLine g groups
      (9 :: 9 :: (hexEncode d ++ 9 :: decEnc ((sz % 2 ^ 64).toNat))) =
      some ([], groups ++ [g.map (fun f => { f with digest := d, size := sz })]) := by
  have hmod : sz % 2 ^ 64 = sz := Int.emod_eq_of_lt hsz0 (by norm_num; omega)
  have hN : (((sz % 2 ^ 64).toNat : Nat) : Int) = sz := by
    rw [hmod]
    exact Int.toNat_of_nonneg hsz0
  have hNlt : (sz % 2 ^ 64).toNat < 2 ^ 63 := by
    rw [hmod]
    omega
  have hidx : (hexEncode d ++ 9 :: decEnc ((sz % 2 ^ 64).toNat)).indexOf 9 =
      (hexEncode d).length :=
    indexOf9_split _ _ (fun c hc => (hexEncode_chars d hd2 c hc).1)
  have hdrop2 : ((9 : Nat) :: 9 ::
      (hexEncode d ++ 9 :: decEnc ((sz % 2 ^ 64).toNat))).drop 2 =
      hexEncode d ++ 9 :: decEnc ((sz % 2 ^ 64).toNat) := rfl
  rw [readLine]
  split
  next =>
    rw [hdrop2, hidx, if_pos (by simp),
      List.take_left, hexDecode_hexEncode d hd2]
    split
    next heq => exact absurd heq (by simp)
    next d2 heq =>
      injection heq with heq
      subst heq
      rw [if_pos hd1, drop_split9, decParse63_decEnc _ hNlt]
      split
      next heq2 => exact absurd heq2 (by simp)
      next sz2 heq2 =>
        injection heq2 with heq2
        subst heq2
        rw [hN]
  next hne => exact absurd rfl hne

theorem fileWF_parts (f : File) (h : fileWF f = true) :
    flagWrite f.flag = true ∧ f.flag < 8 ∧ f.flag ≠ 4 ∧
      f.digest.length = 32 ∧ (∀ b ∈ f.digest, b < 256) ∧
      0 ≤ f.size ∧ f.size < 2 ^ 63 ∧ strictOk f.path = true ∧
      f.path ≠ [] ∧ f.path.take 1 ≠ [9] ∧ (∀ c ∈ f.path, c ≠ 10) ∧
      hasTSS f.path = false := by
  rw [fileWF, pathWF] at h
  simp only [Bool.and_eq_true, decide_eq_true_eq, List.all_eq_true,
    Bool.not_eq_true'] at h
  obtain ⟨⟨⟨⟨⟨⟨⟨hw, h8⟩, h4⟩, hdl⟩, hdb⟩, hs0⟩, hs1⟩,
    ⟨⟨⟨⟨hst, hne⟩, ht9⟩, hn10⟩, hts⟩⟩ := h
  exact ⟨hw, h8, h4, hdl, hdb, hs0, hs1, hst, hne, ht9, hn10, hts⟩

/-- Evaluation of `read` on one written entry line: the file comes
back with its path, flag, and modification time (parsed or inherited),
and zeroed digest and size. -/
theorem readLine_entry (align : Nat) (prev : Option File)
    (gAcc : List File) (groups : List (List File)) (f : File)
    (hWF : fileWF f = true)
    (hprev : match prev with
      | none => gAcc = []
      | some p => ∃ pf, gAcc.getLast? = some pf ∧ pf.modTime = p.modTime) :
    readLine gAcc groups (fileLine align prev f) =
      some (gAcc ++ [stripF f], groups) := by
  obtain ⟨hw, h8, h4, hdl, hdb, hs0, hs1, hst, hne, ht9, hn10, hts⟩ :=
    fileWF_parts f hWF
  rw [fileLine]
  refine readLine_fileline gAcc groups f.flag h8 h4 f.path
    (mtimeTail align prev f) hne ht9 (stripF f) ?_
  cases prev with
  | none =>
    rw [show mtimeTail align none f =
        timeTag align (lineWidthOf f) f.modTime from rfl, timeTag]
    have hsh : f.path ++
        ([9, 47, 47, 9] ++ List.replicate ((align - lineWidthOf f) / 8) 9 ++
          timeFormat f.modTime) =
        f.path ++ 9 :: 47 :: 47 ::
          (9 :: (List.replicate ((align - lineWidthOf f) / 8) 9 ++
            timeFormat f.modTime)) := by
      simp
    rw [hsh, cutTSS_marker f.path _ hts]
    exact readFileEntry_time gAcc f.flag f.path _ f.modTime hst
  | some p =>
    obtain ⟨pf, hlast, hpmt⟩ := hprev
    by_cases hmt : f.modTime = p.modTime
    · have hpm : pf.modTime = f.modTime := hpmt.trans hmt.symm
      by_cases htr : trimRightWs f.path ≠ f.path
      · rw [show mtimeTail align (some p) f =
            (if f.modTime = p.modTime then
              (if trimRightWs f.path ≠ f.path then [9, 47, 47] else [])
            else timeTag align (lineWidthOf f) f.modTime) from rfl,
          if_pos hmt, if_pos htr, cutTSS_marker f.path [] hts,
          readFileEntry_inherit gAcc f.flag f.path pf hst hlast, hpm]
        rfl
      · rw [show mtimeTail align (some p) f =
            (if f.modTime = p.modTime then
              (if trimRightWs f.path ≠ f.path then [9, 47, 47] else [])
            else timeTag align (lineWidthOf f) f.modTime) from rfl,
          if_pos hmt, if_neg htr, List.append_nil, cutTSS_no f.path hts,
          readFileEntry_inherit gAcc f.flag f.path pf hst hlast, hpm]
        rfl
    · rw [show mtimeTail align (some p) f =
          (if f.modTime = p.modTime then
            (if trimRightWs f.path ≠ f.path then [9, 47, 47] else [])
          else timeTag align (lineWidthOf f) f.modTime) from rfl,
        if_neg hmt, timeTag]
      have hsh : f.path ++
          ([9, 47, 47, 9] ++ List.replicate ((align - lineWidthOf f) / 8) 9 ++
            timeFormat f.modTime) =
          f.path ++ 9 :: 47 :: 47 ::
            (9 :: (List.replicate ((align - lineWidthOf f) / 8) 9 ++
              timeFormat f.modTime)) := by
        simp
      rw [hsh, cutTSS_marker f.path _ hts]
      exact readFileEntry_time gAcc f.flag f.path _ f.modTime hst

/-- The reader rebuilds a written run of entry lines as the stripped
files, in order, appended to the current group. -/
theorem readLinesGo_files :
    ∀ (fs : List File) (align : Nat) (prev : Option File)
      (gAcc : List File) (more : List Str) (groups : List (List File)),
      (∀ f ∈ fs, fileWF f = true) →
      (match prev with
        | none => gAcc = []
        | some p => ∃ pf, gAcc.getLast? = some pf ∧ pf.modTime = p.modTime) →
      readLinesGo (groupLines align prev fs ++ more) gAcc groups =
        readLinesGo more (gAcc ++ fs.map stripF) groups
  | [], align, prev, gAcc, more, groups => by
    intro _ _
    rw [groupLines, List.nil_append, List.map_nil, List.append_nil]
  | f :: fs2, align, prev, gAcc, more, groups => by
    intro hWF hprev
    have hw := (fileWF_parts f (hWF f (List.mem_cons_self _ _))).1
    rw [groupLines, if_pos hw, List.singleton_append, List.cons_append,
      readLinesGo, readLine_entry align prev gAcc groups f
        (hWF f (List.mem_cons_self _ _)) hprev]
    show readLinesGo (groupLines align (some f) fs2 ++ more)
      (gAcc ++ [stripF f]) groups = _
    rw [readLinesGo_files fs2 align (some f) (gAcc ++ [stripF f]) more groups
      (fun x hx => hWF x (List.mem_cons_of_mem _ hx))
      ⟨stripF f, List.getLast?_concat gAcc, rfl⟩,
      List.map_cons, List.append_assoc, List.singleton_append]

theorem getLast?_some_of_ne_nil (l : Str) (h : l ≠ []) :
    ∃ a, l.getLast? = some a := by
  cases hl : l.getLast? with
  | none => exact absurd (List.getLast?_eq_none_iff.mp hl) h
  | some a => exact ⟨a, rfl⟩

theorem timeTag_chars (align lw t : Nat) :
    ∀ c ∈ timeTag align lw t, c ≠ 10 := by
  intro c hc
  rw [timeTag] at hc
  rcases List.mem_append.mp hc with h1 | h2
  · rcases List.mem_append.mp h1 with h3 | h4
    · have : c = 9 ∨ c = 47 ∨ c = 47 ∨ c = 9 := by simpa using h3
      omega
    · have : c = 9 := List.eq_of_mem_replicate h4
      omega
  · have := decEnc_digits t c h2
    omega

theorem timeTag_getLast? (align lw t : Nat) :
    (timeTag align lw t).getLast? = (timeFormat t).getLast? := by
  rw [timeTag, List.append_assoc]
  rw [List.getLast?_append_of_ne_nil [9, 47, 47, 9]
    (show List.replicate ((align - lw) / 8) 9 ++ timeFormat t ≠ [] by
      intro hx
      exact decEnc_ne_nil t (List.append_eq_nil.mp hx).2)]
  rw [List.getLast?_append_of_ne_nil (List.replicate ((align - lw) / 8) 9)
    (show timeFormat t ≠ [] from decEnc_ne_nil t)]

theorem decEnc_getLastD (t : Nat) : (decEnc t).getLastD 0 ≠ 13 := by
  obtain ⟨a, ha⟩ := getLast?_some_of_ne_nil (decEnc t) (decEnc_ne_nil t)
  have hd := decEnc_digits t a (List.mem_of_mem_getLast? ha)
  rw [List.getLastD_eq_getLast?, ha]
  simp
  omega

theorem mtimeTail_chars (align : Nat) (prev : Option File) (f : File) :
    ∀ c ∈ mtimeTail align prev f, c ≠ 10 := by
  intro c hc
  cases prev with
  | none => exact timeTag_chars _ _ _ c hc
  | some p =>
    rw [show mtimeTail align (some p) f =
        (if f.modTime = p.modTime then
          (if trimRightWs f.path ≠ f.path then [9, 47, 47] else [])
        else timeTag align (lineWidthOf f) f.modTime) from rfl] at hc
    by_cases hmt : f.modTime = p.modTime
    · rw [if_pos hmt] at hc
      by_cases htr : trimRightWs f.path ≠ f.path
      · rw [if_pos htr] at hc
        have : c = 9 ∨ c = 47 ∨ c = 47 := by simpa using hc
        omega
      · rw [if_neg htr] at hc
        simp at hc
    · rw [if_neg hmt] at hc
      exact timeTag_chars _ _ _ c hc

theorem fileLine_chars (align : Nat) (prev : Option File) (f : File)
    (hWF : fileWF f = true) :
    (∀ c ∈ fileLine align prev f, c ≠ 10) ∧
      (fileLine align prev f).getLastD 0 ≠ 13 := by
  obtain ⟨hw, h8, h4, hdl, hdb, hs0, hs1, hst, hne, ht9, hn10, hts⟩ :=
    fileWF_parts f hWF
  constructor
  · intro c hc
    rw [fileLine] at hc
    rcases List.mem_append.mp hc with h1 | h2
    · exact (flagString_chars f.flag h8 c h1).2.1
    · rcases List.mem_cons.mp h2 with rfl | h3
      · omega
      · rcases List.mem_append.mp h3 with h4p | h5
        · exact hn10 c h4p
        · exact mtimeTail_chars align prev f c h5
  · rw [fileLine, List.getLastD_eq_getLast?,
      List.getLast?_append_of_ne_nil _ (by simp)]
    cases prev with
    | none =>
      rw [show mtimeTail align none f =
          timeTag align (lineWidthOf f) f.modTime from rfl]
      rw [show (9 : Nat) :: (f.path ++ timeTag align (lineWidthOf f) f.modTime) =
          (9 :: f.path) ++ timeTag align (lineWidthOf f) f.modTime by simp]
      rw [List.getLast?_append_of_ne_nil _
        (by rw [timeTag]; simp [timeFormat, decEnc_ne_nil f.modTime]),
        timeTag_getLast?]
      rw [← List.getLastD_eq_getLast?]
      exact decEnc_getLastD f.modTime
    | some p =>
      rw [show mtimeTail align (some p) f =
          (if f.modTime = p.modTime then
            (if trimRightWs f.path ≠ f.path then [9, 47, 47] else [])
          else timeTag align (lineWidthOf f) f.modTime) from rfl]
      by_cases hmt : f.modTime = p.modTime
      · rw [if_pos hmt]
        by_cases htr : trimRightWs f.path ≠ f.path
        · rw [if_pos htr]
          rw [show (9 : Nat) :: (f.path ++ [9, 47, 47]) =
              (9 :: f.path) ++ [9, 47, 47] by simp]
          rw [List.getLast?_append_of_ne_nil _ (by simp)]
          simp
        · rw [if_neg htr, List.append_nil]
          rw [show (9 : Nat) :: f.path = [9] ++ f.path by simp]
          rw [List.getLast?_append_of_ne_nil _ hne,
            ← List.getLastD_eq_getLast?]
          have htr2 : trimRightWs f.path = f.path := by
            by_contra hx
            exact htr hx
          exact trimRightWs_last f.path hne htr2
      · rw [if_neg hmt]
        rw [show (9 : Nat) :: (f.path ++ timeTag align (lineWidthOf f) f.modTime) =
            (9 :: f.path) ++ timeTag align (lineWidthOf f) f.modTime by simp]
        rw [List.getLast?_append_of_ne_nil _
          (by rw [timeTag]; simp [timeFormat, decEnc_ne_nil f.modTime]),
          timeTag_getLast?]
        rw [← List.getLastD_eq_getLast?]
        exact decEnc_getLastD f.modTime

theorem digestLine_chars (f0 : File) (hdb : ∀ b ∈ f0.digest, b < 256) :
    (∀ c ∈ digestLine f0, c ≠ 10) ∧ (digestLine f0).getLastD 0 ≠ 13 := by
  constructor
  · intro c hc
    rw [digestLine] at hc
    rcases List.mem_cons.mp hc with rfl | h2
    · omega
    · rcases List.mem_cons.mp h2 with rfl | h3
      · omega
      · rcases List.mem_append.mp h3 with h4 | h5
        · exact (hexEncode_chars f0.digest hdb c h4).2
        · rcases List.mem_cons.mp h5 with rfl | h6
          · omega
          · have := decEnc_digits _ c h6
            omega
  · rw [digestLine, List.getLastD_eq_getLast?]
    show (((9 :: 9 :: ([] : Str)) ++ hexEncode f0.digest) ++ (9 :: decEnc ((f0.size % (2 ^ 64 : Int)).toNat))).getLast?.getD 0 ≠ 13
    rw [List.getLast?_append_of_ne_nil ((9 :: 9 :: ([] : Str)) ++ hexEncode f0.digest) (show (9 : Nat) :: decEnc ((f0.size % (2 ^ 64 : Int)).toNat) ≠ [] by simp)]
    show ((([9] : Str) ++ decEnc ((f0.size % (2 ^ 64 : Int)).toNat)).getLast?).getD 0 ≠ 13
    rw [List.getLast?_append_of_ne_nil [9] (decEnc_ne_nil _),
      ← List.getLastD_eq_getLast?]
    exact decEnc_getLastD _

theorem groupLines_chars :
    ∀ (fs : List File) (align : Nat) (prev : Option File),
      (∀ f ∈ fs, fileWF f = true) →
      ∀ l ∈ groupLines align prev fs,
        (∀ c ∈ l, c ≠ 10) ∧ l.getLastD 0 ≠ 13
  | [], align, prev => by
    intro _ l hl
    rw [groupLines] at hl
    simp at hl
  | f :: fs2, align, prev => by
    intro hWF l hl
    rw [groupLines] at hl
    rcases List.mem_append.mp hl with h1 | h2
    · by_cases hw : flagWrite f.flag = true
      · rw [if_pos hw] at h1
        rcases List.mem_singleton.mp h1 with rfl
        exact fileLine_chars align prev f (hWF f (List.mem_cons_self _ _))
      · rw [if_neg hw] at h1
        simp at h1
    · exact groupLines_chars fs2 align (some f)
        (fun x hx => hWF x (List.mem_cons_of_mem _ hx)) l h2

theorem map_restore :
    ∀ (g : List File) (d : Str) (szz : Int),
      (∀ f ∈ g, f.digest = d ∧ f.size = szz) →
      (g.map stripF).map (fun f => { f with digest := d, size := szz }) = g
  | [], _, _ => by intro _; rfl
  | f :: rest, d, szz => by
    intro h
    rw [List.map_cons, List.map_cons,
      map_restore rest d szz (fun x hx => h x (List.mem_cons_of_mem _ hx))]
    obtain ⟨h1, h2⟩ := h f (List.mem_cons_self _ _)
    congr 1
    cases f with
    | mk p dg sz mt fl =>
      have h1b : dg = d := h1
      have h2b : sz = szz := h2
      show ({ path := p, digest := d, size := szz, modTime := mt, flag := fl } : File) = { path := p, digest := dg, size := sz, modTime := mt, flag := fl }
      rw [h1b, h2b]

theorem groupWF_parts (f0 : File) (fs : List File)
    (h : groupWF (f0 :: fs) = true) :
    (∀ f ∈ f0 :: fs, fileWF f = true) ∧
      (∀ f ∈ f0 :: fs, f.digest = f0.digest ∧ f.size = f0.size) := by
  rw [groupWF] at h
  simp only [Bool.and_eq_true, List.all_eq_true, decide_eq_true_eq] at h
  exact h

/-- A well-formed group writes successfully; its lines are clean, and
the reader turns them back into exactly the group. -/
theorem writeGroup_read (g : List File) (hWF : groupWF g = true) :
    ∃ lns, writeGroup g = some lns ∧
      (∀ l ∈ lns, (∀ c ∈ l, c ≠ 10) ∧ l.getLastD 0 ≠ 13) ∧
      ∀ (more : List Str) (groups : List (List File)),
        readLinesGo (lns ++ more) [] groups =
          readLinesGo more [] (groups ++ [g]) := by
  match g, hWF with
  | [], hWF => exact absurd hWF (by decide)
  | f0 :: fs, hWF =>
    obtain ⟨hallWF, huni⟩ := groupWF_parts f0 fs hWF
    obtain ⟨hw0, h8, h4, hdl, hdb, hs0, hs1, hst, hne, ht9, hn10, hts⟩ :=
      fileWF_parts f0 (hallWF f0 (List.mem_cons_self _ _))
    have hbool1 : (f0 :: fs).all
        (fun f => decide (f.digest = f0.digest ∧ f.size = f0.size)) = true := by
      rw [List.all_eq_true]
      intro f hf
      exact decide_eq_true (huni f hf)
    refine ⟨groupLines (alignOf (f0 :: fs)) none (f0 :: fs) ++ [digestLine f0],
      ?_, ?_, ?_⟩
    · rw [writeGroup, if_pos hbool1, if_neg ?_]
      intro hall
      rw [List.all_eq_true] at hall
      have h2 := hall f0 (List.mem_cons_self _ _)
      rw [decide_eq_true_eq] at h2
      exact h2 hw0
    · intro l hl
      rcases List.mem_append.mp hl with h1 | h2
      · exact groupLines_chars (f0 :: fs) (alignOf (f0 :: fs)) none hallWF l h1
      · rcases List.mem_singleton.mp h2 with rfl
        exact digestLine_chars f0 hdb
    · intro more groups
      rw [List.append_assoc,
        readLinesGo_files (f0 :: fs) (alignOf (f0 :: fs)) none [] _ groups
          hallWF rfl,
        List.nil_append, List.singleton_append, readLinesGo, digestLine,
        readLine_digest ((f0 :: fs).map stripF) groups (by simp) f0.digest
          hdl hdb f0.size hs0 hs1]
      show readLinesGo more []
        (groups ++ [((f0 :: fs).map stripF).map
          (fun f => { f with digest := f0.digest, size := f0.size })]) = _
      rw [map_restore (f0 :: fs) f0.digest f0.size huni]

/-- Well-formed groups all write; the body lines are clean and read
back to exactly the group list. -/
theorem writeGroups_read :
    ∀ (gs : List (List File)), (∀ g ∈ gs, groupWF g = true) →
      ∃ lns, writeGroups gs = some lns ∧
        (∀ l ∈ lns, (∀ c ∈ l, c ≠ 10) ∧ l.getLastD 0 ≠ 13) ∧
        ∀ (more : List Str) (groups : List (List File)),
          readLinesGo (lns ++ more) [] groups =
            readLinesGo more [] (groups ++ gs)
  | [], _ => by
    refine ⟨[], rfl, by simp, ?_⟩
    intro more groups
    rw [List.nil_append, List.append_nil]
  | g :: gs2, h => by
    obtain ⟨l1, hw1, hc1, hr1⟩ :=
      writeGroup_read g (h g (List.mem_cons_self _ _))
    obtain ⟨lns2, hw2, hc2, hr2⟩ :=
      writeGroups_read gs2 (fun x hx => h x (List.mem_cons_of_mem _ hx))
    refine ⟨l1 ++ lns2, ?_, ?_, ?_⟩
    · rw [writeGroups, hw1, hw2]
    · intro l hl
      rcases List.mem_append.mp hl with h1 | h2
      · exact hc1 l h1
      · exact hc2 l h2
    · intro more groups
      rw [List.append_assoc, hr1 (lns2 ++ more) groups,
        hr2 more (groups ++ [g]), List.append_assoc, List.singleton_append]

/-- **C1 (amended).**  The writer/reader round trip holds for every
well-formed index: tab/newline-free root; groups nonempty and
digest/size-uniform; every file written (a persisted flag other than
bare Gone), with a strict clean path that is nonempty, does not start
with a tab, and contains no newline and no tab-slash-slash; a 32-byte
digest; and a size in [0, 2^63).  The unamended claim fails for Gone
files with no mark, which the writer drops (see the counterexample). -/
theorem c1_round_trip (x : Index) (hWF : IndexWF x = true) :
    ∃ s, writeIndex x = some s ∧ readIndex s = some x := by
  rw [IndexWF, Bool.and_eq_true] at hWF
  have hroot : ∀ c ∈ x.root, c ≠ 9 ∧ c ≠ 10 ∧ c ≠ 13 := by
    have h1 := hWF.1
    rw [List.all_eq_true] at h1
    intro c hc
    exact decide_eq_true_eq.mp (h1 c hc)
  have hgs : ∀ g ∈ x.groups, groupWF g = true := by
    have h2 := hWF.2
    rw [List.all_eq_true] at h2
    exact h2
  obtain ⟨body, hwg, hchars, hread⟩ := writeGroups_read x.groups hgs
  refine ⟨linesJoin (v1S :: x.root :: body), ?_, ?_⟩
  · rw [writeIndex, hwg]
  · have hlines : ∀ l ∈ v1S :: x.root :: body,
        (∀ c ∈ l, c ≠ 10) ∧ l.getLastD 0 ≠ 13 := by
      intro l hl
      rcases List.mem_cons.mp hl with rfl | hl2
      · exact ⟨by decide, by decide⟩
      · rcases List.mem_cons.mp hl2 with rfl | hl3
        · refine ⟨fun c hc => (hroot c hc).2.1, ?_⟩
          rw [List.getLastD_eq_getLast?]
          cases hlast : x.root.getLast? with
          | none => simp
          | some a =>
            have ha := (hroot a (List.mem_of_mem_getLast? hlast)).2.2
            simpa using ha
        · exact hchars l hl3
    rw [readIndex, splitLines_linesJoin (v1S :: x.root :: body) hlines]
    show (if v1S = v1S then
        if x.root.indexOf 9 < x.root.length then none
        else
          match readLinesGo body [] [] with
          | none => none
          | some groups => some { root := x.root, groups := groups }
      else none) = some x
    rw [if_pos rfl]
    have hidx : x.root.indexOf 9 = x.root.length :=
      indexOf9_none x.root (fun c hc => (hroot c hc).1)
    rw [hidx, if_neg (lt_irrefl _)]
    have hb : readLinesGo body [] [] = some x.groups := by
      have h3 := hread [] []
      rw [List.append_nil] at h3
      rw [h3, readLinesGo, if_pos rfl, List.nil_append]
    rw [hb]

def c1wx : Index :=
  { root := [114], groups := [[{ path := [97], digest := zero32, size := 5, modTime := 7, flag := 1 }]] }

theorem c1_round_trip_witness :
    ∃ s, writeIndex c1wx = some s ∧ readIndex s = some c1wx :=
  c1_round_trip c1wx (by decide)

def c1gx : Index :=
  { root := [114], groups := [[{ path := [97], digest := zero32, size := 0, modTime := 0, flag := 4 }]] }

def c1gxRead : Index := { root := [114], groups := [] }

theorem c1_round_trip_counterexample :
    (writeIndex c1gx).bind readIndex = some c1gxRead ∧ c1gxRead ≠ c1gx := by
  decide

end Fsx
